import Mathlib

/-!
# Block-tiled matrix multiplication distributed over worker processes

Shallow embedding of `ProcessManager.cpp`, `MatrixMultiplier.cpp`, `SharedMemory.cpp`,
`Utils.cpp`, `HardwareDetector.cpp` and `PerformanceAnalyzer.cpp`.

* The engine is embedded twice. In the exact reading (`ProcessManager`, `MatrixMultiplier`)
  `int` values are modelled by `Nat`: every quantity there is a size, a count or an index,
  and this is what the code computes as long as no `int` operation overflows. In the machine
  reading (`ProcessManager.Machine`) an `int` is an `Int` whose results are wrapped to 32
  bits, and a division by zero or an access outside a buffer kills the process. The two
  readings are proved to agree for sizes whose sums and products fit an `int`.
* A flat `double*` buffer is a function `Nat → α` from the element index to its content; a
  `double**` matrix is a function `Nat → Nat → α` (row, then column).
* The element type `α` only carries `+`, `*` and `0`, with no law assumed, so that the
  order of the floating-point operations is kept; the exact-arithmetic results take `α` to
  be a semiring (the integers and the rationals are instances).
* A `for` loop with stride 1 whose body leaves the counter alone is a fold over the visited
  counter values; a `for` loop with an arbitrary stride is run with a bound on the number of
  iterations and yields `none` when the bound is hit while the loop condition still holds.
-/

namespace Loop

/-- The loop `for (int x = lo; x < hi; x++) body`. -/
def forRange {σ : Type} (lo hi : Nat) (body : Nat → σ → σ) (s : σ) : σ :=
  (List.range' lo (hi - lo)).foldl (fun acc x => body x acc) s

/-- The loop `for (; x < hi; x += step) body` run for at most `fuel` iterations: `none` when
the condition still holds after `fuel` iterations, or when the body itself yields `none`. -/
def forStepAux {σ : Type} (hi step : Nat) (body : Nat → σ → Option σ) :
    Nat → Nat → σ → Option σ
  | 0, x, s => if x < hi then none else some s
  | fuel + 1, x, s =>
    if x < hi then (body x s).bind (fun s1 => forStepAux hi step body fuel (x + step) s1)
    else some s

/-- The loop `for (int x = lo; x < hi; x += step) body`; a positive stride needs at most
`hi - lo` iterations. -/
def forStep {σ : Type} (lo hi step : Nat) (body : Nat → σ → Option σ) (s : σ) : Option σ :=
  forStepAux hi step body (hi - lo) lo s

end Loop

namespace ProcessManager

/-- The local `num_blocks_per_dim = (matrix_size + block_size - 1) / block_size` of
`worker_process` and `get_total_blocks`. -/
def num_blocks_per_dim (matrix_size block_size : Nat) : Nat :=
  (matrix_size + block_size - 1) / block_size

/-- `ProcessManager::get_total_blocks`. -/
def get_total_blocks (matrix_size block_size : Nat) : Nat :=
  let n := num_blocks_per_dim matrix_size block_size
  n * n

/-- The body of `ProcessManager::calculate_block_distribution` after `total_blocks` has been
read: the loop state is `(current_block, distribution)`, `push_back` appends at the end. -/
def block_distribution (total_blocks num_processes : Nat) : List (Nat × Nat) :=
  let blocks_per_process := total_blocks / num_processes
  let remaining_blocks := total_blocks % num_processes
  (Loop.forRange 0 num_processes
    (fun p (st : Nat × List (Nat × Nat)) =>
      let start := st.1
      let count := blocks_per_process + (if p < remaining_blocks then 1 else 0)
      let end_ := start + count
      (end_, st.2 ++ [(start, end_)]))
    (0, [])).2

/-- `ProcessManager::calculate_block_distribution`. -/
def calculate_block_distribution (matrix_size block_size num_processes : Nat) :
    List (Nat × Nat) :=
  block_distribution (get_total_blocks matrix_size block_size) num_processes

/-- The decoding of a linear block index in `worker_process`:
`bi = block_idx / num_blocks_per_dim`, `bj = block_idx % num_blocks_per_dim`. -/
def block_coords (nb block_idx : Nat) : Nat × Nat :=
  (block_idx / nb, block_idx % nb)

/-- `ProcessManager::worker_process` on the three shared buffers; the result is the content
of the C buffer when the call returns. -/
def worker_process {α : Type} [Add α] [Mul α] [Zero α] (matrix_size block_size : Nat)
    (shared_A shared_B : Nat → α) (block_start block_end : Nat) (shared_C : Nat → α) :
    Option (Nat → α) :=
  let nb := num_blocks_per_dim matrix_size block_size
  Loop.forStep block_start block_end 1
    (fun block_idx C0 =>
      let bi := (block_coords nb block_idx).1
      let bj := (block_coords nb block_idx).2
      let i_start := bi * block_size
      let j_start := bj * block_size
      Loop.forStep 0 matrix_size block_size
        (fun k C1 =>
          let i_end := min (i_start + block_size) matrix_size
          let j_end := min (j_start + block_size) matrix_size
          let k_end := min (k + block_size) matrix_size
          some (Loop.forRange i_start i_end
            (fun i C2 =>
              Loop.forRange j_start j_end
                (fun j C3 =>
                  let sum := Loop.forRange k k_end
                    (fun kk sum =>
                      sum + shared_A (i * matrix_size + kk) * shared_B (kk * matrix_size + j))
                    0
                  Function.update C3 (i * matrix_size + j) (C3 (i * matrix_size + j) + sum))
                C2)
            C1))
        C0)
    shared_C

/-- The kernel `worker_process` instrumented to record, in order, the index of every
element of the C buffer it stores to (`shared_C[i * matrix_size + j] += sum`). -/
def worker_writes (matrix_size block_size block_start block_end : Nat) : Option (List Nat) :=
  let nb := num_blocks_per_dim matrix_size block_size
  Loop.forStep block_start block_end 1
    (fun block_idx W0 =>
      let bi := (block_coords nb block_idx).1
      let bj := (block_coords nb block_idx).2
      let i_start := bi * block_size
      let j_start := bj * block_size
      Loop.forStep 0 matrix_size block_size
        (fun _k W1 =>
          let i_end := min (i_start + block_size) matrix_size
          let j_end := min (j_start + block_size) matrix_size
          some (Loop.forRange i_start i_end
            (fun i W2 =>
              Loop.forRange j_start j_end
                (fun j W3 => W3 ++ [i * matrix_size + j])
                W2)
            W1))
        W0)
    []

/-- The workers of `multiply_parallel` run one after another, each to completion, over the
ranges in the order given (the dispatch loop hands `distribution[p]` to worker `p`). -/
def run_workers {α : Type} [Add α] [Mul α] [Zero α] (matrix_size block_size : Nat)
    (shared_A shared_B : Nat → α) :
    List (Nat × Nat) → (Nat → α) → Option (Nat → α)
  | [], C => some C
  | r :: rest, C =>
    (worker_process matrix_size block_size shared_A shared_B r.1 r.2 C).bind
      (fun C1 => run_workers matrix_size block_size shared_A shared_B rest C1)

/-- The shared-buffer part of `ProcessManager::multiply_parallel`: C zeroed by
`setup_shared_memory`, the distribution computed, worker `p` run on `distribution[p]`. -/
def multiply_parallel_flat {α : Type} [Add α] [Mul α] [Zero α]
    (matrix_size block_size num_processes : Nat) (shared_A shared_B : Nat → α) :
    Option (Nat → α) :=
  run_workers matrix_size block_size shared_A shared_B
    (calculate_block_distribution matrix_size block_size num_processes) (fun _ => 0)

end ProcessManager

namespace MatrixMultiplier

/-- `MatrixMultiplier::multiply_block` on the private matrices; the result is `matrixC`
after the call. -/
def multiply_block {α : Type} [Add α] [Mul α] [Zero α] (size : Nat)
    (matrixA matrixB : Nat → Nat → α) (i_start j_start k_start bs : Nat)
    (matrixC : Nat → Nat → α) : Nat → Nat → α :=
  let i_end := min (i_start + bs) size
  let j_end := min (j_start + bs) size
  let k_end := min (k_start + bs) size
  Loop.forRange i_start i_end
    (fun i C1 =>
      Loop.forRange j_start j_end
        (fun j C2 =>
          let sum := Loop.forRange k_start k_end
            (fun k sum => sum + matrixA i k * matrixB k j) 0
          Function.update C2 i (Function.update (C2 i) j (C2 i j + sum)))
        C1)
    matrixC

/-- `MatrixMultiplier::multiply_sequential`; the result is `matrixC` after the call. -/
def multiply_sequential {α : Type} [Add α] [Mul α] [Zero α] (size block_size : Nat)
    (matrixA matrixB : Nat → Nat → α) (matrixC : Nat → Nat → α) : Option (Nat → Nat → α) :=
  Loop.forStep 0 size block_size
    (fun i C1 =>
      Loop.forStep 0 size block_size
        (fun j C2 =>
          Loop.forStep 0 size block_size
            (fun k C3 => some (multiply_block size matrixA matrixB i j k block_size C3))
            C2)
        C1)
    matrixC

/-- `MatrixMultiplier::zero_matrix`: every element of the matrix set to `0.0`. -/
def zero_matrix {α : Type} [Zero α] : Nat → Nat → α := fun _ _ => 0

end MatrixMultiplier

/-! ## Closed forms and predicates used to state the properties -/

namespace ProcessManager

/-- Closed form of the first block of worker `p` when `T` blocks go to `P` workers:
`p` shares of `T / P` blocks plus one extra block for each earlier worker below `T % P`. -/
def range_start (T P p : Nat) : Nat := p * (T / P) + min p (T % P)

/-- The output cell `(i, j)` lies in the block with linear index `t`: `i` and `j` are within
the bounds `[i_start, i_end)` and `[j_start, j_end)` that `worker_process` computes for `t`. -/
def in_block (matrix_size block_size t i j : Nat) : Prop :=
  let nb := num_blocks_per_dim matrix_size block_size
  let i_start := (block_coords nb t).1 * block_size
  let j_start := (block_coords nb t).2 * block_size
  (i_start ≤ i ∧ i < min (i_start + block_size) matrix_size) ∧
    (j_start ≤ j ∧ j < min (j_start + block_size) matrix_size)

instance (matrix_size block_size t i j : Nat) :
    Decidable (in_block matrix_size block_size t i j) := by
  unfold in_block; exact inferInstance

/-- The value of `sum` after the innermost loop of `worker_process` for the cell `(i, j)` and
the k-block starting at `k`: the products are added to `0.0` for `kk` ascending. -/
def block_sum {α : Type} [Add α] [Mul α] [Zero α] (matrix_size block_size : Nat)
    (shared_A shared_B : Nat → α) (i j k : Nat) : α :=
  Loop.forRange k (min (k + block_size) matrix_size)
    (fun kk sum => sum + shared_A (i * matrix_size + kk) * shared_B (kk * matrix_size + j)) 0

/-- The value a cell `(i, j)` holding `v` gets from one pass over the k-blocks
`0, block_size, 2 * block_size, ...` in ascending order, each adding its `block_sum`. -/
def cell_fold {α : Type} [Add α] [Mul α] [Zero α] (matrix_size block_size : Nat)
    (shared_A shared_B : Nat → α) (i j : Nat) (v : α) : α :=
  (List.range' 0 (num_blocks_per_dim matrix_size block_size) block_size).foldl
    (fun acc k => acc + block_sum matrix_size block_size shared_A shared_B i j k) v

/-- The blocks of a range `[r.1, r.2)` in the order `worker_process` visits them. -/
def range_blocks (r : Nat × Nat) : List Nat := List.range' r.1 (r.2 - r.1)

/-- The linear index of the block that holds the cell `(i, j)`. -/
def block_of (matrix_size block_size i j : Nat) : Nat :=
  i / block_size * num_blocks_per_dim matrix_size block_size + j / block_size

/-- The triple loop of `worker_process` for the block `t` and the k-block starting at `k`:
every cell of the block gets its `block_sum` added. -/
def block_step {α : Type} [Add α] [Mul α] [Zero α] (matrix_size block_size : Nat)
    (shared_A shared_B : Nat → α) (t k : Nat) (C : Nat → α) : Nat → α :=
  let nb := num_blocks_per_dim matrix_size block_size
  let i_start := (block_coords nb t).1 * block_size
  let j_start := (block_coords nb t).2 * block_size
  Loop.forRange i_start (min (i_start + block_size) matrix_size)
    (fun i C2 =>
      Loop.forRange j_start (min (j_start + block_size) matrix_size)
        (fun j C3 =>
          Function.update C3 (i * matrix_size + j)
            (C3 (i * matrix_size + j)
              + block_sum matrix_size block_size shared_A shared_B i j k))
        C2)
    C

/-- The body of the block loop of `worker_process` as a fold over the k-blocks. -/
def tile_step {α : Type} [Add α] [Mul α] [Zero α] (matrix_size block_size : Nat)
    (shared_A shared_B : Nat → α) (t : Nat) (C : Nat → α) : Nat → α :=
  (List.range' 0 (num_blocks_per_dim matrix_size block_size) block_size).foldl
    (fun acc k => block_step matrix_size block_size shared_A shared_B t k acc) C

/-- The flat image, for `N = 64`, of the pattern `A[i][j] = i`. -/
def scenario_A : Nat → Int := fun idx => ((idx / 64 : Nat) : Int)

/-- The flat image, for `N = 64`, of the pattern `B[i][j] = j`. -/
def scenario_B : Nat → Int := fun idx => ((idx % 64 : Nat) : Int)

/-- The indices stored to, in order, by one pass of the triple loop of `worker_process`
over the block `t`. -/
def block_cells (matrix_size block_size t : Nat) : List Nat :=
  let nb := num_blocks_per_dim matrix_size block_size
  let i_start := (block_coords nb t).1 * block_size
  let j_start := (block_coords nb t).2 * block_size
  (List.range' i_start (min (i_start + block_size) matrix_size - i_start)).flatMap
    (fun i =>
      (List.range' j_start (min (j_start + block_size) matrix_size - j_start)).flatMap
        (fun j => [i * matrix_size + j]))

/-- The indices stored to while `worker_process` handles the block `t`: one pass of the
triple loop for each k-block. -/
def tile_writes (matrix_size block_size t : Nat) : List Nat :=
  (List.range' 0 (num_blocks_per_dim matrix_size block_size) block_size).flatMap
    (fun _ => block_cells matrix_size block_size t)

end ProcessManager

namespace MatrixMultiplier

/-- `MatrixMultiplier::get_num_blocks`. -/
def get_num_blocks (size block_size : Nat) : Nat :=
  (size + block_size - 1) / block_size

/-- The value of `sum` after the inner loop of `multiply_block` for the cell `(i, j)` and the
k-block starting at `k_start`. -/
def block_sum {α : Type} [Add α] [Mul α] [Zero α] (size bs : Nat)
    (matrixA matrixB : Nat → Nat → α) (i j k_start : Nat) : α :=
  Loop.forRange k_start (min (k_start + bs) size)
    (fun k sum => sum + matrixA i k * matrixB k j) 0

/-- The value a cell `(i, j)` holding `v` gets from the calls of `multiply_block` for the
k-blocks `0, block_size, 2 * block_size, ...` in ascending order. -/
def cell_fold {α : Type} [Add α] [Mul α] [Zero α] (size block_size : Nat)
    (matrixA matrixB : Nat → Nat → α) (i j : Nat) (v : α) : α :=
  (List.range' 0 (get_num_blocks size block_size) block_size).foldl
    (fun acc k => acc + block_sum size block_size matrixA matrixB i j k) v

end MatrixMultiplier

/-! ## Shared segments (`SharedMemory.cpp`, POSIX branch)

The operating system is modelled by the set of names of the shared-memory objects that exist
and by the log of the calls made to it. Whether a call fails for want of resources is the
environment's choice, given by an `Outcome`. A pointer is `none` for `nullptr` and `some a`
for the base address `a` of a mapping; a descriptor is an integer, `-1` for none. -/

set_option linter.dupNamespace false

namespace SharedMemory

/-- The calls `SharedMemory` makes to the operating system. -/
inductive Syscall where
  | shm_open (name : String) (o_creat : Bool)
  | ftruncate (fd : Int) (size : Nat)
  | mmap (fd : Int) (size : Nat)
  | munmap (addr : Nat) (size : Nat)
  | close (fd : Int)
  | shm_unlink (name : String)
  deriving DecidableEq

/-- The operating system as the segments see it. -/
structure World where
  /-- The names of the shared-memory objects that exist. -/
  names : List String
  /-- The calls made so far, oldest first. -/
  calls : List Syscall

/-- What the operating system answers to the calls of one constructor. -/
structure Outcome where
  /-- `shm_open` is not refused for want of resources or permission. -/
  open_ok : Bool
  /-- `ftruncate` succeeds. -/
  truncate_ok : Bool
  /-- `mmap` succeeds. -/
  map_ok : Bool
  /-- The descriptor a successful `shm_open` returns. -/
  fd : Nat
  /-- The address a successful `mmap` returns. -/
  addr : Nat

/-- The data members of a `SharedMemory` object. -/
structure State where
  name : String
  size : Nat
  ptr : Option Nat
  is_owner : Bool
  fd : Int
  created : Bool
  deriving DecidableEq

/-- The world after one more call. -/
def World.call (w : World) (c : Syscall) : World :=
  { w with calls := w.calls ++ [c] }

/-- The object `nm` exists after `shm_open` with `O_CREAT`: it is created when absent. -/
def World.create (w : World) (nm : String) : World :=
  { w with names := if nm ∈ w.names then w.names else nm :: w.names }

/-- The name `nm` is removed by `shm_unlink`. -/
def World.unlink (w : World) (nm : String) : World :=
  { w with names := w.names.filter (fun x => x ≠ nm) }

/-- The local `shm_name`: the name with a leading slash added when it has none. -/
def shm_name (name : String) : String :=
  if name.front ≠ '/' then "/" ++ name else name

/-- Lines 103-115 of the constructor: `mmap`, and on failure `close`, `shm_unlink` for a
creator, `ptr = nullptr`; on success `created = true`. -/
def map_segment (create : Bool) (o : Outcome) (s : State) (w : World) : State × World :=
  let w1 := w.call (Syscall.mmap s.fd s.size)
  if o.map_ok then
    ({ s with ptr := some o.addr, created := true }, w1)
  else
    let w2 := w1.call (Syscall.close s.fd)
    let w3 := if create then (w2.call (Syscall.shm_unlink (shm_name s.name))).unlink
      (shm_name s.name) else w2
    ({ s with ptr := none }, w3)

/-- The constructor `SharedMemory::SharedMemory(name, size, create)`. `shm_open` with
`O_CREAT | O_RDWR` opens the object of that name, creating it when it does not exist;
`shm_open` with `O_RDWR` alone needs the object to exist. -/
def SharedMemory (name : String) (size : Nat) (create : Bool) (o : Outcome) (w : World) :
    State × World :=
  let s0 : State :=
    { name := name, size := size, ptr := none, is_owner := create, fd := -1, created := false }
  if create then
    let w1 := w.call (Syscall.shm_open (shm_name name) true)
    if o.open_ok then
      let s1 := { s0 with fd := (o.fd : Int) }
      let w2 := (w1.create (shm_name name)).call (Syscall.ftruncate s1.fd size)
      if o.truncate_ok then
        map_segment create o s1 w2
      else
        (s1, ((w2.call (Syscall.close s1.fd)).call
          (Syscall.shm_unlink (shm_name name))).unlink (shm_name name))
    else
      (s0, w1)
  else
    let w1 := w.call (Syscall.shm_open (shm_name name) false)
    if o.open_ok && decide (shm_name name ∈ w.names) then
      map_segment create o { s0 with fd := (o.fd : Int) } w1
    else
      (s0, w1)

/-- `SharedMemory::get_ptr`. -/
def get_ptr (s : State) : Option Nat := s.ptr

/-- `SharedMemory::is_valid`: `created && ptr != nullptr`. -/
def is_valid (s : State) : Bool := s.created && s.ptr.isSome

/-- `SharedMemory::release` (POSIX branch). -/
def release (s : State) (w : World) : State × World :=
  match s.ptr with
  | none => (s, w)
  | some addr =>
    let w1 := w.call (Syscall.munmap addr s.size)
    let s1 := if s.fd ≠ -1 then { s with fd := -1 } else s
    let w2 := if s.fd ≠ -1 then w1.call (Syscall.close s.fd) else w1
    let w3 := if s.is_owner then
      (w2.call (Syscall.shm_unlink (shm_name s.name))).unlink (shm_name s.name) else w2
    ({ s1 with ptr := none, created := false }, w3)

/-- The state and world after the constructor and then `n` calls of `release`. -/
def after_releases (name : String) (size : Nat) (create : Bool) (o : Outcome) (w : World) :
    Nat → State × World
  | 0 => SharedMemory name size create o w
  | n + 1 =>
    release (after_releases name size create o w n).1 (after_releases name size create o w n).2

/-- Every operating-system step of the constructor succeeds: open, resize (for a creator)
and map. -/
def init_succeeds (name : String) (create : Bool) (o : Outcome) (w : World) : Bool :=
  if create then o.open_ok && o.truncate_ok && o.map_ok
  else (o.open_ok && decide (shm_name name ∈ w.names)) && o.map_ok

end SharedMemory

/-! ## The parallel engine with its segments (`ProcessManager.cpp`)

The three `unique_ptr<SharedMemory>` members are `none` while empty. The content behind the
mapping of each segment is a buffer of doubles. The environment chooses the outcome of the
system calls of each constructor and whether each `fork()` creates a child. The workers
are run one after another in index order, each to completion; the events of a call are
logged in order. -/

namespace ProcessManager

/-- The constant `sizeof(double)`. -/
def sizeof_double : Nat := 8

/-- The call `std::memcpy(&dst[off], src, bytes)` on buffers of doubles: the elements of
`src` that lie within the first `bytes` bytes are copied to `dst` from index `off` on. -/
def memcpy {α : Type} (dst : Nat → α) (off : Nat) (src : Nat → α) (bytes : Nat) : Nat → α :=
  fun idx =>
    if off ≤ idx ∧ (idx - off + 1) * sizeof_double ≤ bytes then src (idx - off) else dst idx

/-- The call `std::memset(dst, 0, bytes)` on a buffer of doubles: the elements that lie
within the first `bytes` bytes become `0.0`. -/
def memset_zero {α : Type} [Zero α] (dst : Nat → α) (bytes : Nat) : Nat → α :=
  fun idx => if (idx + 1) * sizeof_double ≤ bytes then 0 else dst idx

/-- What is logged of a call of `multiply_parallel`. -/
inductive Event where
  /-- The message of `setup_shared_memory` when a segment is not valid. -/
  | setup_error
  /-- The call `fork()` for worker `p`, and whether a child process was created. -/
  | fork (p : Nat) (child : Bool)
  /-- The child `p` calls `worker_process(block_start, block_end)`; `a`, `b`, `c` are the
  pointers it gets from the three segments. -/
  | worker (p block_start block_end : Nat) (a b c : Option Nat)
  /-- The call `waitpid` for the child of worker `p` returns. -/
  | waitpid (p : Nat)
  /-- The message of `copy_result_from_shared` when the C segment is not valid. -/
  | copy_error
  /-- The rows of the C segment are copied to the caller's matrix. -/
  | copy_result
  deriving DecidableEq

/-- The choices of the environment during one call of `multiply_parallel`. -/
structure Env where
  seg_A : SharedMemory.Outcome
  seg_B : SharedMemory.Outcome
  seg_C : SharedMemory.Outcome
  /-- Whether the `fork()` for worker `p` creates a child. -/
  fork_ok : Nat → Bool

/-- The `ProcessManager` object with what it acts on. -/
structure System (α : Type) where
  shm_A : Option SharedMemory.State
  shm_B : Option SharedMemory.State
  shm_C : Option SharedMemory.State
  world : SharedMemory.World
  mem_A : Nat → α
  mem_B : Nat → α
  mem_C : Nat → α
  events : List Event

/-- The statement `shm = std::make_unique<SharedMemory>(name, size, true)`: the new object
is constructed, then the object held before, if any, is destroyed, which releases it. -/
def make_segment (name : String) (size : Nat) (o : SharedMemory.Outcome)
    (old : Option SharedMemory.State) (w : SharedMemory.World) :
    SharedMemory.State × SharedMemory.World :=
  let r := SharedMemory.SharedMemory name size true o w
  match old with
  | none => r
  | some s => (r.1, (SharedMemory.release s r.2).2)

/-- The content behind a segment after its constructor: zeroed by the `memset` at the end of
the constructor when the segment was created and mapped. -/
def fresh_content {α : Type} [Zero α] (s : SharedMemory.State) (bytes : Nat) (old : Nat → α) :
    Nat → α :=
  if s.is_owner && s.ptr.isSome then memset_zero old bytes else old

/-- `ProcessManager::setup_shared_memory`. -/
def setup_shared_memory {α : Type} [Zero α] (matrix_size : Nat) (env : Env)
    (matrixA matrixB : Nat → Nat → α) (sys : System α) : System α :=
  let matrix_bytes := matrix_size * matrix_size * sizeof_double
  let a := make_segment "matrix_A" matrix_bytes env.seg_A sys.shm_A sys.world
  let b := make_segment "matrix_B" matrix_bytes env.seg_B sys.shm_B a.2
  let c := make_segment "matrix_C" matrix_bytes env.seg_C sys.shm_C b.2
  let sys1 : System α :=
    { shm_A := some a.1, shm_B := some b.1, shm_C := some c.1, world := c.2,
      mem_A := fresh_content a.1 matrix_bytes sys.mem_A,
      mem_B := fresh_content b.1 matrix_bytes sys.mem_B,
      mem_C := fresh_content c.1 matrix_bytes sys.mem_C,
      events := sys.events }
  if !SharedMemory.is_valid a.1 || !SharedMemory.is_valid b.1 || !SharedMemory.is_valid c.1 then
    { sys1 with events := sys1.events ++ [Event.setup_error] }
  else
    let ab := Loop.forRange 0 matrix_size
      (fun i (m : (Nat → α) × (Nat → α)) =>
        (memcpy m.1 (i * matrix_size) (matrixA i) (matrix_size * sizeof_double),
          memcpy m.2 (i * matrix_size) (matrixB i) (matrix_size * sizeof_double)))
      (sys1.mem_A, sys1.mem_B)
    { sys1 with mem_A := ab.1, mem_B := ab.2, mem_C := memset_zero sys1.mem_C matrix_bytes }

/-- `ProcessManager::copy_result_from_shared`, called when `shm_C` holds an object; the
second component is the caller's matrix after the call. -/
def copy_result_from_shared {α : Type} (matrix_size : Nat) (matrixC : Nat → Nat → α)
    (sys : System α) : System α × (Nat → Nat → α) :=
  if !(sys.shm_C.map SharedMemory.is_valid).getD false then
    ({ sys with events := sys.events ++ [Event.copy_error] }, matrixC)
  else
    ({ sys with events := sys.events ++ [Event.copy_result] },
      Loop.forRange 0 matrix_size
        (fun i M =>
          Function.update M i
            (memcpy (M i) 0 (fun j => sys.mem_C (i * matrix_size + j))
              (matrix_size * sizeof_double)))
        matrixC)

/-- What the dispatch loop of `multiply_parallel` changes: the content of the C segment, the
log and the recorded children. -/
structure Dispatch (α : Type) where
  mem_C : Nat → α
  events : List Event
  child_pids : List Nat

/-- The child process of a worker: `worker_process` on the three mappings. With a null
pointer among them the child stores nothing: it faults at its first access, or has no
block to handle. -/
def child {α : Type} [Add α] [Mul α] [Zero α] (matrix_size block_size : Nat)
    (mem_A mem_B : Nat → α) (a b c : Option Nat) (r : Nat × Nat) (mem_C : Nat → α) :
    Option (Nat → α) :=
  if a.isSome && b.isSome && c.isSome then
    worker_process matrix_size block_size mem_A mem_B r.1 r.2 mem_C
  else some mem_C

/-- `ProcessManager::multiply_parallel` (POSIX branch); the second component of the result
is the caller's `matrixC` after the call. The result is `none` when a child does not
terminate. -/
def multiply_parallel {α : Type} [Add α] [Mul α] [Zero α]
    (matrix_size block_size num_processes : Nat) (env : Env)
    (matrixA matrixB matrixC : Nat → Nat → α) (sys : System α) :
    Option (System α × (Nat → Nat → α)) :=
  let sys1 := setup_shared_memory matrix_size env matrixA matrixB sys
  let distribution := calculate_block_distribution matrix_size block_size num_processes
  let a := sys1.shm_A.bind SharedMemory.get_ptr
  let b := sys1.shm_B.bind SharedMemory.get_ptr
  let c := sys1.shm_C.bind SharedMemory.get_ptr
  (Loop.forStep 0 num_processes 1
    (fun p (d : Dispatch α) =>
      if env.fork_ok p then
        let r := distribution.getD p (0, 0)
        (child matrix_size block_size sys1.mem_A sys1.mem_B a b c r d.mem_C).map
          (fun m =>
            { mem_C := m,
              events := d.events ++ [Event.fork p true, Event.worker p r.1 r.2 a b c],
              child_pids := d.child_pids ++ [p] })
      else
        some { d with events := d.events ++ [Event.fork p false] })
    { mem_C := sys1.mem_C, events := sys1.events, child_pids := [] }).map
    (fun d =>
      copy_result_from_shared matrix_size matrixC
        { sys1 with
          mem_C := d.mem_C,
          events := d.child_pids.foldl (fun ev pid => ev ++ [Event.waitpid pid]) d.events })

/-- The destructor `ProcessManager::~ProcessManager`: the members are destroyed in the
reverse order of their declaration, and a segment destroyed is released. -/
def destroy {α : Type} (sys : System α) : System α :=
  let c := match sys.shm_C with
    | none => (none, sys.world)
    | some s => (some (SharedMemory.release s sys.world).1, (SharedMemory.release s sys.world).2)
  let b := match sys.shm_B with
    | none => (none, c.2)
    | some s => (some (SharedMemory.release s c.2).1, (SharedMemory.release s c.2).2)
  let a := match sys.shm_A with
    | none => (none, b.2)
    | some s => (some (SharedMemory.release s b.2).1, (SharedMemory.release s b.2).2)
  { sys with shm_A := a.1, shm_B := b.1, shm_C := c.1, world := a.2 }

/-- A `ProcessManager` just constructed, in a system where no shared-memory object exists:
the three members are empty. -/
def fresh {α : Type} [Zero α] : System α :=
  { shm_A := none, shm_B := none, shm_C := none, world := { names := [], calls := [] },
    mem_A := fun _ => 0, mem_B := fun _ => 0, mem_C := fun _ => 0, events := [] }

/-- An environment in which every call succeeds. -/
def env_ok : Env :=
  { seg_A := ⟨true, true, true, 3, 4096⟩, seg_B := ⟨true, true, true, 4, 8192⟩,
    seg_C := ⟨true, true, true, 5, 12288⟩, fork_ok := fun _ => true }

/-- An environment in which `shm_open` fails for the A segment and every other call
succeeds. -/
def env_A_fails : Env :=
  { env_ok with seg_A := ⟨false, true, true, 3, 4096⟩ }


/-- What the child of a worker leaves in the C segment, as a fold over the blocks of its
range. -/
def child_result {α : Type} [Add α] [Mul α] [Zero α] (matrix_size block_size : Nat)
    (mem_A mem_B : Nat → α) (a b c : Option Nat) (r : Nat × Nat) (mem_C : Nat → α) : Nat → α :=
  if a.isSome && b.isSome && c.isSome then
    (range_blocks r).foldl (fun acc t => tile_step matrix_size block_size mem_A mem_B t acc) mem_C
  else mem_C

/-- The events one iteration of the dispatch loop logs for worker `p`. -/
def dispatch_events (env : Env) (distribution : List (Nat × Nat)) (a b c : Option Nat)
    (p : Nat) : List Event :=
  if env.fork_ok p then
    [Event.fork p true,
      Event.worker p (distribution.getD p (0, 0)).1 (distribution.getD p (0, 0)).2 a b c]
  else [Event.fork p false]

/-- One iteration of the dispatch loop of `multiply_parallel`, the child having run. -/
def dispatch_step {α : Type} [Add α] [Mul α] [Zero α] (matrix_size block_size : Nat)
    (env : Env) (distribution : List (Nat × Nat)) (mem_A mem_B : Nat → α) (a b c : Option Nat)
    (p : Nat) (d : Dispatch α) : Dispatch α :=
  if env.fork_ok p then
    { mem_C := child_result matrix_size block_size mem_A mem_B a b c
        (distribution.getD p (0, 0)) d.mem_C,
      events := d.events ++ dispatch_events env distribution a b c p,
      child_pids := d.child_pids ++ [p] }
  else
    { d with events := d.events ++ dispatch_events env distribution a b c p }

end ProcessManager

/-! ## The completion barrier of `multiply_parallel` (POSIX branch)

The parent runs the fork loop, then the wait loop, then copies the result. The children
run on their own: a child terminates at a moment of its choosing. A call of `waitpid` for a
child returns only once that child has terminated. -/

namespace Barrier

/-- Where the parent is in `multiply_parallel`. -/
inductive Phase where
  /-- In the fork loop, about to call `fork()` for worker `p`. -/
  | dispatch (p : Nat)
  /-- In the wait loop, about to call `waitpid` for `child_pids[k]`. -/
  | waiting (k : Nat)
  /-- The call `copy_result_from_shared` has been made. -/
  | copied
  deriving DecidableEq

/-- The parent and its children. -/
structure State where
  phase : Phase
  /-- The pids recorded by the parent, in the order of `push_back`. -/
  child_pids : List Nat
  /-- The children created and not yet terminated. -/
  running : List Nat
  /-- The pid the next child gets. -/
  next_pid : Nat
  deriving DecidableEq

/-- What can happen next. -/
inductive Move where
  /-- The call `fork()` creates a child; the parent records its pid. -/
  | fork_child
  /-- The call `fork()` returns `-1`; the parent goes on with the next worker. -/
  | fork_fails
  /-- The fork loop ends, `p < num_processes` being false. -/
  | leave_dispatch
  /-- The child `pid` terminates. -/
  | child_exits (pid : Nat)
  /-- The call `waitpid(child_pids[k], &status, 0)` returns. -/
  | wait_returns
  /-- The wait loop has ended and the parent calls `copy_result_from_shared`. -/
  | copy_result
  deriving DecidableEq

/-- One move from a state, `none` when the move is not possible there. -/
def step (num_processes : Nat) (s : State) : Move → Option State
  | Move.fork_child =>
    match s.phase with
    | Phase.dispatch p =>
      if p < num_processes then
        some { phase := Phase.dispatch (p + 1), child_pids := s.child_pids ++ [s.next_pid],
               running := s.next_pid :: s.running, next_pid := s.next_pid + 1 }
      else none
    | _ => none
  | Move.fork_fails =>
    match s.phase with
    | Phase.dispatch p =>
      if p < num_processes then some { s with phase := Phase.dispatch (p + 1) } else none
    | _ => none
  | Move.leave_dispatch =>
    match s.phase with
    | Phase.dispatch p =>
      if p < num_processes then none else some { s with phase := Phase.waiting 0 }
    | _ => none
  | Move.child_exits pid =>
    if pid ∈ s.running then some { s with running := s.running.erase pid } else none
  | Move.wait_returns =>
    match s.phase with
    | Phase.waiting k =>
      match s.child_pids[k]? with
      | some pid =>
        if pid ∈ s.running then none else some { s with phase := Phase.waiting (k + 1) }
      | none => none
    | _ => none
  | Move.copy_result =>
    match s.phase with
    | Phase.waiting k =>
      if k < s.child_pids.length then none else some { s with phase := Phase.copied }
    | _ => none

/-- The state after a sequence of moves, `none` when one of them is not possible. -/
def run (num_processes : Nat) : State → List Move → Option State
  | s, [] => some s
  | s, m :: ms => (step num_processes s m).bind (fun s1 => run num_processes s1 ms)

/-- The parent enters the fork loop with no child. -/
def init : State :=
  { phase := Phase.dispatch 0, child_pids := [], running := [], next_pid := 1 }

/-- What holds of the children at each point of the parent: the children already waited for
have terminated. -/
def waited (s : State) : Prop :=
  match s.phase with
  | Phase.dispatch _ => True
  | Phase.waiting k => ∀ i pid, i < k → s.child_pids[i]? = some pid → pid ∉ s.running
  | Phase.copied => ∀ pid, pid ∈ s.child_pids → pid ∉ s.running

end Barrier

/-! ## Integer helpers (`Utils.cpp`) and the block size (`HardwareDetector.cpp`)

Here an `int` is an `Int` whose arithmetic results are wrapped to 32 bits in two's
complement (`wrap32`). The `while` loops take fuel and yield `none` when it runs out; 64
rounds are given, and a doubled `int` is `0` after 32 rounds and stays `0`, so a loop that
has not left by then never leaves.
-/

namespace Utils

/-- The value a 32-bit two's-complement `int` takes for the exact result `x`. -/
def wrap32 (x : Int) : Int := (x + 2 ^ 31) % 2 ^ 32 - 2 ^ 31

/-- The loop of `next_power_of_2`: `while (power < n) { power *= 2; }`. -/
def double_until (n : Int) : Nat → Int → Option Int
  | 0, _ => none
  | fuel + 1, power =>
    if power < n then double_until n fuel (wrap32 (power * 2)) else some power

/-- `Utils::next_power_of_2`. In the bit test `n` is at least 1, so `n - 1` does not wrap
and both operands of `&` are non-negative. -/
def next_power_of_2 (n : Int) : Option Int :=
  if n ≤ 0 then some 1
  else if Int.land n (n - 1) = 0 then some n
  else double_until n 64 1

/-- The loop of `generate_process_list`:
`while (p <= max_processes) { list.push_back(p); p *= 2; }`. -/
def push_doubling (max_processes : Int) : Nat → Int → List Int → Option (List Int)
  | 0, _, _ => none
  | fuel + 1, p, list =>
    if p ≤ max_processes then
      push_doubling max_processes fuel (wrap32 (p * 2)) (list ++ [p])
    else some list

/-- `Utils::generate_process_list`. -/
def generate_process_list (max_processes : Int) : Option (List Int) :=
  (push_doubling max_processes 64 2 [1]).map (fun list =>
    if list.getLast? ≠ some max_processes then list ++ [max_processes] else list)

/-- The powers of two up to `2 ^ m`, in ascending order. -/
def powers (m : Nat) : List Int := (List.range (m + 1)).map (fun i => (2 : Int) ^ i)

end Utils

namespace HardwareDetector

/-- `Config::MIN_BLOCK_SIZE`. -/
def MIN_BLOCK_SIZE : Int := 32

/-- `Config::MAX_BLOCK_SIZE`. -/
def MAX_BLOCK_SIZE : Int := 256

/-- The integer part of `HardwareDetector::calculate_optimal_block_size`: `b` is the value
of `static_cast<int>(std::sqrt(elements_per_cache))`; the floating-point part that
produces `b` is not modelled. -/
def calculate_optimal_block_size (b : Int) : Option Int :=
  (Utils.next_power_of_2 b).map (fun block_size =>
    let block_size := if block_size < MIN_BLOCK_SIZE then MIN_BLOCK_SIZE else block_size
    let block_size := if block_size > MAX_BLOCK_SIZE then MAX_BLOCK_SIZE else block_size
    block_size)

/-- The exact value of `static_cast<int>(std::sqrt(l1_cache_size / (3.0 * sizeof(double))))`:
the integer part of the square root of `l1_cache_size / 24`. -/
def exact_block_estimate (l1_cache_size : Nat) : Int :=
  ((Nat.sqrt (l1_cache_size / (3 * 8)) : Nat) : Int)

end HardwareDetector

/-! ## The analyzer of measurements (`PerformanceAnalyzer.cpp`)

The `double` values are read over exact rationals. A quotient of two of them whose divisor
is zero is not a rational: it is an infinity, or NaN for `0.0 / 0.0`, and the code goes on
with it. `Double` adds these values for the two fields of a record that can hold them. In
the divisions whose result is used as a rational, a zero divisor is the error branch: `div`
yields `none` there.
-/

namespace PerformanceAnalyzer

/-- `Config::THEORETICAL_F = 0.98`. -/
def THEORETICAL_F : ℚ := 98 / 100

/-- `Config::GIGA = 1e9`. -/
def GIGA : ℚ := 1000000000

/-- Division over exact rationals, with the zero divisor as error branch. -/
def div (a b : ℚ) : Option ℚ := if b = 0 then none else some (a / b)

/-- A `double` that may be the result of a division by zero: an exact rational, an
infinity, or NaN. -/
inductive Double where
  | fin (q : ℚ)
  | pos_inf
  | neg_inf
  | nan
deriving DecidableEq

/-- The quotient `a / b` of two finite `double`s: with a zero divisor it is the infinity of
the sign of `a`, and NaN for `0.0 / 0.0`. -/
def Double.quot (a b : ℚ) : Double :=
  if b ≠ 0 then Double.fin (a / b)
  else if a > 0 then Double.pos_inf
  else if a < 0 then Double.neg_inf
  else Double.nan

/-- The quotient `x / b` of a `double` by a finite one: an infinity keeps its sign over a
divisor that is not negative and changes it over a negative one. -/
def Double.over (x : Double) (b : ℚ) : Double :=
  match x with
  | Double.fin a => Double.quot a b
  | Double.pos_inf => if b < 0 then Double.neg_inf else Double.pos_inf
  | Double.neg_inf => if b < 0 then Double.pos_inf else Double.neg_inf
  | Double.nan => Double.nan

/-- The comparison `x > c` with a finite `c`; every comparison with NaN is false. -/
def Double.gt (x : Double) (c : ℚ) : Bool :=
  match x with
  | Double.fin a => decide (a > c)
  | Double.pos_inf => true
  | Double.neg_inf => false
  | Double.nan => false

/-- `struct BenchmarkResult` (`Config.h`). -/
structure BenchmarkResult where
  num_processes : Int
  time_seconds : ℚ
  gflops : ℚ
  speedup_exp : Double
  speedup_amdahl : ℚ
  efficiency : Double
  granularity : String
deriving DecidableEq

/-- The private members of `class PerformanceAnalyzer`. -/
structure State where
  sequential_time : ℚ
  f_theoretical : ℚ
  f_empirical : ℚ
  f_empirical_calculated : Bool
  results : List BenchmarkResult
deriving DecidableEq

/-- The constructor `PerformanceAnalyzer::PerformanceAnalyzer()`. -/
def PerformanceAnalyzer : State :=
  { sequential_time := 0
    f_theoretical := THEORETICAL_F
    f_empirical := THEORETICAL_F
    f_empirical_calculated := false
    results := [] }

/-- `PerformanceAnalyzer::set_sequential_time`. -/
def set_sequential_time (time_seconds : ℚ) (s : State) : State :=
  { s with sequential_time := time_seconds }

/-- `PerformanceAnalyzer::calculate_amdahl_speedup`. -/
def calculate_amdahl_speedup (num_processes : Int) (f : ℚ) : Option ℚ :=
  if num_processes ≤ 0 then some 1
  else
    let f := if f < 0 then 0 else f
    let f := if f > 1 then 1 else f
    let sequential_fraction := 1 - f
    (div f (num_processes : ℚ)).bind (fun parallel_fraction =>
      div 1 (sequential_fraction + parallel_fraction))

/-- `PerformanceAnalyzer::calculate_empirical_f` on a finite argument. -/
def calculate_empirical_f (speedup_with_2_processes : ℚ) (s : State) : Option State :=
  if speedup_with_2_processes ≤ 1 then some { s with f_empirical := s.f_theoretical }
  else
    (div 1 speedup_with_2_processes).map (fun q =>
      let f := 2 * (1 - q)
      let f := if f < 0 then 0 else f
      let f := if f > 1 then 1 else f
      { s with f_empirical := f, f_empirical_calculated := true })

/-- The call `calculate_empirical_f(result.speedup_exp)` of `analyze_result`, whose argument
may be an infinity. For `+inf` the test `<= 1.0` fails, `1.0 / inf` is `0.0`, and
`f = 2.0` is cut to `1.0`; `-inf` takes the early return. With NaN the three comparisons
fail and NaN would be stored, which is not a rational: `none`. -/
def calculate_empirical_f_double (speedup_with_2_processes : Double) (s : State) :
    Option State :=
  match speedup_with_2_processes with
  | Double.fin q => calculate_empirical_f q s
  | Double.pos_inf => some { s with f_empirical := 1, f_empirical_calculated := true }
  | Double.neg_inf => some { s with f_empirical := s.f_theoretical }
  | Double.nan => none

/-- `PerformanceAnalyzer::determine_granularity`. -/
def determine_granularity (num_processes : Int) (efficiency : Double) : String :=
  if num_processes = 1 then "N/A"
  else if efficiency.gt (8 / 10) then "Gruesa"
  else if efficiency.gt (5 / 10) then "Media"
  else "Fina"

/-- `Utils::calculate_gflops`. -/
def calculate_gflops (matrix_size : Int) (time_seconds : ℚ) : Option ℚ :=
  if time_seconds ≤ 0 then some 0
  else div (2 * matrix_size * matrix_size * matrix_size) (time_seconds * GIGA)

/-- The value `f_empirical_calculated ? f_empirical : f_theoretical` that `analyze_result`,
`get_max_theoretical_speedup` and `print_summary` compute. -/
def f_to_use (s : State) : ℚ :=
  if s.f_empirical_calculated then s.f_empirical else s.f_theoretical

/-- `PerformanceAnalyzer::analyze_result`. The quotients `sequential_time / time_seconds`
and `speedup_exp / num_processes` are taken as `double`s: with a zero divisor they are
infinite and the code goes on. -/
def analyze_result (num_processes : Int) (time_seconds : ℚ) (matrix_size : Int)
    (s : State) : Option State :=
  (calculate_gflops matrix_size time_seconds).bind (fun gflops =>
  let speedup_exp :=
    if s.sequential_time > 0 then Double.quot s.sequential_time time_seconds
    else Double.fin 1
  (if num_processes = 2 ∧ s.f_empirical_calculated = false then
      calculate_empirical_f_double speedup_exp s
    else some s).bind (fun s1 =>
  (calculate_amdahl_speedup num_processes (f_to_use s1)).map (fun speedup_amdahl =>
    let efficiency := speedup_exp.over (num_processes : ℚ)
    { s1 with
      results := s1.results ++
        [{ num_processes := num_processes
           time_seconds := time_seconds
           gflops := gflops
           speedup_exp := speedup_exp
           speedup_amdahl := speedup_amdahl
           efficiency := efficiency
           granularity := determine_granularity num_processes efficiency }] })))

/-- `PerformanceAnalyzer::get_empirical_f`. -/
def get_empirical_f (s : State) : ℚ := s.f_empirical

/-- `PerformanceAnalyzer::get_theoretical_f`. -/
def get_theoretical_f (s : State) : ℚ := s.f_theoretical

/-- `PerformanceAnalyzer::get_max_theoretical_speedup`: `1.0 / (1.0 - f_to_use)`. -/
def get_max_theoretical_speedup (s : State) : Option ℚ := div 1 (1 - f_to_use s)

/-- `PerformanceAnalyzer::clear_results`. -/
def clear_results (s : State) : State :=
  { s with results := [], f_empirical_calculated := false, sequential_time := 0 }

/-- The public operations that change the state of the analyzer. -/
inductive Op where
  | set_sequential_time (time_seconds : ℚ)
  | analyze_result (num_processes : Int) (time_seconds : ℚ) (matrix_size : Int)
  | calculate_empirical_f (speedup_with_2_processes : ℚ)
  | clear_results

/-- One public operation on a state. -/
def apply_op : Op → State → Option State
  | Op.set_sequential_time t, s => some (set_sequential_time t s)
  | Op.analyze_result p t n, s => analyze_result p t n s
  | Op.calculate_empirical_f S, s => calculate_empirical_f S s
  | Op.clear_results, s => some (clear_results s)

/-- A sequence of public operations, from left to right. -/
def run : List Op → State → Option State
  | [], s => some s
  | op :: ops, s => (apply_op op s).bind (run ops)

/-- What holds of the f fields in every reachable state. -/
def Inv (s : State) : Prop :=
  s.f_theoretical = THEORETICAL_F ∧ 0 ≤ s.f_empirical ∧ s.f_empirical ≤ 1

instance (s : State) : Decidable (Inv s) := by
  unfold Inv; exact inferInstance

end PerformanceAnalyzer

/-! ## Bounds of the parallel engine (`ProcessManager.cpp`) -/

namespace ProcessManager

/-- The kernel `worker_process` instrumented to record the values of its `int`
expressions: the block count, the block coordinates and offsets, the loop bounds before
`std::min`, and the three flat indices. The products `i * matrix_size` and
`kk * matrix_size` are at most the indices they are part of, and a loop counter stays
below its bound. -/
def worker_int_values (matrix_size block_size block_start block_end : Nat) :
    Option (List Nat) :=
  let nb := num_blocks_per_dim matrix_size block_size
  Loop.forStep block_start block_end 1
    (fun block_idx V0 =>
      let bi := (block_coords nb block_idx).1
      let bj := (block_coords nb block_idx).2
      let i_start := bi * block_size
      let j_start := bj * block_size
      Loop.forStep 0 matrix_size block_size
        (fun k V1 =>
          let i_end := min (i_start + block_size) matrix_size
          let j_end := min (j_start + block_size) matrix_size
          let k_end := min (k + block_size) matrix_size
          some (Loop.forRange i_start i_end
            (fun i V2 =>
              Loop.forRange j_start j_end
                (fun j V3 =>
                  Loop.forRange k k_end
                    (fun kk V4 => V4 ++ [i * matrix_size + kk, kk * matrix_size + j])
                    V3 ++ [i * matrix_size + j])
                V2)
            (V1 ++ [i_start + block_size, j_start + block_size, k + block_size])))
        (V0 ++ [bi, bj, i_start, j_start]))
    [matrix_size + block_size, matrix_size + block_size - 1, nb]

/-- The statement `size_t matrix_bytes = matrix_size * matrix_size * sizeof(double)` of
`setup_shared_memory` on the machine: the product of the two `int`s wraps to 32 bits, is
converted to the 64-bit `size_t`, and is multiplied there. -/
def matrix_bytes (matrix_size : Int) : Int :=
  (Utils.wrap32 (matrix_size * matrix_size) % 2 ^ 64 * (sizeof_double : Int)) % 2 ^ 64

/-- `ProcessManager::get_total_blocks` on the machine: every `int` result wraps. -/
def get_total_blocks_int (matrix_size block_size : Int) : Int :=
  let num_blocks_per_dim :=
    Int.tdiv (Utils.wrap32 (Utils.wrap32 (matrix_size + block_size) - 1)) block_size
  Utils.wrap32 (num_blocks_per_dim * num_blocks_per_dim)

/-- The records of `worker_int_values` for the block `t` and the k-block starting at `k`. -/
def ints_block_step (matrix_size block_size t k : Nat) (V : List Nat) : List Nat :=
  let nb := num_blocks_per_dim matrix_size block_size
  let i_start := (block_coords nb t).1 * block_size
  let j_start := (block_coords nb t).2 * block_size
  Loop.forRange i_start (min (i_start + block_size) matrix_size)
    (fun i V2 =>
      Loop.forRange j_start (min (j_start + block_size) matrix_size)
        (fun j V3 =>
          Loop.forRange k (min (k + block_size) matrix_size)
            (fun kk V4 => V4 ++ [i * matrix_size + kk, kk * matrix_size + j])
            V3 ++ [i * matrix_size + j])
        V2)
    (V ++ [i_start + block_size, j_start + block_size, k + block_size])

/-- The records of `worker_int_values` for the block `t`. -/
def ints_tile_step (matrix_size block_size t : Nat) (V : List Nat) : List Nat :=
  let nb := num_blocks_per_dim matrix_size block_size
  (List.range' 0 nb block_size).foldl
    (fun acc k => ints_block_step matrix_size block_size t k acc)
    (V ++ [(block_coords nb t).1, (block_coords nb t).2,
      (block_coords nb t).1 * block_size, (block_coords nb t).2 * block_size])

end ProcessManager

/-! ## The parallel engine on 32-bit integers (`ProcessManager.cpp`)

The definitions of `ProcessManager` above read the `int` arithmetic of the engine as exact.
Here every `int` is an `Int` in `[-2^31, 2^31)`: sums and products are wrapped to 32 bits
(`Utils.wrap32`), `/` and `%` truncate and trap on a zero divisor, and an access to a
buffer of `size` elements traps when the index is negative or not below `size`. A process
that traps is killed, and what it had stored until then stays in the shared buffer.
-/

namespace Loop

/-- Why a process is killed. -/
inductive Fault where
  /-- An integer division that traps (`SIGFPE`). -/
  | division
  /-- An access outside a buffer (`SIGSEGV`). -/
  | bounds
  deriving DecidableEq

/-- How a piece of code that works on a state ends: it completes with a state, it is killed
by a trap with the state reached until then, or it never ends. -/
inductive Run (σ : Type) where
  | done (s : σ)
  | trap (f : Fault) (s : σ)
  | hang

/-- The state a completed piece of code returns. -/
def Run.result {σ : Type} : Run σ → Option σ
  | Run.done s => some s
  | Run.trap _ _ => none
  | Run.hang => none

/-- The trap that killed the process, if one did. -/
def Run.fault {σ : Type} : Run σ → Option Fault
  | Run.done _ => none
  | Run.trap f _ => some f
  | Run.hang => none

/-- The state when the code ended, whether it completed or was killed. -/
def Run.state {σ : Type} : Run σ → Option σ
  | Run.done s => some s
  | Run.trap _ s => some s
  | Run.hang => none

/-- Sequencing: what follows runs when the first part completes. -/
def Run.bind {σ : Type} (r : Run σ) (f : σ → Run σ) : Run σ :=
  match r with
  | Run.done s => f s
  | Run.trap c s => Run.trap c s
  | Run.hang => Run.hang

/-- Sequencing after a part that works on a local of its own (`sum`): when that part is
killed the state is still `s0`. -/
def Run.sub {σ τ : Type} (r : Run τ) (s0 : σ) (f : τ → Run σ) : Run σ :=
  match r with
  | Run.done t => f t
  | Run.trap c _ => Run.trap c s0
  | Run.hang => Run.hang

/-- An operation that may trap, in state `s0`: `none` is the trap `c`. -/
def Run.ofOption {σ β : Type} (c : Fault) (s0 : σ) (o : Option β) (f : β → Run σ) : Run σ :=
  match o with
  | some b => f b
  | none => Run.trap c s0

/-- The loop `for (; x < hi; x += step) body` on an `int` counter, for at most `fuel`
iterations: `hang` when the condition still holds after `fuel` iterations. -/
def forIntAux {σ : Type} (hi step : Int) (body : Int → σ → Run σ) :
    Nat → Int → σ → Run σ
  | 0, x, s => if x < hi then Run.hang else Run.done s
  | fuel + 1, x, s =>
    if x < hi then
      (body x s).bind (fun s1 => forIntAux hi step body fuel (Utils.wrap32 (x + step)) s1)
    else Run.done s

/-- The loop `for (int x = lo; x < hi; x += step) body`. The counter takes the values
`lo + n * step` wrapped to 32 bits, which repeat after `2^32` iterations: a loop that has
not left within `2^32` iterations never leaves. -/
def forInt {σ : Type} (lo hi step : Int) (body : Int → σ → Run σ) (s : σ) : Run σ :=
  forIntAux hi step body (2 ^ 32) lo s

end Loop

namespace ProcessManager.Machine

/-- The quotient `a / b` of two `int`s: truncated, and a trap when `b` is zero or the quotient
does not fit. -/
def idiv (a b : Int) : Option Int :=
  if b = 0 ∨ (a = -2 ^ 31 ∧ b = -1) then none else some (Int.tdiv a b)

/-- The remainder `a % b` of two `int`s, with the traps of `a / b`. -/
def imod (a b : Int) : Option Int :=
  if b = 0 ∨ (a = -2 ^ 31 ∧ b = -1) then none else some (Int.tmod a b)

/-- The read `buf[idx]` of a buffer of `size` elements at an `int` index: `none` outside the
buffer. -/
def load {α : Type} (size : Nat) (buf : Nat → α) (idx : Int) : Option α :=
  if 0 ≤ idx ∧ idx < (size : Int) then some (buf idx.toNat) else none

/-- The store `buf[idx] = v` to a buffer of `size` elements at an `int` index: `none` outside
the buffer. -/
def store {α : Type} (size : Nat) (buf : Nat → α) (idx : Int) (v : α) : Option (Nat → α) :=
  if 0 ≤ idx ∧ idx < (size : Int) then some (Function.update buf idx.toNat v) else none

/-- The expression `(matrix_size + block_size - 1) / block_size` of `worker_process` and
`get_total_blocks`. -/
def num_blocks_per_dim (matrix_size block_size : Int) : Option Int :=
  idiv (Utils.wrap32 (Utils.wrap32 (matrix_size + block_size) - 1)) block_size

/-- `ProcessManager::get_total_blocks`; `none` when the division traps. -/
def get_total_blocks (matrix_size block_size : Int) : Option Int :=
  (num_blocks_per_dim matrix_size block_size).map (fun nb => Utils.wrap32 (nb * nb))

/-- `ProcessManager::calculate_block_distribution`; `none` when a division traps or the loop
does not end. -/
def calculate_block_distribution (matrix_size block_size num_processes : Int) :
    Option (List (Int × Int)) :=
  (get_total_blocks matrix_size block_size).bind (fun total_blocks =>
  (idiv total_blocks num_processes).bind (fun blocks_per_process =>
  (imod total_blocks num_processes).bind (fun remaining_blocks =>
    (Loop.forInt 0 num_processes 1
      (fun p (st : Int × List (Int × Int)) =>
        let start := st.1
        let count :=
          Utils.wrap32 (blocks_per_process + (if p < remaining_blocks then 1 else 0))
        let end_ := Utils.wrap32 (start + count)
        Loop.Run.done (end_, st.2 ++ [(start, end_)]))
      (0, [])).result.map (fun st => st.2))))

/-- `ProcessManager::worker_process` on an A buffer of `size_A` elements, a B buffer of
`size_B` and a C buffer of `size_C`; the state is the content of the C buffer. -/
def worker_process {α : Type} [Add α] [Mul α] [Zero α] (matrix_size block_size : Int)
    (size_A size_B size_C : Nat) (shared_A shared_B : Nat → α) (block_start block_end : Int)
    (shared_C : Nat → α) : Loop.Run (Nat → α) :=
  Loop.Run.ofOption Loop.Fault.division shared_C (num_blocks_per_dim matrix_size block_size)
    (fun nb =>
    Loop.forInt block_start block_end 1
      (fun block_idx C0 =>
        Loop.Run.ofOption Loop.Fault.division C0 (idiv block_idx nb) (fun bi =>
        Loop.Run.ofOption Loop.Fault.division C0 (imod block_idx nb) (fun bj =>
          let i_start := Utils.wrap32 (bi * block_size)
          let j_start := Utils.wrap32 (bj * block_size)
          Loop.forInt 0 matrix_size block_size
            (fun k C1 =>
              let i_end := min (Utils.wrap32 (i_start + block_size)) matrix_size
              let j_end := min (Utils.wrap32 (j_start + block_size)) matrix_size
              let k_end := min (Utils.wrap32 (k + block_size)) matrix_size
              Loop.forInt i_start i_end 1
                (fun i C2 =>
                  Loop.forInt j_start j_end 1
                    (fun j C3 =>
                      Loop.Run.sub
                        (Loop.forInt k k_end 1
                          (fun kk sum =>
                            Loop.Run.ofOption Loop.Fault.bounds sum
                              (load size_A shared_A
                                (Utils.wrap32 (Utils.wrap32 (i * matrix_size) + kk)))
                              (fun a =>
                            Loop.Run.ofOption Loop.Fault.bounds sum
                              (load size_B shared_B
                                (Utils.wrap32 (Utils.wrap32 (kk * matrix_size) + j)))
                              (fun b => Loop.Run.done (sum + a * b))))
                          0)
                        C3
                        (fun sum =>
                          Loop.Run.ofOption Loop.Fault.bounds C3
                            (load size_C C3
                              (Utils.wrap32 (Utils.wrap32 (i * matrix_size) + j)))
                            (fun c =>
                          Loop.Run.ofOption Loop.Fault.bounds C3
                            (store size_C C3
                              (Utils.wrap32 (Utils.wrap32 (i * matrix_size) + j))
                              (c + sum))
                            Loop.Run.done)))
                    C2)
                C1)
            C0)))
      shared_C)

/-- The workers of `multiply_parallel` run one after another, each to completion, over the
ranges in the order given, on three buffers of `size` elements. -/
def run_workers {α : Type} [Add α] [Mul α] [Zero α] (matrix_size block_size : Int)
    (size : Nat) (shared_A shared_B : Nat → α) :
    List (Int × Int) → (Nat → α) → Loop.Run (Nat → α)
  | [], C => Loop.Run.done C
  | r :: rest, C =>
    (worker_process matrix_size block_size size size size shared_A shared_B r.1 r.2 C).bind
      (fun C1 => run_workers matrix_size block_size size shared_A shared_B rest C1)

/-- The shared-buffer part of `ProcessManager::multiply_parallel`: C zeroed, the
distribution computed, worker `p` run on `distribution[p]`. -/
def multiply_parallel_flat {α : Type} [Add α] [Mul α] [Zero α]
    (matrix_size block_size num_processes : Int) (size : Nat) (shared_A shared_B : Nat → α) :
    Loop.Run (Nat → α) :=
  Loop.Run.ofOption Loop.Fault.division (fun _ => 0)
    (calculate_block_distribution matrix_size block_size num_processes)
    (fun distribution =>
      run_workers matrix_size block_size size shared_A shared_B distribution (fun _ => 0))

/-- The number of `double`s behind the pointer a process gets from a segment: those of the
mapping, and none behind a null pointer. -/
def elements (seg : Option SharedMemory.State) : Nat :=
  match seg with
  | some s => if s.ptr.isSome then s.size / sizeof_double else 0
  | none => 0

/-- Lines 150-206 of `ProcessManager::multiply_parallel` (POSIX branch), after
`setup_shared_memory`: the distribution is computed, a child is forked for each worker
and runs `worker_process` on the three segments, the children are waited for, and the C
segment is copied to the caller's `matrixC`, which is the result. A child that is killed
has terminated, and `waitpid` returns for it; the result is `none` when the calling process
traps or a child never ends, since the wait for that child never returns. The children run
one after another, in the order of their creation. The state of the loop is the content of
the C segment with the `child_pids` recorded. -/
def dispatch {α : Type} [Add α] [Mul α] [Zero α]
    (matrix_size block_size num_processes : Nat) (env : Env) (matrixC : Nat → Nat → α)
    (sys : System α) : Option (Nat → Nat → α) :=
  (calculate_block_distribution (matrix_size : Int) (block_size : Int)
    (num_processes : Int)).bind (fun distribution =>
  (Loop.forInt 0 (num_processes : Int) 1
    (fun p (d : (Nat → α) × List Int) =>
      if env.fork_ok p.toNat then
        match worker_process (matrix_size : Int) (block_size : Int)
            (elements sys.shm_A) (elements sys.shm_B) (elements sys.shm_C)
            sys.mem_A sys.mem_B (distribution.getD p.toNat (0, 0)).1
            (distribution.getD p.toNat (0, 0)).2 d.1 with
        | Loop.Run.done m => Loop.Run.done (m, d.2 ++ [p])
        | Loop.Run.trap _ m => Loop.Run.done (m, d.2 ++ [p])
        | Loop.Run.hang => Loop.Run.hang
      else
        Loop.Run.done d)
    (sys.mem_C, [])).result.map
    (fun d => (copy_result_from_shared matrix_size matrixC { sys with mem_C := d.1 }).2))

/-- A state as `setup_shared_memory` leaves it when every call succeeds: three valid
segments of `n` doubles each, the A and B segments with the content given and the C segment
zeroed. -/
def mapped_system {α : Type} [Zero α] (n : Nat) (mem_A mem_B : Nat → α) : System α :=
  { shm_A := some { name := "matrix_A", size := n * sizeof_double, ptr := some 4096,
                    is_owner := true, fd := 3, created := true },
    shm_B := some { name := "matrix_B", size := n * sizeof_double, ptr := some 8192,
                    is_owner := true, fd := 4, created := true },
    shm_C := some { name := "matrix_C", size := n * sizeof_double, ptr := some 12288,
                    is_owner := true, fd := 5, created := true },
    world := { names := ["/matrix_A", "/matrix_B", "/matrix_C"], calls := [] },
    mem_A := mem_A, mem_B := mem_B, mem_C := fun _ => 0, events := [] }

end ProcessManager.Machine

/-! # Lemmas -/

/-! ## Loops as folds -/

namespace Loop

theorem forStepAux_eq_foldl {σ : Type} (hi step : Nat) (body : Nat → σ → Option σ)
    (f : Nat → σ → σ) (hbody : ∀ x s, body x s = some (f x s)) :
    ∀ (n fuel x : Nat) (s : σ), n ≤ fuel → (∀ m, m < n → x + m * step < hi) →
      hi ≤ x + n * step →
      forStepAux hi step body fuel x s
        = some ((List.range' x n step).foldl (fun acc y => f y acc) s) := by
  intro n
  induction n with
  | zero =>
    intro fuel x s _ _ hge
    have hx : ¬ x < hi := by omega
    cases fuel <;> simp [forStepAux, hx]
  | succ n ih =>
    intro fuel x s hfuel hlt hge
    obtain ⟨fuel, rfl⟩ : ∃ k, fuel = k + 1 := ⟨fuel - 1, by omega⟩
    have hx : x < hi := by simpa using hlt 0 (by omega)
    have hrec := ih fuel (x + step) (f x s) (by omega)
      (fun m hm => by
        have := hlt (m + 1) (by omega)
        rw [Nat.add_mul] at this
        omega)
      (by rw [Nat.add_mul] at hge; omega)
    simp [forStepAux, hx, hbody, hrec, List.range'_succ]

theorem forStep_unit {σ : Type} (lo hi : Nat) (body : Nat → σ → Option σ)
    (f : Nat → σ → σ) (hbody : ∀ x s, body x s = some (f x s)) (s : σ) :
    forStep lo hi 1 body s
      = some ((List.range' lo (hi - lo)).foldl (fun acc y => f y acc) s) := by
  unfold forStep
  exact forStepAux_eq_foldl hi 1 body f hbody (hi - lo) (hi - lo) lo s (le_refl _)
    (fun m hm => by omega) (by omega)

theorem blocks_bound (N B : Nat) (hB : 1 ≤ B) :
    (N + B - 1) / B ≤ N ∧ (∀ m, m < (N + B - 1) / B → m * B < N) ∧ N ≤ (N + B - 1) / B * B := by
  have hpos : 0 < B := hB
  refine ⟨?_, ?_, ?_⟩
  · apply Nat.le_of_lt_succ
    rw [Nat.div_lt_iff_lt_mul hpos]
    have : N ≤ N * B := Nat.le_mul_of_pos_right N hpos
    rw [Nat.succ_mul]
    omega
  · intro m hm
    have h1 : m + 1 ≤ (N + B - 1) / B := hm
    rw [Nat.le_div_iff_mul_le hpos, Nat.add_mul] at h1
    omega
  · by_contra h
    have h1 : (N + B - 1) / B + 1 ≤ (N + B - 1) / B := by
      rw [Nat.le_div_iff_mul_le hpos, Nat.add_mul]
      omega
    omega

theorem forStep_blocks {σ : Type} (N B : Nat) (hB : 1 ≤ B) (body : Nat → σ → Option σ)
    (f : Nat → σ → σ) (hbody : ∀ x s, body x s = some (f x s)) (s : σ) :
    forStep 0 N B body s
      = some ((List.range' 0 ((N + B - 1) / B) B).foldl (fun acc y => f y acc) s) := by
  unfold forStep
  obtain ⟨h1, h2, h3⟩ := blocks_bound N B hB
  exact forStepAux_eq_foldl N B body f hbody ((N + B - 1) / B) (N - 0) 0 s (by omega)
    (fun m hm => by simpa using h2 m hm) (by simpa using h3)

/-- What a fold does to an observation of the state, when each step acts on the observation
alone. -/
theorem foldl_observe {ι σ β : Type} (obs : σ → β) (step : ι → σ → σ) (g : ι → β → β)
    (l : List ι) (h : ∀ x ∈ l, ∀ s, obs (step x s) = g x (obs s)) (s : σ) :
    obs (l.foldl (fun acc x => step x acc) s) = l.foldl (fun v x => g x v) (obs s) := by
  induction l generalizing s with
  | nil => rfl
  | cons a l ih =>
    simp only [List.foldl_cons]
    rw [ih (fun x hx => h x (List.mem_cons_of_mem _ hx)), h a (List.mem_cons_self _ _)]

theorem foldl_fixed {ι β : Type} (g : ι → β → β) (l : List ι)
    (h : ∀ x ∈ l, ∀ v, g x v = v) (v : β) : l.foldl (fun w x => g x w) v = v := by
  induction l generalizing v with
  | nil => rfl
  | cons a l ih =>
    simp only [List.foldl_cons]
    rw [h a (List.mem_cons_self _ _), ih (fun x hx => h x (List.mem_cons_of_mem _ hx))]

theorem foldl_single {ι β : Type} (g : ι → β → β) (l : List ι) (x0 : ι)
    (hl : l.Nodup) (hx0 : x0 ∈ l) (h : ∀ x ∈ l, x ≠ x0 → ∀ v, g x v = v) (v : β) :
    l.foldl (fun w x => g x w) v = g x0 v := by
  induction l generalizing v with
  | nil => cases hx0
  | cons a l ih =>
    simp only [List.foldl_cons]
    rw [List.nodup_cons] at hl
    by_cases ha : a = x0
    · subst ha
      exact foldl_fixed g l (fun x hx => h x (List.mem_cons_of_mem _ hx)
        (fun e => hl.1 (e ▸ hx))) _
    · have hmem : x0 ∈ l := by
        rcases List.mem_cons.1 hx0 with e | e
        · exact absurd e.symm ha
        · exact e
      rw [h a (List.mem_cons_self _ _) ha]
      exact ih hl.2 hmem (fun x hx => h x (List.mem_cons_of_mem _ hx)) v

theorem foldl_append_log {ι τ : Type} (step : ι → List τ → List τ) (w : ι → List τ)
    (l : List ι) (h : ∀ x W, step x W = W ++ w x) (W : List τ) :
    l.foldl (fun acc x => step x acc) W = W ++ l.flatMap w := by
  induction l generalizing W with
  | nil => simp
  | cons a l ih => rw [List.foldl_cons, ih, h, List.flatMap_cons, List.append_assoc]

theorem foldl_hit {ι β : Type} (g : ι → β → β) (f : β → β) (l : List ι)
    (x0 : ι) (P : Prop) [Decidable P] [DecidableEq ι] (hl : l.Nodup)
    (h : ∀ x ∈ l, ∀ v, g x v = if x = x0 ∧ P then f v else v) (v : β) :
    l.foldl (fun w x => g x w) v = if x0 ∈ l ∧ P then f v else v := by
  by_cases hP : x0 ∈ l ∧ P
  · rw [if_pos hP, foldl_single g l x0 hl hP.1
      (fun x hx hne w => by rw [h x hx, if_neg (fun c => hne c.1)]) v, h x0 hP.1,
      if_pos ⟨rfl, hP.2⟩]
  · rw [if_neg hP]
    refine foldl_fixed g l (fun x hx w => ?_) v
    rw [h x hx, if_neg]
    rintro ⟨rfl, hp⟩
    exact hP ⟨hx, hp⟩

end Loop

namespace ProcessManager

theorem flat_index_inj (N : Nat) {i j i0 j0 : Nat} (hj : j < N) (hj0 : j0 < N)
    (h : i0 * N + j0 = i * N + j) : i = i0 ∧ j = j0 := by
  rcases Nat.lt_trichotomy i i0 with hlt | heq | hgt
  · have := Nat.mul_le_mul_right N (show i + 1 ≤ i0 from hlt)
    rw [Nat.add_mul] at this
    omega
  · subst heq
    exact ⟨rfl, by omega⟩
  · have := Nat.mul_le_mul_right N (show i0 + 1 ≤ i from hgt)
    rw [Nat.add_mul] at this
    omega

theorem worker_process_eq {α : Type} [Add α] [Mul α] [Zero α] (N B : Nat) (hB : 1 ≤ B)
    (A Bm : Nat → α) (s e : Nat) (C : Nat → α) :
    worker_process N B A Bm s e C
      = some ((range_blocks (s, e)).foldl (fun acc t => tile_step N B A Bm t acc) C) := by
  unfold worker_process range_blocks
  refine Loop.forStep_unit s e _ (fun t acc => tile_step N B A Bm t acc) ?_ C
  intro t acc
  exact Loop.forStep_blocks N B hB _ (fun k acc1 => block_step N B A Bm t k acc1)
    (fun k acc1 => rfl) acc

theorem block_step_apply {α : Type} [Add α] [Mul α] [Zero α] (N B : Nat)
    (A Bm : Nat → α) (t k : Nat) (C : Nat → α) (i0 j0 : Nat) (hj0 : j0 < N) :
    block_step N B A Bm t k C (i0 * N + j0)
      = if in_block N B t i0 j0 then C (i0 * N + j0) + block_sum N B A Bm i0 j0 k
        else C (i0 * N + j0) := by
  unfold block_step Loop.forRange
  simp only []
  generalize hjs : (block_coords (num_blocks_per_dim N B) t).2 * B = j_start
  generalize his : (block_coords (num_blocks_per_dim N B) t).1 * B = i_start
  have hinner : ∀ i, ∀ C2 : Nat → α,
      ((List.range' j_start (min (j_start + B) N - j_start)).foldl
        (fun C3 j => Function.update C3 (i * N + j)
          (C3 (i * N + j) + block_sum N B A Bm i j k)) C2) (i0 * N + j0)
      = if i = i0 ∧ j0 ∈ List.range' j_start (min (j_start + B) N - j_start)
        then C2 (i0 * N + j0) + block_sum N B A Bm i0 j0 k else C2 (i0 * N + j0) := by
    intro i C2
    rw [Loop.foldl_observe (fun D : Nat → α => D (i0 * N + j0))
      (fun j C3 => Function.update C3 (i * N + j)
          (C3 (i * N + j) + block_sum N B A Bm i j k))
      (fun j v => if j = j0 ∧ i = i0 then v + block_sum N B A Bm i0 j0 k else v)]
    · rw [Loop.foldl_hit _ (fun v => v + block_sum N B A Bm i0 j0 k) _ j0 (i = i0)
        (List.nodup_range' _ _) (fun x _ v => rfl)]
      simp only [and_comm]
    · intro j hj D
      have hjN : j < N := by
        have := List.mem_range'_1.1 hj
        omega
      simp only [Function.update_apply]
      by_cases hc : i0 * N + j0 = i * N + j
      · obtain ⟨h1, h2⟩ := flat_index_inj N hjN hj0 hc
        subst h1; subst h2
        simp
      · rw [if_neg hc, if_neg]
        rintro ⟨rfl, rfl⟩
        exact hc rfl
  rw [Loop.foldl_observe (fun D : Nat → α => D (i0 * N + j0)) _
      (fun i v => if i = i0 ∧ j0 ∈ List.range' j_start (min (j_start + B) N - j_start)
        then v + block_sum N B A Bm i0 j0 k else v) _ (fun i _ D => hinner i D)]
  rw [Loop.foldl_hit _ (fun v => v + block_sum N B A Bm i0 j0 k) _ i0
      (j0 ∈ List.range' j_start (min (j_start + B) N - j_start))
      (List.nodup_range' _ _) (fun x _ v => rfl)]
  have hiff : (i0 ∈ List.range' i_start (min (i_start + B) N - i_start) ∧
      j0 ∈ List.range' j_start (min (j_start + B) N - j_start)) ↔ in_block N B t i0 j0 := by
    unfold in_block
    simp only [List.mem_range'_1, hjs, his]
    omega
  by_cases hb : in_block N B t i0 j0
  · rw [if_pos hb, if_pos (hiff.2 hb)]
  · rw [if_neg hb, if_neg (fun c => hb (hiff.1 c))]

theorem tile_step_apply {α : Type} [Add α] [Mul α] [Zero α] (N B : Nat)
    (A Bm : Nat → α) (t : Nat) (C : Nat → α) (i0 j0 : Nat) (hj0 : j0 < N) :
    tile_step N B A Bm t C (i0 * N + j0)
      = if in_block N B t i0 j0 then cell_fold N B A Bm i0 j0 (C (i0 * N + j0))
        else C (i0 * N + j0) := by
  unfold tile_step
  rw [Loop.foldl_observe (fun D : Nat → α => D (i0 * N + j0)) _
    (fun k v => if in_block N B t i0 j0 then v + block_sum N B A Bm i0 j0 k else v) _
    (fun k _ D => block_step_apply N B A Bm t k D i0 j0 hj0)]
  by_cases hb : in_block N B t i0 j0
  · simp only [if_pos hb]; rfl
  · simp only [if_neg hb]
    exact Loop.foldl_fixed (fun _ v => v) _ (fun _ _ _ => rfl) _

theorem range_start_zero (T P : Nat) : range_start T P 0 = 0 := by
  simp [range_start]

theorem range_start_succ (T P p : Nat) :
    range_start T P (p + 1) = range_start T P p + (T / P + if p < T % P then 1 else 0) := by
  unfold range_start
  rw [Nat.add_mul]
  split <;> omega

theorem range_start_le_succ (T P p : Nat) : range_start T P p ≤ range_start T P (p + 1) := by
  rw [range_start_succ]; exact Nat.le_add_right _ _

theorem range_start_mono (T P : Nat) {p q : Nat} (h : p ≤ q) :
    range_start T P p ≤ range_start T P q := by
  induction q with
  | zero => have : p = 0 := by omega
            subst this; exact le_refl _
  | succ n ih =>
    rcases Nat.lt_or_ge p (n + 1) with h1 | h1
    · exact le_trans (ih (by omega)) (range_start_le_succ T P n)
    · have : p = n + 1 := by omega
      subst this; exact le_refl _

theorem range_start_last (T P : Nat) (hP : 1 ≤ P) : range_start T P P = T := by
  unfold range_start
  have h1 : T % P < P := Nat.mod_lt _ (by omega)
  have h2 := Nat.div_add_mod T P
  rw [Nat.min_eq_right (by omega)]
  omega

theorem distribution_loop (b e n : Nat) (f : Nat → Nat)
    (h0 : f 0 = 0) (hs : ∀ p, f (p + 1) = f p + (b + if p < e then 1 else 0)) :
    (List.range' 0 n).foldl
      (fun (acc : Nat × List (Nat × Nat)) p =>
        (acc.1 + (b + if p < e then 1 else 0),
          acc.2 ++ [(acc.1, acc.1 + (b + if p < e then 1 else 0))]))
      (0, [])
    = (f n, (List.range n).map (fun p => (f p, f (p + 1)))) := by
  induction n with
  | zero => simp [h0]
  | succ n ih =>
    rw [← List.range_eq_range'] at ih ⊢
    rw [List.range_succ, List.foldl_append, ih]
    simp [hs]

theorem block_distribution_eq (T P : Nat) :
    block_distribution T P
      = (List.range P).map (fun p => (range_start T P p, range_start T P (p + 1))) := by
  unfold block_distribution Loop.forRange
  simp only [Nat.sub_zero]
  rw [distribution_loop (T / P) (T % P) P (range_start T P) (range_start_zero T P)
    (range_start_succ T P)]

theorem block_distribution_getElem? (T P p : Nat) (hp : p < P) :
    (block_distribution T P)[p]? = some (range_start T P p, range_start T P (p + 1)) := by
  rw [block_distribution_eq]
  simp [List.getElem?_range hp]

theorem mem_block_distribution (T P : Nat) (r : Nat × Nat) :
    r ∈ block_distribution T P ↔
      ∃ p, p < P ∧ r = (range_start T P p, range_start T P (p + 1)) := by
  rw [block_distribution_eq]
  simp only [List.mem_map, List.mem_range]
  constructor
  · rintro ⟨p, hp, rfl⟩; exact ⟨p, hp, rfl⟩
  · rintro ⟨p, hp, rfl⟩; exact ⟨p, hp, rfl⟩

theorem range_start_cover (T P : Nat) (t : Nat) :
    ∀ n, t < range_start T P n → ∃ p, p < n ∧ range_start T P p ≤ t ∧ t < range_start T P (p + 1) := by
  intro n
  induction n with
  | zero => intro h; rw [range_start_zero] at h; omega
  | succ n ih =>
    intro h
    rcases Nat.lt_or_ge t (range_start T P n) with h1 | h1
    · obtain ⟨p, hp, h2⟩ := ih h1
      exact ⟨p, by omega, h2⟩
    · exact ⟨n, by omega, h1, h⟩

theorem block_distribution_ordered (T P : Nat) :
    (block_distribution T P).Pairwise (fun r q => r.2 ≤ q.1) := by
  rw [block_distribution_eq, List.pairwise_map]
  exact (List.pairwise_lt_range P).imp (fun h => range_start_mono T P h)

theorem block_distribution_one (T : Nat) : block_distribution T 1 = [(0, T)] := by
  rw [block_distribution_eq]
  simp [range_start, List.range_succ, Nat.mod_one]

theorem div_block_bounds (B i : Nat) (hB : 1 ≤ B) : i / B * B ≤ i ∧ i < i / B * B + B := by
  have h1 := Nat.div_add_mod i B
  have h2 := Nat.mod_lt i (show B > 0 from hB)
  rw [Nat.mul_comm] at h1
  omega

theorem div_lt_num_blocks (N B j : Nat) (hB : 1 ≤ B) (hj : j < N) :
    j / B < num_blocks_per_dim N B := by
  unfold num_blocks_per_dim
  rw [Nat.div_lt_iff_lt_mul (show 0 < B from hB)]
  have := (Loop.blocks_bound N B hB).2.2
  omega

theorem in_block_iff (N B t i j : Nat) (hB : 1 ≤ B) (hj : j < N) :
    in_block N B t i j ↔ t = block_of N B i j ∧ i < N := by
  unfold in_block block_coords block_of
  simp only []
  constructor
  · rintro ⟨⟨h1, h2⟩, h3, h4⟩
    have hi : i / B = t / num_blocks_per_dim N B :=
      Nat.div_eq_of_lt_le h1 (by rw [Nat.add_mul]; omega)
    have hj : j / B = t % num_blocks_per_dim N B :=
      Nat.div_eq_of_lt_le h3 (by rw [Nat.add_mul]; omega)
    refine ⟨?_, by omega⟩
    rw [hi, hj]
    exact (Nat.div_add_mod' t _).symm
  · rintro ⟨rfl, hi⟩
    have hlt := div_lt_num_blocks N B j hB hj
    have hpos : 0 < num_blocks_per_dim N B := Nat.lt_of_le_of_lt (Nat.zero_le _) hlt
    have hd : (i / B * num_blocks_per_dim N B + j / B) / num_blocks_per_dim N B = i / B := by
      rw [Nat.add_comm, Nat.add_mul_div_right _ _ hpos, Nat.div_eq_of_lt hlt, Nat.zero_add]
    have hm : (i / B * num_blocks_per_dim N B + j / B) % num_blocks_per_dim N B = j / B := by
      rw [Nat.add_comm, Nat.add_mul_mod_self_right, Nat.mod_eq_of_lt hlt]
    rw [hd, hm]
    have h5 := div_block_bounds B i hB
    have h6 := div_block_bounds B j hB
    generalize i / B * B = x at h5 ⊢
    generalize j / B * B = y at h6 ⊢
    omega

theorem block_of_lt_total (N B i j : Nat) (hB : 1 ≤ B) (hi : i < N) (hj : j < N) :
    block_of N B i j < get_total_blocks N B := by
  unfold block_of get_total_blocks
  simp only []
  have h1 := div_lt_num_blocks N B i hB hi
  have h2 := div_lt_num_blocks N B j hB hj
  have h3 : (i / B + 1) * num_blocks_per_dim N B
      ≤ num_blocks_per_dim N B * num_blocks_per_dim N B := Nat.mul_le_mul_right _ h1
  rw [Nat.add_mul] at h3
  omega

theorem tiles_apply {α : Type} [Add α] [Mul α] [Zero α] (N B : Nat) (hB : 1 ≤ B)
    (A Bm : Nat → α) (L : List Nat) (hL : L.Nodup) (C : Nat → α) (i0 j0 : Nat)
    (hj0 : j0 < N) :
    (L.foldl (fun acc t => tile_step N B A Bm t acc) C) (i0 * N + j0)
      = if block_of N B i0 j0 ∈ L ∧ i0 < N then cell_fold N B A Bm i0 j0 (C (i0 * N + j0))
        else C (i0 * N + j0) := by
  rw [Loop.foldl_observe (fun D : Nat → α => D (i0 * N + j0)) _
    (fun t v => if t = block_of N B i0 j0 ∧ i0 < N then cell_fold N B A Bm i0 j0 v else v) _
    (fun t _ D => by
      show tile_step N B A Bm t D (i0 * N + j0)
        = if t = block_of N B i0 j0 ∧ i0 < N then cell_fold N B A Bm i0 j0 (D (i0 * N + j0))
          else D (i0 * N + j0)
      rw [tile_step_apply N B A Bm t D i0 j0 hj0]
      by_cases hb : in_block N B t i0 j0
      · rw [if_pos hb, if_pos ((in_block_iff N B t i0 j0 hB hj0).1 hb)]
      · rw [if_neg hb, if_neg (fun c => hb ((in_block_iff N B t i0 j0 hB hj0).2 c))])]
  exact Loop.foldl_hit _ (cell_fold N B A Bm i0 j0) L (block_of N B i0 j0) (i0 < N) hL
    (fun x _ v => rfl) _

theorem run_workers_eq {α : Type} [Add α] [Mul α] [Zero α] (N B : Nat) (hB : 1 ≤ B)
    (A Bm : Nat → α) (order : List (Nat × Nat)) (C : Nat → α) :
    run_workers N B A Bm order C
      = some ((order.flatMap range_blocks).foldl (fun acc t => tile_step N B A Bm t acc) C) := by
  induction order generalizing C with
  | nil => rfl
  | cons r rest ih =>
    rw [run_workers, worker_process_eq N B hB, Option.some_bind, ih, List.flatMap_cons,
      List.foldl_append]

theorem flatMap_range_blocks (f : Nat → Nat) (hf : ∀ p, f p ≤ f (p + 1)) (n : Nat) :
    ((List.range n).map (fun p => (f p, f (p + 1)))).flatMap range_blocks
      = List.range' (f 0) (f n - f 0) := by
  induction n with
  | zero => simp
  | succ n ih =>
    rw [List.range_succ, List.map_append, List.flatMap_append, ih]
    simp only [List.map_cons, List.map_nil, List.flatMap_cons, List.flatMap_nil,
      List.append_nil, range_blocks]
    have hmono : f 0 ≤ f n := by
      clear ih
      induction n with
      | zero => exact le_refl _
      | succ m ihm => exact le_trans ihm (hf m)
    have h1 := hf n
    have h2 : f n = f 0 + 1 * (f n - f 0) := by omega
    have h3 : f (n + 1) - f 0 = (f (n + 1) - f n) + (f n - f 0) := by omega
    rw [h3]
    conv_lhs => rw [h2]; rw [← h2]
    rw [← List.range'_append (f 0) (f n - f 0) (f (n + 1) - f n) 1, ← h2]

theorem distribution_blocks (T P : Nat) (hP : 1 ≤ P) :
    (block_distribution T P).flatMap range_blocks = List.range' 0 T := by
  rw [block_distribution_eq, flatMap_range_blocks (range_start T P) (range_start_le_succ T P),
    range_start_zero, range_start_last T P hP, Nat.sub_zero]

theorem foldl_add_range' {α : Type} [Semiring α] (f : Nat → α) :
    ∀ (n s : Nat) (v : α),
      (List.range' s n).foldl (fun acc x => acc + f x) v
        = v + ∑ x in Finset.Ico s (s + n), f x := by
  intro n
  induction n with
  | zero => intro s v; simp
  | succ n ih =>
    intro s v
    rw [List.range'_succ, List.foldl_cons, ih, show s + 1 + n = s + (n + 1) by omega,
      Finset.sum_eq_sum_Ico_succ_bot (show s < s + (n + 1) by omega), add_assoc]

theorem block_sum_eq {α : Type} [Semiring α] (N B : Nat) (A Bm : Nat → α) (i j k : Nat) :
    block_sum N B A Bm i j k
      = ∑ kk in Finset.Ico k (min (k + B) N), A (i * N + kk) * Bm (kk * N + j) := by
  unfold block_sum Loop.forRange
  rw [foldl_add_range' (fun kk => A (i * N + kk) * Bm (kk * N + j)), zero_add]
  rcases Nat.lt_or_ge (min (k + B) N) k with h | h
  · rw [Finset.Ico_eq_empty (by omega), Finset.Ico_eq_empty (by omega)]
  · congr 2
    omega

theorem cell_fold_blocks {α : Type} [Semiring α] (N B : Nat) (A Bm : Nat → α) (i j : Nat)
    (v : α) (m : Nat) :
    (List.range' 0 m B).foldl (fun acc k => acc + block_sum N B A Bm i j k) v
      = v + ∑ k in Finset.range (min (m * B) N), A (i * N + k) * Bm (k * N + j) := by
  induction m with
  | zero => simp
  | succ m ih =>
    rw [List.range'_concat, List.foldl_append, ih, List.foldl_cons, List.foldl_nil,
      block_sum_eq, add_assoc, Nat.zero_add, Nat.mul_comm B m, Nat.add_mul, Nat.one_mul]
    congr 1
    rcases Nat.le_total (m * B) N with h | h
    · rw [Nat.min_eq_left h]
      exact Finset.sum_range_add_sum_Ico _ (by omega)
    · rw [Nat.min_eq_right h, Nat.min_eq_right (by omega),
        Finset.Ico_eq_empty (by omega), Finset.sum_empty, add_zero]

theorem cell_fold_eq {α : Type} [Semiring α] (N B : Nat) (hB : 1 ≤ B) (A Bm : Nat → α)
    (i j : Nat) (v : α) :
    cell_fold N B A Bm i j v
      = v + ∑ k in Finset.range N, A (i * N + k) * Bm (k * N + j) := by
  unfold cell_fold
  rw [cell_fold_blocks]
  have := (Loop.blocks_bound N B hB).2.2
  rw [show min (num_blocks_per_dim N B * B) N = N from Nat.min_eq_right this]

theorem run_workers_product {α : Type} [Semiring α] (N B P : Nat) (hB : 1 ≤ B) (hP : 1 ≤ P)
    (A Bm : Nat → α) (order : List (Nat × Nat))
    (hperm : order.Perm (calculate_block_distribution N B P)) :
    ∃ C, run_workers N B A Bm order (fun _ => 0) = some C ∧
      ∀ i j, i < N → j < N →
        C (i * N + j) = ∑ k in Finset.range N, A (i * N + k) * Bm (k * N + j) := by
  refine ⟨_, run_workers_eq N B hB A Bm order _, ?_⟩
  intro i j hi hj
  have hp : (order.flatMap range_blocks).Perm (List.range' 0 (get_total_blocks N B)) := by
    have := List.Perm.flatMap_right range_blocks hperm
    rwa [calculate_block_distribution, distribution_blocks _ P hP] at this
  have hnd : (order.flatMap range_blocks).Nodup :=
    hp.nodup_iff.2 (List.nodup_range' _ _)
  have hmem : block_of N B i j ∈ order.flatMap range_blocks := by
    rw [hp.mem_iff, List.mem_range'_1]
    have := block_of_lt_total N B i j hB hi hj
    omega
  rw [tiles_apply N B hB A Bm _ hnd _ i j hj, if_pos ⟨hmem, hi⟩, cell_fold_eq N B hB, zero_add]

theorem scenario_sum (i j : Nat) (hj : j < 64) :
    ∑ k in Finset.range 64, scenario_A (i * 64 + k) * scenario_B (k * 64 + j)
      = (i : Int) * j * 64 := by
  rw [Finset.sum_congr rfl (fun k hk => by
    have hk1 : k < 64 := Finset.mem_range.1 hk
    show scenario_A (i * 64 + k) * scenario_B (k * 64 + j) = (i : Int) * j
    unfold scenario_A scenario_B
    rw [show (i * 64 + k) / 64 = i by omega, show (k * 64 + j) % 64 = j by omega])]
  simp [mul_comm]

theorem num_blocks_pos (N B : Nat) (hN : 1 ≤ N) (hB : 1 ≤ B) : 0 < num_blocks_per_dim N B :=
  Nat.lt_of_le_of_lt (Nat.zero_le _) (div_lt_num_blocks N B 0 hB hN)

theorem range_blocks_nodup (r : Nat × Nat) : (range_blocks r).Nodup :=
  List.nodup_range' _ _

theorem mem_block_cells (N B t idx : Nat) :
    idx ∈ block_cells N B t ↔ ∃ i j, in_block N B t i j ∧ idx = i * N + j := by
  unfold block_cells in_block
  simp only [List.mem_flatMap, List.mem_range'_1, List.mem_singleton]
  constructor
  · rintro ⟨i, hi, j, hj, rfl⟩
    exact ⟨i, j, ⟨⟨hi.1, by omega⟩, hj.1, by omega⟩, rfl⟩
  · rintro ⟨i, j, ⟨⟨h1, h2⟩, h3, h4⟩, rfl⟩
    exact ⟨i, ⟨h1, by omega⟩, j, ⟨h3, by omega⟩, rfl⟩

theorem mem_tile_writes (N B t idx : Nat) (hN : 1 ≤ N) (hB : 1 ≤ B) :
    idx ∈ tile_writes N B t ↔ ∃ i j, in_block N B t i j ∧ idx = i * N + j := by
  unfold tile_writes
  rw [List.mem_flatMap, ← mem_block_cells]
  constructor
  · rintro ⟨_, _, h⟩; exact h
  · intro h
    refine ⟨0, ?_, h⟩
    rw [List.mem_range']
    exact ⟨0, num_blocks_pos N B hN hB, by simp⟩

theorem worker_writes_eq (N B : Nat) (hB : 1 ≤ B) (s e : Nat) :
    worker_writes N B s e = some ((range_blocks (s, e)).flatMap (tile_writes N B)) := by
  unfold worker_writes range_blocks
  rw [Loop.forStep_unit s e _ (fun t W => W ++ tile_writes N B t), Loop.foldl_append_log _
    (tile_writes N B) _ (fun _ _ => rfl), List.nil_append]
  intro t W
  rw [Loop.forStep_blocks N B hB _ (fun _ W1 => W1 ++ block_cells N B t), Loop.foldl_append_log _
    (fun _ => block_cells N B t) _ (fun _ _ => rfl)]
  · rfl
  · intro k W1
    unfold Loop.forRange block_cells
    simp only []
    rw [Loop.foldl_append_log _ _ _ (fun i W2 => Loop.foldl_append_log _
      (fun j => [i * N + j]) _ (fun _ _ => rfl) W2)]

theorem mem_worker_writes (N B : Nat) (hN : 1 ≤ N) (hB : 1 ≤ B) (s e idx : Nat) :
    idx ∈ (range_blocks (s, e)).flatMap (tile_writes N B) ↔
      ∃ t i j, (s ≤ t ∧ t < e) ∧ in_block N B t i j ∧ idx = i * N + j := by
  unfold range_blocks
  simp only [List.mem_flatMap, List.mem_range'_1, mem_tile_writes N B _ idx hN hB]
  constructor
  · rintro ⟨t, ht, i, j, h⟩; exact ⟨t, i, j, ⟨ht.1, by omega⟩, h⟩
  · rintro ⟨t, i, j, ht, h⟩; exact ⟨t, ⟨ht.1, by omega⟩, i, j, h⟩

/-- The recorded store indices account for every change `worker_process` makes to the C
buffer: an element whose index is not recorded keeps its content. -/
theorem worker_process_frame {α : Type} [Add α] [Mul α] [Zero α] (N B : Nat) (hN : 1 ≤ N)
    (hB : 1 ≤ B) (A Bm : Nat → α) (s e : Nat) (C : Nat → α) :
    ∃ C1 w, worker_process N B A Bm s e C = some C1 ∧ worker_writes N B s e = some w ∧
      ∀ idx, idx ∉ w → C1 idx = C idx := by
  refine ⟨_, _, worker_process_eq N B hB A Bm s e C, worker_writes_eq N B hB s e, ?_⟩
  intro idx hidx
  have hj : idx % N < N := Nat.mod_lt _ hN
  have hsplit : idx = idx / N * N + idx % N := (Nat.div_add_mod' idx N).symm
  rw [hsplit, tiles_apply N B hB A Bm _ (range_blocks_nodup _) C _ _ hj, if_neg]
  rintro ⟨hmem, hi⟩
  apply hidx
  rw [mem_worker_writes N B hN hB]
  refine ⟨_, idx / N, idx % N, ?_, (in_block_iff N B _ _ _ hB hj).2 ⟨rfl, hi⟩, hsplit⟩
  have := List.mem_range'_1.1 hmem
  simp only [] at this
  omega

end ProcessManager

namespace Loop

theorem foldl_congr_mem {ι β : Type} (f g : β → ι → β) (l : List ι)
    (h : ∀ x ∈ l, ∀ v, f v x = g v x) (v : β) : l.foldl f v = l.foldl g v := by
  induction l generalizing v with
  | nil => rfl
  | cons a l ih =>
    rw [List.foldl_cons, List.foldl_cons, h a (List.mem_cons_self _ _),
      ih (fun x hx => h x (List.mem_cons_of_mem _ hx))]

end Loop

namespace MatrixMultiplier

theorem multiply_block_apply {α : Type} [Add α] [Mul α] [Zero α] (N : Nat)
    (A2 B2 : Nat → Nat → α) (i_start j_start k_start bs : Nat) (C : Nat → Nat → α)
    (i0 j0 : Nat) :
    multiply_block N A2 B2 i_start j_start k_start bs C i0 j0
      = if (i_start ≤ i0 ∧ i0 < min (i_start + bs) N) ∧
            (j_start ≤ j0 ∧ j0 < min (j_start + bs) N)
        then C i0 j0 + block_sum N bs A2 B2 i0 j0 k_start else C i0 j0 := by
  unfold multiply_block Loop.forRange
  simp only []
  have hinner : ∀ i, ∀ C2 : Nat → Nat → α,
      ((List.range' j_start (min (j_start + bs) N - j_start)).foldl
        (fun (C3 : Nat → Nat → α) j => Function.update C3 i (Function.update (C3 i) j
          (C3 i j + (List.range' k_start (min (k_start + bs) N - k_start)).foldl
            (fun sum k => sum + A2 i k * B2 k j) 0))) C2) i0 j0
      = if i = i0 ∧ j0 ∈ List.range' j_start (min (j_start + bs) N - j_start)
        then C2 i0 j0 + block_sum N bs A2 B2 i0 j0 k_start else C2 i0 j0 := by
    intro i C2
    rw [Loop.foldl_observe (fun D : Nat → Nat → α => D i0 j0)
      (fun j C3 => Function.update C3 i (Function.update (C3 i) j
          (C3 i j + (List.range' k_start (min (k_start + bs) N - k_start)).foldl
            (fun sum k => sum + A2 i k * B2 k j) 0)))
      (fun j v => if j = j0 ∧ i = i0 then v + block_sum N bs A2 B2 i0 j0 k_start else v)]
    · rw [Loop.foldl_hit _ (fun v => v + block_sum N bs A2 B2 i0 j0 k_start) _ j0 (i = i0)
        (List.nodup_range' _ _) (fun x _ v => rfl)]
      simp only [and_comm]
    · intro j _ D
      by_cases hi : i0 = i
      · subst hi
        by_cases hj : j0 = j
        · subst hj
          simp [block_sum, Loop.forRange]
        · have hj1 : ¬ j = j0 := fun c => hj c.symm
          simp [Function.update_apply, hj, hj1]
      · have hi1 : ¬ i = i0 := fun c => hi c.symm
        simp [Function.update_apply, hi, hi1]
  rw [Loop.foldl_observe (fun D : Nat → Nat → α => D i0 j0) _
      (fun i v => if i = i0 ∧ j0 ∈ List.range' j_start (min (j_start + bs) N - j_start)
        then v + block_sum N bs A2 B2 i0 j0 k_start else v) _ (fun i _ D => hinner i D)]
  rw [Loop.foldl_hit _ (fun v => v + block_sum N bs A2 B2 i0 j0 k_start) _ i0
      (j0 ∈ List.range' j_start (min (j_start + bs) N - j_start))
      (List.nodup_range' _ _) (fun x _ v => rfl)]
  have hiff : (i0 ∈ List.range' i_start (min (i_start + bs) N - i_start) ∧
      j0 ∈ List.range' j_start (min (j_start + bs) N - j_start)) ↔
      ((i_start ≤ i0 ∧ i0 < min (i_start + bs) N) ∧
            (j_start ≤ j0 ∧ j0 < min (j_start + bs) N)) := by
    simp only [List.mem_range'_1]
    omega
  simp only [hiff]

theorem multiply_sequential_eq {α : Type} [Add α] [Mul α] [Zero α] (N B : Nat) (hB : 1 ≤ B)
    (A2 B2 : Nat → Nat → α) (C : Nat → Nat → α) :
    multiply_sequential N B A2 B2 C
      = some ((List.range' 0 (get_num_blocks N B) B).foldl
          (fun C1 i => (List.range' 0 (get_num_blocks N B) B).foldl
            (fun C2 j => (List.range' 0 (get_num_blocks N B) B).foldl
              (fun C3 k => multiply_block N A2 B2 i j k B C3) C2) C1) C) := by
  unfold multiply_sequential
  refine Loop.forStep_blocks N B hB _ _ (fun i C1 => ?_) C
  refine Loop.forStep_blocks N B hB _ _ (fun j C2 => ?_) C1
  exact Loop.forStep_blocks N B hB _ _ (fun k C3 => rfl) C2

theorem block_start_iff (N B x j0 : Nat) (hB : 1 ≤ B) (hj0 : j0 < N)
    (hx : x ∈ List.range' 0 (get_num_blocks N B) B) :
    (x ≤ j0 ∧ j0 < min (x + B) N) ↔ x = j0 / B * B := by
  obtain ⟨m, _, rfl⟩ := List.mem_range'.1 hx
  rw [Nat.zero_add, Nat.mul_comm B m]
  constructor
  · rintro ⟨h1, h2⟩
    rw [Nat.div_eq_of_lt_le h1 (by rw [Nat.add_mul]; omega)]
  · intro h
    have := ProcessManager.div_block_bounds B j0 hB
    rw [h]
    omega

theorem block_start_mem (N B j0 : Nat) (hB : 1 ≤ B) (hj0 : j0 < N) :
    j0 / B * B ∈ List.range' 0 (get_num_blocks N B) B := by
  rw [List.mem_range']
  exact ⟨j0 / B, ProcessManager.div_lt_num_blocks N B j0 hB hj0, by rw [Nat.zero_add, Nat.mul_comm]⟩

theorem blocks_fold_apply {α : Type} [Add α] [Mul α] [Zero α] (N B : Nat)
    (A2 B2 : Nat → Nat → α) (i j : Nat) (C : Nat → Nat → α) (i0 j0 : Nat) :
    ((List.range' 0 (get_num_blocks N B) B).foldl
        (fun C3 k => multiply_block N A2 B2 i j k B C3) C) i0 j0
      = if (i ≤ i0 ∧ i0 < min (i + B) N) ∧ (j ≤ j0 ∧ j0 < min (j + B) N)
        then cell_fold N B A2 B2 i0 j0 (C i0 j0) else C i0 j0 := by
  rw [Loop.foldl_observe (fun D : Nat → Nat → α => D i0 j0) _
    (fun k v => if (i ≤ i0 ∧ i0 < min (i + B) N) ∧ (j ≤ j0 ∧ j0 < min (j + B) N)
      then v + block_sum N B A2 B2 i0 j0 k else v) _
    (fun k _ D => multiply_block_apply N A2 B2 i j k B D i0 j0)]
  by_cases hb : (i ≤ i0 ∧ i0 < min (i + B) N) ∧ (j ≤ j0 ∧ j0 < min (j + B) N)
  · simp only [if_pos hb]; rfl
  · simp only [if_neg hb]
    exact Loop.foldl_fixed (fun _ v => v) _ (fun _ _ _ => rfl) _

theorem multiply_sequential_apply {α : Type} [Add α] [Mul α] [Zero α] (N B : Nat)
    (hB : 1 ≤ B) (A2 B2 : Nat → Nat → α) (C : Nat → Nat → α) (i0 j0 : Nat)
    (hi0 : i0 < N) (hj0 : j0 < N) :
    ∃ C1, multiply_sequential N B A2 B2 C = some C1 ∧
      C1 i0 j0 = cell_fold N B A2 B2 i0 j0 (C i0 j0) := by
  refine ⟨_, multiply_sequential_eq N B hB A2 B2 C, ?_⟩
  have hnd : (List.range' 0 (get_num_blocks N B) B).Nodup := List.nodup_range' _ _ _ hB
  have hrow : ∀ i ∈ List.range' 0 (get_num_blocks N B) B, ∀ D : Nat → Nat → α,
      ((List.range' 0 (get_num_blocks N B) B).foldl
        (fun C2 j => (List.range' 0 (get_num_blocks N B) B).foldl
          (fun C3 k => multiply_block N A2 B2 i j k B C3) C2) D) i0 j0
      = if i = i0 / B * B ∧ True then cell_fold N B A2 B2 i0 j0 (D i0 j0) else D i0 j0 := by
    intro i hi D
    rw [Loop.foldl_observe (fun E : Nat → Nat → α => E i0 j0) _
      (fun j v => if j = j0 / B * B ∧ (i ≤ i0 ∧ i0 < min (i + B) N)
        then cell_fold N B A2 B2 i0 j0 v else v) _
      (fun j hj E => by
        show ((List.range' 0 (get_num_blocks N B) B).foldl
            (fun C3 k => multiply_block N A2 B2 i j k B C3) E) i0 j0
          = if j = j0 / B * B ∧ (i ≤ i0 ∧ i0 < min (i + B) N)
            then cell_fold N B A2 B2 i0 j0 (E i0 j0) else E i0 j0
        rw [blocks_fold_apply]
        have hiff := block_start_iff N B j j0 hB hj0 hj
        by_cases hc : (i ≤ i0 ∧ i0 < min (i + B) N) ∧ (j ≤ j0 ∧ j0 < min (j + B) N)
        · rw [if_pos hc, if_pos ⟨hiff.1 hc.2, hc.1⟩]
        · rw [if_neg hc, if_neg (fun c => hc ⟨c.2, hiff.2 c.1⟩)])]
    rw [Loop.foldl_hit _ (cell_fold N B A2 B2 i0 j0) _ (j0 / B * B)
      (i ≤ i0 ∧ i0 < min (i + B) N) hnd (fun x _ v => rfl)]
    simp only [block_start_mem N B j0 hB hj0, true_and, and_true,
      block_start_iff N B i i0 hB hi0 hi]
  rw [Loop.foldl_observe (fun E : Nat → Nat → α => E i0 j0) _
    (fun i v => if i = i0 / B * B ∧ True then cell_fold N B A2 B2 i0 j0 v else v) _ hrow,
    Loop.foldl_hit _ (cell_fold N B A2 B2 i0 j0) _ (i0 / B * B) True hnd (fun x _ v => rfl),
    if_pos ⟨block_start_mem N B i0 hB hi0, trivial⟩]

theorem cell_fold_flat {α : Type} [Add α] [Mul α] [Zero α] (N B : Nat)
    (A2 B2 : Nat → Nat → α) (Af Bf : Nat → α)
    (hA : ∀ i j, i < N → j < N → Af (i * N + j) = A2 i j)
    (hBm : ∀ i j, i < N → j < N → Bf (i * N + j) = B2 i j)
    (i j : Nat) (hi : i < N) (hj : j < N) (v : α) :
    ProcessManager.cell_fold N B Af Bf i j v = cell_fold N B A2 B2 i j v := by
  unfold ProcessManager.cell_fold cell_fold
  refine Loop.foldl_congr_mem _ _ _ (fun k _ w => ?_) v
  congr 1
  unfold ProcessManager.block_sum block_sum Loop.forRange
  refine Loop.foldl_congr_mem _ _ _ (fun kk hkk w1 => ?_) 0
  have hk : kk < N := by
    have := List.mem_range'_1.1 hkk
    omega
  show w1 + Af (i * N + kk) * Bf (kk * N + j) = w1 + A2 i kk * B2 kk j
  rw [hA i kk hi hk, hBm kk j hk hj]

end MatrixMultiplier

/-! ## Shared segments -/

namespace SharedMemory

theorem map_segment_state (create : Bool) (o : Outcome) (s : State) (w : World) :
    (map_segment create o s w).1
      = if o.map_ok then { s with ptr := some o.addr, created := true }
        else { s with ptr := none } := by
  unfold map_segment
  by_cases h : o.map_ok <;> simp [h]

theorem constructor_ptr (name : String) (size : Nat) (create : Bool) (o : Outcome) (w : World) :
    (SharedMemory name size create o w).1.ptr
      = if init_succeeds name create o w then some o.addr else none := by
  unfold SharedMemory init_succeeds
  cases create <;> cases h1 : o.open_ok <;> cases h2 : o.truncate_ok <;> cases h3 : o.map_ok <;>
    by_cases h4 : shm_name name ∈ w.names <;> simp [map_segment, h1, h2, h3, h4]

theorem constructor_created (name : String) (size : Nat) (create : Bool) (o : Outcome)
    (w : World) :
    (SharedMemory name size create o w).1.created = init_succeeds name create o w := by
  unfold SharedMemory init_succeeds
  cases create <;> cases h1 : o.open_ok <;> cases h2 : o.truncate_ok <;> cases h3 : o.map_ok <;>
    by_cases h4 : shm_name name ∈ w.names <;> simp [map_segment, h1, h2, h3, h4]

theorem constructor_fields (name : String) (size : Nat) (create : Bool) (o : Outcome)
    (w : World) :
    (SharedMemory name size create o w).1.name = name ∧
    (SharedMemory name size create o w).1.size = size ∧
    (SharedMemory name size create o w).1.is_owner = create ∧
    (init_succeeds name create o w = true →
      (SharedMemory name size create o w).1.fd = (o.fd : Int)) := by
  unfold SharedMemory init_succeeds
  cases create <;> cases h1 : o.open_ok <;> cases h2 : o.truncate_ok <;> cases h3 : o.map_ok <;>
    by_cases h4 : shm_name name ∈ w.names <;> simp [map_segment, h1, h2, h3, h4]

theorem constructor_valid (name : String) (size : Nat) (create : Bool) (o : Outcome)
    (w : World) :
    is_valid (SharedMemory name size create o w).1 = init_succeeds name create o w := by
  unfold is_valid
  rw [constructor_ptr, constructor_created]
  cases init_succeeds name create o w <;> rfl

theorem release_null (s : State) (w : World) (h : s.ptr = none) : release s w = (s, w) := by
  unfold release
  rw [h]

theorem release_state (s : State) (w : World) :
    (release s w).1.ptr = none ∧ (release s w).1.created = s.created ∨
      (release s w).1.ptr = none ∧ (release s w).1.created = false := by
  unfold release
  cases h : s.ptr with
  | none => exact Or.inl ⟨h, rfl⟩
  | some a => exact Or.inr ⟨rfl, rfl⟩

theorem release_ptr (s : State) (w : World) : (release s w).1.ptr = none := by
  rcases release_state s w with h | h <;> exact h.1

theorem release_valid (s : State) (w : World) : is_valid (release s w).1 = false := by
  unfold is_valid
  rw [release_ptr]
  simp

theorem release_some (s : State) (w : World) (addr : Nat) (h : s.ptr = some addr) :
    (release s w).1.created = false ∧ (s.fd ≠ -1 → (release s w).1.fd = -1) ∧
    (release s w).2.calls = w.calls ++ [Syscall.munmap addr s.size]
      ++ (if s.fd ≠ -1 then [Syscall.close s.fd] else [])
      ++ (if s.is_owner then [Syscall.shm_unlink (shm_name s.name)] else []) ∧
    (release s w).2.names
      = if s.is_owner then w.names.filter (fun x => x ≠ shm_name s.name) else w.names := by
  unfold release
  rw [h]
  by_cases h1 : s.fd = -1 <;> cases h2 : s.is_owner <;>
    simp [h1, h2, World.call, World.unlink]

theorem after_releases_created (name : String) (size : Nat) (create : Bool) (o : Outcome)
    (w : World) (n : Nat) :
    (after_releases name size create o w n).1.created
      = (after_releases name size create o w n).1.ptr.isSome := by
  induction n with
  | zero =>
    unfold after_releases
    rw [constructor_ptr, constructor_created]
    cases init_succeeds name create o w <;> rfl
  | succ n ih =>
    unfold after_releases
    cases h : (after_releases name size create o w n).1.ptr with
    | none => rw [release_null _ _ h, ih, h]
    | some a => rw [release_ptr, (release_some _ _ a h).1]; rfl


theorem release_names (s : State) (w : World) (x : String)
    (h : x ∈ (release s w).2.names) : x ∈ w.names := by
  cases hp : s.ptr with
  | none => rwa [release_null s w hp] at h
  | some a =>
    rw [(release_some s w a hp).2.2.2] at h
    split at h
    · exact (List.mem_filter.1 h).1
    · exact h

theorem release_owner_names (s : State) (w : World) (a : Nat) (hp : s.ptr = some a)
    (ho : s.is_owner = true) : shm_name s.name ∉ (release s w).2.names := by
  rw [(release_some s w a hp).2.2.2, if_pos ho]
  simp

theorem constructor_names_other (name : String) (size : Nat) (o : Outcome) (w : World)
    (x : String) (hx : x ≠ shm_name name)
    (h : x ∈ (SharedMemory name size true o w).2.names) : x ∈ w.names := by
  unfold SharedMemory at h
  cases h1 : o.open_ok <;> cases h2 : o.truncate_ok <;> cases h3 : o.map_ok <;>
    by_cases h4 : shm_name name ∈ w.names <;>
    simp [map_segment, World.call, World.create, World.unlink, h1, h2, h3, h4, hx] at h <;>
    exact h

theorem constructor_names_failed (name : String) (size : Nat) (o : Outcome) (w : World)
    (hopen : o.open_ok = true) (hfail : is_valid (SharedMemory name size true o w).1 = false) :
    shm_name name ∉ (SharedMemory name size true o w).2.names := by
  rw [constructor_valid] at hfail
  unfold init_succeeds at hfail
  unfold SharedMemory
  cases h2 : o.truncate_ok <;> cases h3 : o.map_ok <;>
    simp [map_segment, World.call, World.create, World.unlink, hopen, h2, h3] at hfail ⊢

end SharedMemory

namespace ProcessManager

theorem make_segment_state (name : String) (size : Nat) (o : SharedMemory.Outcome)
    (old : Option SharedMemory.State) (w : SharedMemory.World) :
    (make_segment name size o old w).1 = (SharedMemory.SharedMemory name size true o w).1 := by
  unfold make_segment
  cases old <;> rfl

theorem make_segment_names (name : String) (size : Nat) (o : SharedMemory.Outcome)
    (old : Option SharedMemory.State) (w : SharedMemory.World) (x : String)
    (h : x ∈ (make_segment name size o old w).2.names) :
    x ∈ (SharedMemory.SharedMemory name size true o w).2.names := by
  unfold make_segment at h
  cases old with
  | none => exact h
  | some s => exact SharedMemory.release_names s _ x h

theorem make_segment_names_other (name : String) (size : Nat) (o : SharedMemory.Outcome)
    (old : Option SharedMemory.State) (w : SharedMemory.World) (x : String)
    (hx : x ≠ SharedMemory.shm_name name)
    (h : x ∈ (make_segment name size o old w).2.names) : x ∈ w.names :=
  SharedMemory.constructor_names_other name size o w x hx
    (make_segment_names name size o old w x h)

/-- A segment made by `setup_shared_memory` is a valid owner of its name, or, when its
`shm_open` succeeded, its name does not exist afterwards. -/
theorem make_segment_cases (name : String) (size : Nat) (o : SharedMemory.Outcome)
    (old : Option SharedMemory.State) (w : SharedMemory.World) :
    (make_segment name size o old w).1.name = name ∧
    (make_segment name size o old w).1.is_owner = true ∧
    (SharedMemory.is_valid (make_segment name size o old w).1 = true →
      ∃ a, (make_segment name size o old w).1.ptr = some a) ∧
    (SharedMemory.is_valid (make_segment name size o old w).1 = false →
      (make_segment name size o old w).1.ptr = none ∧
      (o.open_ok = true →
        SharedMemory.shm_name name ∉ (make_segment name size o old w).2.names)) := by
  rw [make_segment_state]
  obtain ⟨h1, _, h3, _⟩ := SharedMemory.constructor_fields name size true o w
  refine ⟨h1, h3, ?_, ?_⟩
  · intro hv
    rw [SharedMemory.constructor_valid] at hv
    exact ⟨o.addr, by rw [SharedMemory.constructor_ptr, hv]; rfl⟩
  · intro hv
    refine ⟨?_, fun ho hmem => SharedMemory.constructor_names_failed name size o w ho hv
      (make_segment_names name size o old w _ hmem)⟩
    rw [SharedMemory.constructor_valid] at hv
    rw [SharedMemory.constructor_ptr, hv]
    rfl


theorem memcpy_row {α : Type} (dst : Nat → α) (src : Nat → α) (N i i0 j0 : Nat)
    (hj0 : j0 < N) :
    memcpy dst (i * N) src (N * sizeof_double) (i0 * N + j0)
      = if i = i0 ∧ True then src j0 else dst (i0 * N + j0) := by
  unfold memcpy sizeof_double
  by_cases hi : i = i0
  · subst hi
    have hc : i * N ≤ i * N + j0 ∧ (i * N + j0 - i * N + 1) * 8 ≤ N * 8 :=
      ⟨by omega, by rw [Nat.add_sub_cancel_left]; omega⟩
    rw [if_pos hc, if_pos ⟨rfl, trivial⟩, Nat.add_sub_cancel_left]
  · have hc : ¬ (i * N ≤ i0 * N + j0 ∧ (i0 * N + j0 - i * N + 1) * 8 ≤ N * 8) := by
      rintro ⟨h1, h2⟩
      have h3 : i0 * N + j0 - i * N < N := by omega
      have h4 : i0 * N + j0 = i * N + (i0 * N + j0 - i * N) := by omega
      exact hi (flat_index_inj N h3 hj0 h4).1
    rw [if_neg hc, if_neg (fun c => hi c.1)]

theorem setup_shm {α : Type} [Zero α] (N : Nat) (env : Env) (matrixA matrixB : Nat → Nat → α)
    (sys : System α) :
    (setup_shared_memory N env matrixA matrixB sys).shm_A
      = some (make_segment "matrix_A" (N * N * sizeof_double) env.seg_A sys.shm_A sys.world).1 ∧
    (setup_shared_memory N env matrixA matrixB sys).shm_B
      = some (make_segment "matrix_B" (N * N * sizeof_double) env.seg_B sys.shm_B
          (make_segment "matrix_A" (N * N * sizeof_double) env.seg_A sys.shm_A sys.world).2).1 ∧
    (setup_shared_memory N env matrixA matrixB sys).shm_C
      = some (make_segment "matrix_C" (N * N * sizeof_double) env.seg_C sys.shm_C
          (make_segment "matrix_B" (N * N * sizeof_double) env.seg_B sys.shm_B
            (make_segment "matrix_A" (N * N * sizeof_double) env.seg_A sys.shm_A
              sys.world).2).2).1 ∧
    (setup_shared_memory N env matrixA matrixB sys).world
      = (make_segment "matrix_C" (N * N * sizeof_double) env.seg_C sys.shm_C
          (make_segment "matrix_B" (N * N * sizeof_double) env.seg_B sys.shm_B
            (make_segment "matrix_A" (N * N * sizeof_double) env.seg_A sys.shm_A
              sys.world).2).2).2 := by
  unfold setup_shared_memory
  simp only []
  split <;> exact ⟨rfl, rfl, rfl, rfl⟩

theorem setup_events {α : Type} [Zero α] (N : Nat) (env : Env)
    (matrixA matrixB : Nat → Nat → α) (sys : System α) :
    (setup_shared_memory N env matrixA matrixB sys).events
      = if ((setup_shared_memory N env matrixA matrixB sys).shm_A.map SharedMemory.is_valid
            = some true ∧
          (setup_shared_memory N env matrixA matrixB sys).shm_B.map SharedMemory.is_valid
            = some true) ∧
          (setup_shared_memory N env matrixA matrixB sys).shm_C.map SharedMemory.is_valid
            = some true
        then sys.events else sys.events ++ [Event.setup_error] := by
  obtain ⟨hA, hB, hC, _⟩ := setup_shm N env matrixA matrixB sys
  rw [hA, hB, hC]
  unfold setup_shared_memory
  simp only [Option.map_some', Option.some.injEq]
  cases SharedMemory.is_valid (make_segment "matrix_A" (N * N * sizeof_double) env.seg_A
      sys.shm_A sys.world).1 <;>
    cases SharedMemory.is_valid (make_segment "matrix_B" (N * N * sizeof_double) env.seg_B
      sys.shm_B (make_segment "matrix_A" (N * N * sizeof_double) env.seg_A sys.shm_A
        sys.world).2).1 <;>
    cases SharedMemory.is_valid (make_segment "matrix_C" (N * N * sizeof_double) env.seg_C
      sys.shm_C (make_segment "matrix_B" (N * N * sizeof_double) env.seg_B sys.shm_B
        (make_segment "matrix_A" (N * N * sizeof_double) env.seg_A sys.shm_A
          sys.world).2).2).1 <;>
    simp

theorem copy_rows {α : Type} (N : Nat) (A1 B1 : Nat → Nat → α) (mA mB : Nat → α)
    (i0 j0 : Nat) (hi0 : i0 < N) (hj0 : j0 < N) :
    (Loop.forRange 0 N
      (fun i (m : (Nat → α) × (Nat → α)) =>
        (memcpy m.1 (i * N) (A1 i) (N * sizeof_double),
          memcpy m.2 (i * N) (B1 i) (N * sizeof_double)))
      (mA, mB)).1 (i0 * N + j0) = A1 i0 j0 ∧
    (Loop.forRange 0 N
      (fun i (m : (Nat → α) × (Nat → α)) =>
        (memcpy m.1 (i * N) (A1 i) (N * sizeof_double),
          memcpy m.2 (i * N) (B1 i) (N * sizeof_double)))
      (mA, mB)).2 (i0 * N + j0) = B1 i0 j0 := by
  unfold Loop.forRange
  have hmem : i0 ∈ List.range' 0 (N - 0) := by
    rw [List.mem_range'_1]; omega
  constructor
  · rw [Loop.foldl_observe (fun m : (Nat → α) × (Nat → α) => m.1 (i0 * N + j0)) _
      (fun i v => if i = i0 ∧ True then A1 i0 j0 else v) _
      (fun i _ m => by
        show memcpy m.1 (i * N) (A1 i) (N * sizeof_double) (i0 * N + j0) = _
        rw [memcpy_row _ _ N i i0 j0 hj0]
        by_cases h : i = i0
        · subst h; simp
        · simp [h]),
      Loop.foldl_hit _ (fun _ => A1 i0 j0) _ i0 True (List.nodup_range' _ _)
        (fun _ _ _ => rfl), if_pos ⟨hmem, trivial⟩]
  · rw [Loop.foldl_observe (fun m : (Nat → α) × (Nat → α) => m.2 (i0 * N + j0)) _
      (fun i v => if i = i0 ∧ True then B1 i0 j0 else v) _
      (fun i _ m => by
        show memcpy m.2 (i * N) (B1 i) (N * sizeof_double) (i0 * N + j0) = _
        rw [memcpy_row _ _ N i i0 j0 hj0]
        by_cases h : i = i0
        · subst h; simp
        · simp [h]),
      Loop.foldl_hit _ (fun _ => B1 i0 j0) _ i0 True (List.nodup_range' _ _)
        (fun _ _ _ => rfl), if_pos ⟨hmem, trivial⟩]

theorem setup_content {α : Type} [Zero α] (N : Nat) (env : Env)
    (matrixA matrixB : Nat → Nat → α) (sys : System α)
    (hA : (setup_shared_memory N env matrixA matrixB sys).shm_A.map SharedMemory.is_valid
      = some true)
    (hB : (setup_shared_memory N env matrixA matrixB sys).shm_B.map SharedMemory.is_valid
      = some true)
    (hC : (setup_shared_memory N env matrixA matrixB sys).shm_C.map SharedMemory.is_valid
      = some true) :
    (∀ i j, i < N → j < N →
      (setup_shared_memory N env matrixA matrixB sys).mem_A (i * N + j) = matrixA i j) ∧
    (∀ i j, i < N → j < N →
      (setup_shared_memory N env matrixA matrixB sys).mem_B (i * N + j) = matrixB i j) ∧
    (∀ idx, idx < N * N → (setup_shared_memory N env matrixA matrixB sys).mem_C idx = 0) := by
  obtain ⟨h1, h2, h3, _⟩ := setup_shm N env matrixA matrixB sys
  rw [h1] at hA
  rw [h2] at hB
  rw [h3] at hC
  simp only [Option.map_some', Option.some.injEq] at hA hB hC
  unfold setup_shared_memory
  simp only [hA, hB, hC, Bool.not_true, Bool.or_self, Bool.false_eq_true, if_false]
  refine ⟨fun i j hi hj => (copy_rows N matrixA matrixB _ _ i j hi hj).1,
    fun i j hi hj => (copy_rows N matrixA matrixB _ _ i j hi hj).2, ?_⟩
  intro idx hidx
  unfold memset_zero sizeof_double
  rw [if_pos (by omega)]

theorem copy_result_apply {α : Type} (N : Nat) (matrixC : Nat → Nat → α) (sys : System α)
    (hC : sys.shm_C.map SharedMemory.is_valid = some true) (i0 j0 : Nat) (hi0 : i0 < N)
    (hj0 : j0 < N) :
    (copy_result_from_shared N matrixC sys).2 i0 j0 = sys.mem_C (i0 * N + j0) ∧
    (copy_result_from_shared N matrixC sys).1.events = sys.events ++ [Event.copy_result] := by
  unfold copy_result_from_shared
  simp only [hC, Option.getD_some, Bool.not_true, Bool.false_eq_true, if_false, and_true]
  unfold Loop.forRange
  have hmem : i0 ∈ List.range' 0 (N - 0) := by
    rw [List.mem_range'_1]; omega
  rw [Loop.foldl_observe (fun M : Nat → Nat → α => M i0 j0) _
      (fun i v => if i = i0 ∧ True then sys.mem_C (i0 * N + j0) else v) _
      (fun i _ M => by
        show Function.update M i (memcpy (M i) 0 (fun j => sys.mem_C (i * N + j))
          (N * sizeof_double)) i0 j0
          = if i = i0 ∧ True then sys.mem_C (i0 * N + j0) else M i0 j0
        by_cases h : i = i0
        · subst h
          simp only [Function.update_same, and_self, if_true]
          unfold memcpy sizeof_double
          rw [if_pos ⟨Nat.zero_le _, by omega⟩]
          rfl
        · rw [Function.update_noteq (fun c => h c.symm), if_neg (fun c => h c.1)]),
      Loop.foldl_hit _ (fun _ => sys.mem_C (i0 * N + j0)) _ i0 True (List.nodup_range' _ _)
        (fun _ _ _ => rfl), if_pos ⟨hmem, trivial⟩]


theorem child_eq {α : Type} [Add α] [Mul α] [Zero α] (N B : Nat) (hB : 1 ≤ B)
    (mem_A mem_B : Nat → α) (a b c : Option Nat) (r : Nat × Nat) (mem_C : Nat → α) :
    child N B mem_A mem_B a b c r mem_C
      = some (child_result N B mem_A mem_B a b c r mem_C) := by
  unfold child child_result
  split
  · exact worker_process_eq N B hB mem_A mem_B r.1 r.2 mem_C
  · rfl

theorem dispatch_fold_events {α : Type} [Add α] [Mul α] [Zero α] (N B : Nat) (env : Env)
    (distribution : List (Nat × Nat)) (mem_A mem_B : Nat → α) (a b c : Option Nat)
    (l : List Nat) (d : Dispatch α) :
    (l.foldl (fun acc p => dispatch_step N B env distribution mem_A mem_B a b c p acc) d).events
      = d.events ++ l.flatMap (dispatch_events env distribution a b c) := by
  rw [Loop.foldl_observe (fun x : Dispatch α => x.events) _
    (fun p v => v ++ dispatch_events env distribution a b c p) _
    (fun p _ s => by
      show (dispatch_step N B env distribution mem_A mem_B a b c p s).events
        = s.events ++ dispatch_events env distribution a b c p
      unfold dispatch_step
      split <;> rfl)]
  exact Loop.foldl_append_log _ _ _ (fun _ _ => rfl) _

theorem dispatch_fold_children {α : Type} [Add α] [Mul α] [Zero α] (N B : Nat) (env : Env)
    (distribution : List (Nat × Nat)) (mem_A mem_B : Nat → α) (a b c : Option Nat)
    (l : List Nat) (d : Dispatch α) :
    (l.foldl (fun acc p => dispatch_step N B env distribution mem_A mem_B a b c p acc)
        d).child_pids
      = d.child_pids ++ l.filter env.fork_ok := by
  rw [Loop.foldl_observe (fun x : Dispatch α => x.child_pids) _
    (fun p v => v ++ (if env.fork_ok p then [p] else [])) _
    (fun p _ s => by
      show (dispatch_step N B env distribution mem_A mem_B a b c p s).child_pids
        = s.child_pids ++ (if env.fork_ok p then [p] else [])
      unfold dispatch_step
      split <;> simp),
    Loop.foldl_append_log _ (fun p => if env.fork_ok p then [p] else []) _ (fun _ _ => rfl)]
  congr 1
  induction l with
  | nil => rfl
  | cons x l ih =>
    rw [List.flatMap_cons, ih, List.filter_cons]
    split <;> rfl

theorem waits_log (child_pids : List Nat) (ev : List Event) :
    child_pids.foldl (fun e pid => e ++ [Event.waitpid pid]) ev
      = ev ++ child_pids.map Event.waitpid := by
  induction child_pids generalizing ev with
  | nil => simp
  | cons x l ih => rw [List.foldl_cons, ih, List.map_cons, List.append_assoc]; rfl

theorem copy_result_frame {α : Type} (N : Nat) (matrixC : Nat → Nat → α) (sys : System α) :
    (copy_result_from_shared N matrixC sys).1.shm_A = sys.shm_A ∧
    (copy_result_from_shared N matrixC sys).1.shm_B = sys.shm_B ∧
    (copy_result_from_shared N matrixC sys).1.shm_C = sys.shm_C ∧
    (copy_result_from_shared N matrixC sys).1.world = sys.world ∧
    (copy_result_from_shared N matrixC sys).1.events
      = sys.events ++ [if (sys.shm_C.map SharedMemory.is_valid).getD false
          then Event.copy_result else Event.copy_error] := by
  unfold copy_result_from_shared
  cases (sys.shm_C.map SharedMemory.is_valid).getD false <;> simp

/-- The call `multiply_parallel` returns, whatever `setup_shared_memory` achieved: the
members and the operating system are as `setup_shared_memory` left them, and the log holds
one `fork` per worker, one `waitpid` per child created and the copy of the result. -/
theorem multiply_parallel_run {α : Type} [Add α] [Mul α] [Zero α] (N B P : Nat) (hB : 1 ≤ B)
    (env : Env) (matrixA matrixB matrixC : Nat → Nat → α) (sys : System α) :
    ∃ r, multiply_parallel N B P env matrixA matrixB matrixC sys = some r ∧
      r.1.shm_A = (setup_shared_memory N env matrixA matrixB sys).shm_A ∧
      r.1.shm_B = (setup_shared_memory N env matrixA matrixB sys).shm_B ∧
      r.1.shm_C = (setup_shared_memory N env matrixA matrixB sys).shm_C ∧
      r.1.world = (setup_shared_memory N env matrixA matrixB sys).world ∧
      r.1.events = (setup_shared_memory N env matrixA matrixB sys).events
        ++ (List.range' 0 P).flatMap (dispatch_events env (calculate_block_distribution N B P)
            ((setup_shared_memory N env matrixA matrixB sys).shm_A.bind SharedMemory.get_ptr)
            ((setup_shared_memory N env matrixA matrixB sys).shm_B.bind SharedMemory.get_ptr)
            ((setup_shared_memory N env matrixA matrixB sys).shm_C.bind SharedMemory.get_ptr))
        ++ ((List.range' 0 P).filter env.fork_ok).map Event.waitpid
        ++ [if ((setup_shared_memory N env matrixA matrixB sys).shm_C.map
              SharedMemory.is_valid).getD false
            then Event.copy_result else Event.copy_error] := by
  unfold multiply_parallel
  simp only []
  rw [Loop.forStep_unit 0 P _
    (fun p d => dispatch_step N B env (calculate_block_distribution N B P)
      (setup_shared_memory N env matrixA matrixB sys).mem_A
      (setup_shared_memory N env matrixA matrixB sys).mem_B
      ((setup_shared_memory N env matrixA matrixB sys).shm_A.bind SharedMemory.get_ptr)
      ((setup_shared_memory N env matrixA matrixB sys).shm_B.bind SharedMemory.get_ptr)
      ((setup_shared_memory N env matrixA matrixB sys).shm_C.bind SharedMemory.get_ptr) p d)
    (fun p d => by
      unfold dispatch_step dispatch_events
      by_cases h : env.fork_ok p = true
      · simp only [h, if_true, child_eq N B hB, Option.map_some']
      · simp only [h, Bool.false_eq_true, if_false])]
  refine ⟨_, rfl, ?_⟩
  simp only [Option.map_some', Nat.sub_zero]
  obtain ⟨h1, h2, h3, h4, h5⟩ := copy_result_frame N matrixC
    { setup_shared_memory N env matrixA matrixB sys with
      mem_C := ((List.range' 0 P).foldl (fun acc p =>
        dispatch_step N B env (calculate_block_distribution N B P)
          (setup_shared_memory N env matrixA matrixB sys).mem_A
          (setup_shared_memory N env matrixA matrixB sys).mem_B
          ((setup_shared_memory N env matrixA matrixB sys).shm_A.bind SharedMemory.get_ptr)
          ((setup_shared_memory N env matrixA matrixB sys).shm_B.bind SharedMemory.get_ptr)
          ((setup_shared_memory N env matrixA matrixB sys).shm_C.bind SharedMemory.get_ptr) p acc)
        { mem_C := (setup_shared_memory N env matrixA matrixB sys).mem_C,
          events := (setup_shared_memory N env matrixA matrixB sys).events,
          child_pids := [] }).mem_C,
      events := ((List.range' 0 P).foldl (fun acc p =>
        dispatch_step N B env (calculate_block_distribution N B P)
          (setup_shared_memory N env matrixA matrixB sys).mem_A
          (setup_shared_memory N env matrixA matrixB sys).mem_B
          ((setup_shared_memory N env matrixA matrixB sys).shm_A.bind SharedMemory.get_ptr)
          ((setup_shared_memory N env matrixA matrixB sys).shm_B.bind SharedMemory.get_ptr)
          ((setup_shared_memory N env matrixA matrixB sys).shm_C.bind SharedMemory.get_ptr) p acc)
        { mem_C := (setup_shared_memory N env matrixA matrixB sys).mem_C,
          events := (setup_shared_memory N env matrixA matrixB sys).events,
          child_pids := [] }).child_pids.foldl (fun ev pid => ev ++ [Event.waitpid pid])
        ((List.range' 0 P).foldl (fun acc p =>
        dispatch_step N B env (calculate_block_distribution N B P)
          (setup_shared_memory N env matrixA matrixB sys).mem_A
          (setup_shared_memory N env matrixA matrixB sys).mem_B
          ((setup_shared_memory N env matrixA matrixB sys).shm_A.bind SharedMemory.get_ptr)
          ((setup_shared_memory N env matrixA matrixB sys).shm_B.bind SharedMemory.get_ptr)
          ((setup_shared_memory N env matrixA matrixB sys).shm_C.bind SharedMemory.get_ptr) p acc)
        { mem_C := (setup_shared_memory N env matrixA matrixB sys).mem_C,
          events := (setup_shared_memory N env matrixA matrixB sys).events,
          child_pids := [] }).events }
  refine ⟨h1, h2, h3, h4, ?_⟩
  rw [h5, waits_log, dispatch_fold_events, dispatch_fold_children]
  simp only [List.nil_append]


/-- Whatever `setup_shared_memory` achieved, `multiply_parallel` calls `fork()` for every
worker, and each child created calls `worker_process` on the pointers of the segments. -/
theorem dispatch_regardless_of_setup {α : Type} [Add α] [Mul α] [Zero α] (N B P : Nat)
    (hB : 1 ≤ B) (env : Env) (matrixA matrixB matrixC : Nat → Nat → α) (sys : System α) :
    ∃ r, multiply_parallel N B P env matrixA matrixB matrixC sys = some r ∧
      ∀ p, p < P →
        Event.fork p (env.fork_ok p) ∈ r.1.events ∧
        (env.fork_ok p = true →
          Event.worker p ((calculate_block_distribution N B P).getD p (0, 0)).1
            ((calculate_block_distribution N B P).getD p (0, 0)).2
            ((setup_shared_memory N env matrixA matrixB sys).shm_A.bind SharedMemory.get_ptr)
            ((setup_shared_memory N env matrixA matrixB sys).shm_B.bind SharedMemory.get_ptr)
            ((setup_shared_memory N env matrixA matrixB sys).shm_C.bind SharedMemory.get_ptr)
            ∈ r.1.events) := by
  obtain ⟨r, hr, _, _, _, _, hev⟩ := multiply_parallel_run N B P hB env matrixA matrixB matrixC sys
  refine ⟨r, hr, fun p hp => ?_⟩
  have hmem : p ∈ List.range' 0 P := by
    rw [List.mem_range'_1]; omega
  rw [hev]
  constructor
  · apply List.mem_append_left
    apply List.mem_append_left
    apply List.mem_append_right
    rw [List.mem_flatMap]
    refine ⟨p, hmem, ?_⟩
    unfold dispatch_events
    cases env.fork_ok p <;> simp
  · intro hf
    apply List.mem_append_left
    apply List.mem_append_left
    apply List.mem_append_right
    rw [List.mem_flatMap]
    refine ⟨p, hmem, ?_⟩
    unfold dispatch_events
    simp [hf]

theorem destroy_some {α : Type} (sys : System α) (a b c : SharedMemory.State)
    (hA : sys.shm_A = some a) (hB : sys.shm_B = some b) (hC : sys.shm_C = some c) :
    (destroy sys).shm_C = some (SharedMemory.release c sys.world).1 ∧
    (destroy sys).shm_B
      = some (SharedMemory.release b (SharedMemory.release c sys.world).2).1 ∧
    (destroy sys).shm_A
      = some (SharedMemory.release a
          (SharedMemory.release b (SharedMemory.release c sys.world).2).2).1 ∧
    (destroy sys).world
      = (SharedMemory.release a
          (SharedMemory.release b (SharedMemory.release c sys.world).2).2).2 := by
  unfold destroy
  simp [hA, hB, hC]

/-- A segment made by `setup_shared_memory` is a valid owner of its name or, when its
`shm_open` succeeded, its name does not exist once it is made. -/
theorem make_segment_owner_or_gone (name : String) (size : Nat) (o : SharedMemory.Outcome)
    (old : Option SharedMemory.State) (w : SharedMemory.World) (ho : o.open_ok = true) :
    (∃ a, (make_segment name size o old w).1.ptr = some a ∧
      (make_segment name size o old w).1.is_owner = true ∧
      SharedMemory.shm_name (make_segment name size o old w).1.name
        = SharedMemory.shm_name name) ∨
    SharedMemory.shm_name name ∉ (make_segment name size o old w).2.names := by
  obtain ⟨h1, h2, h3, h4⟩ := make_segment_cases name size o old w
  cases hv : SharedMemory.is_valid (make_segment name size o old w).1 with
  | true =>
    obtain ⟨a, ha⟩ := h3 hv
    exact Or.inl ⟨a, ha, h2, by rw [h1]⟩
  | false => exact Or.inr ((h4 hv).2 ho)

theorem name_gone_after_release (s : SharedMemory.State) (nm : String)
    (w1 w2 : SharedMemory.World)
    (hcase : (∃ a, s.ptr = some a ∧ s.is_owner = true ∧ SharedMemory.shm_name s.name = nm) ∨
      nm ∉ w1.names)
    (hkeep : nm ∉ w1.names → nm ∉ w2.names) :
    nm ∉ (SharedMemory.release s w2).2.names := by
  rcases hcase with ⟨a, ha, ho, hn⟩ | h
  · rw [← hn]
    exact SharedMemory.release_owner_names s w2 a ha ho
  · exact fun hmem => hkeep h (SharedMemory.release_names _ _ _ hmem)

/-- The destructor after `setup_shared_memory`: the three segments end released, and the
name of each segment whose `shm_open` succeeded does not exist afterwards. -/
theorem destroy_after_setup {α : Type} [Zero α] (N : Nat) (env : Env)
    (matrixA matrixB : Nat → Nat → α) (sys sys2 : System α)
    (hA : sys2.shm_A = (setup_shared_memory N env matrixA matrixB sys).shm_A)
    (hB : sys2.shm_B = (setup_shared_memory N env matrixA matrixB sys).shm_B)
    (hC : sys2.shm_C = (setup_shared_memory N env matrixA matrixB sys).shm_C)
    (hW : sys2.world = (setup_shared_memory N env matrixA matrixB sys).world) :
    (∃ a b c, (destroy sys2).shm_A = some a ∧ (destroy sys2).shm_B = some b ∧
      (destroy sys2).shm_C = some c ∧
      SharedMemory.get_ptr a = none ∧ SharedMemory.is_valid a = false ∧
      SharedMemory.get_ptr b = none ∧ SharedMemory.is_valid b = false ∧
      SharedMemory.get_ptr c = none ∧ SharedMemory.is_valid c = false) ∧
    (env.seg_A.open_ok = true → "/matrix_A" ∉ (destroy sys2).world.names) ∧
    (env.seg_B.open_ok = true → "/matrix_B" ∉ (destroy sys2).world.names) ∧
    (env.seg_C.open_ok = true → "/matrix_C" ∉ (destroy sys2).world.names) := by
  obtain ⟨sA, sB, sC, sW⟩ := setup_shm N env matrixA matrixB sys
  rw [sA] at hA
  rw [sB] at hB
  rw [sC] at hC
  rw [sW] at hW
  have cA := make_segment_owner_or_gone "matrix_A" (N * N * sizeof_double) env.seg_A
    sys.shm_A sys.world
  have cB := make_segment_owner_or_gone "matrix_B" (N * N * sizeof_double) env.seg_B
    sys.shm_B (make_segment "matrix_A" (N * N * sizeof_double) env.seg_A sys.shm_A sys.world).2
  have cC := make_segment_owner_or_gone "matrix_C" (N * N * sizeof_double) env.seg_C
    sys.shm_C (make_segment "matrix_B" (N * N * sizeof_double) env.seg_B sys.shm_B
      (make_segment "matrix_A" (N * N * sizeof_double) env.seg_A sys.shm_A sys.world).2).2
  have oB := make_segment_names_other "matrix_B" (N * N * sizeof_double) env.seg_B
    sys.shm_B (make_segment "matrix_A" (N * N * sizeof_double) env.seg_A sys.shm_A sys.world).2
  have oC := make_segment_names_other "matrix_C" (N * N * sizeof_double) env.seg_C
    sys.shm_C (make_segment "matrix_B" (N * N * sizeof_double) env.seg_B sys.shm_B
      (make_segment "matrix_A" (N * N * sizeof_double) env.seg_A sys.shm_A sys.world).2).2
  generalize make_segment "matrix_A" (N * N * sizeof_double) env.seg_A sys.shm_A sys.world
    = sa at hA hB hC hW cA cB cC oB oC
  generalize make_segment "matrix_B" (N * N * sizeof_double) env.seg_B sys.shm_B sa.2
    = sb at hB hC hW cB cC oB oC
  generalize make_segment "matrix_C" (N * N * sizeof_double) env.seg_C sys.shm_C sb.2
    = sc at hC hW cC oC
  have nA : SharedMemory.shm_name "matrix_A" = "/matrix_A" := by decide
  have nB : SharedMemory.shm_name "matrix_B" = "/matrix_B" := by decide
  have nC : SharedMemory.shm_name "matrix_C" = "/matrix_C" := by decide
  rw [nA] at cA
  rw [nB] at cB oB
  rw [nC] at cC oC
  obtain ⟨dC, dB, dA, dW⟩ := destroy_some sys2 _ _ _ hA hB hC
  rw [hW] at dW
  refine ⟨⟨_, _, _, dA, dB, dC, SharedMemory.release_ptr _ _,
    SharedMemory.release_valid _ _, SharedMemory.release_ptr _ _,
    SharedMemory.release_valid _ _, SharedMemory.release_ptr _ _,
    SharedMemory.release_valid _ _⟩, ?_, ?_, ?_⟩
  · intro ho
    rw [dW]
    refine name_gone_after_release sa.1 "/matrix_A" sa.2 _ (cA ho) (fun hno hmem => hno ?_)
    have h1 := SharedMemory.release_names _ _ _ (SharedMemory.release_names _ _ _ hmem)
    exact oB "/matrix_A" (by decide) (oC "/matrix_A" (by decide) h1)
  · intro ho hmem
    rw [dW] at hmem
    refine name_gone_after_release sb.1 "/matrix_B" sb.2 _ (cB ho) (fun hno hmem2 => hno ?_)
      (SharedMemory.release_names _ _ _ hmem)
    exact oC "/matrix_B" (by decide) (SharedMemory.release_names _ _ _ hmem2)
  · intro ho hmem
    rw [dW] at hmem
    exact name_gone_after_release sc.1 "/matrix_C" sc.2 _ (cC ho) (fun hno => hno)
      (SharedMemory.release_names _ _ _ (SharedMemory.release_names _ _ _ hmem))

end ProcessManager

namespace Barrier

theorem step_waited (P : Nat) (s s1 : State) (m : Move) (h : step P s m = some s1)
    (hw : waited s) : waited s1 := by
  obtain ⟨phase, cp, running, np⟩ := s
  cases m with
  | fork_child =>
    cases phase with
    | dispatch p =>
      simp only [step] at h
      split at h
      · cases h; trivial
      · cases h
    | waiting k => simp [step] at h
    | copied => simp [step] at h
  | fork_fails =>
    cases phase with
    | dispatch p =>
      simp only [step] at h
      split at h
      · cases h; trivial
      · cases h
    | waiting k => simp [step] at h
    | copied => simp [step] at h
  | leave_dispatch =>
    cases phase with
    | dispatch p =>
      simp only [step] at h
      split at h
      · cases h
      · cases h
        intro i pid hi
        omega
    | waiting k => simp [step] at h
    | copied => simp [step] at h
  | child_exits pid =>
    simp only [step] at h
    split at h
    · cases h
      cases phase with
      | dispatch p => trivial
      | waiting k =>
        exact fun i q hi hq hmem => hw i q hi hq (List.mem_of_mem_erase hmem)
      | copied =>
        exact fun q hq hmem => hw q hq (List.mem_of_mem_erase hmem)
    · cases h
  | wait_returns =>
    cases phase with
    | dispatch p => simp [step] at h
    | copied => simp [step] at h
    | waiting k =>
      simp only [step] at h
      cases hk : cp[k]? with
      | none => simp [hk] at h
      | some pid =>
        simp only [hk] at h
        split at h
        · cases h
        · rename_i hnot
          cases h
          intro i q hi hq
          rcases Nat.lt_or_ge i k with h1 | h1
          · exact hw i q h1 hq
          · have : i = k := by omega
            subst this
            have hq1 : cp[i]? = some q := hq
            rw [hk] at hq1
            cases hq1
            exact hnot
  | copy_result =>
    cases phase with
    | dispatch p => simp [step] at h
    | copied => simp [step] at h
    | waiting k =>
      simp only [step] at h
      split at h
      · cases h
      · rename_i hlen
        cases h
        intro q hq
        have hq1 : q ∈ cp := hq
        obtain ⟨i, hi, hget⟩ := List.mem_iff_getElem.1 hq1
        exact hw i q (by omega)
          (by show cp[i]? = some q; rw [List.getElem?_eq_getElem hi, hget])

theorem run_waited (P : Nat) (moves : List Move) :
    ∀ s s1, run P s moves = some s1 → waited s → waited s1 := by
  induction moves with
  | nil =>
    intro s s1 h hw
    cases h
    exact hw
  | cons m ms ih =>
    intro s s1 h hw
    unfold run at h
    cases hs : step P s m with
    | none => simp [hs] at h
    | some s2 =>
      simp only [hs, Option.some_bind] at h
      exact ih s2 s1 h (step_waited P s s2 m hs hw)

end Barrier

namespace ProcessManager

theorem worker_process_empty {α : Type} [Add α] [Mul α] [Zero α] (N B : Nat)
    (A Bm : Nat → α) (x : Nat) (C : Nat → α) : worker_process N B A Bm x x C = some C := by
  unfold worker_process Loop.forStep
  simp only [Nat.sub_self]
  unfold Loop.forStepAux
  simp

theorem range_start_few_blocks (T P p : Nat) (hPT : T < P) : range_start T P p = min p T := by
  unfold range_start
  rw [Nat.div_eq_of_lt hPT, Nat.mod_eq_of_lt hPT, Nat.mul_zero, Nat.zero_add]

end ProcessManager

namespace MatrixMultiplier

theorem matrix_block_sum_eq {α : Type} [Semiring α] (N bs : Nat) (A2 B2 : Nat → Nat → α)
    (i j k : Nat) :
    block_sum N bs A2 B2 i j k = ∑ kk in Finset.Ico k (min (k + bs) N), A2 i kk * B2 kk j := by
  unfold block_sum Loop.forRange
  rw [ProcessManager.foldl_add_range' (fun kk => A2 i kk * B2 kk j), zero_add]
  rcases Nat.lt_or_ge (min (k + bs) N) k with h | h
  · rw [Finset.Ico_eq_empty (by omega), Finset.Ico_eq_empty (by omega)]
  · congr 2
    omega

theorem matrix_cell_fold_blocks {α : Type} [Semiring α] (N B : Nat) (A2 B2 : Nat → Nat → α)
    (i j : Nat) (v : α) (m : Nat) :
    (List.range' 0 m B).foldl (fun acc k => acc + block_sum N B A2 B2 i j k) v
      = v + ∑ k in Finset.range (min (m * B) N), A2 i k * B2 k j := by
  induction m with
  | zero => simp
  | succ m ih =>
    rw [List.range'_concat, List.foldl_append, ih, List.foldl_cons, List.foldl_nil,
      matrix_block_sum_eq, add_assoc, Nat.zero_add, Nat.mul_comm B m, Nat.add_mul, Nat.one_mul]
    congr 1
    rcases Nat.le_total (m * B) N with h | h
    · rw [Nat.min_eq_left h]
      exact Finset.sum_range_add_sum_Ico _ (by omega)
    · rw [Nat.min_eq_right h, Nat.min_eq_right (by omega),
        Finset.Ico_eq_empty (by omega), Finset.sum_empty, add_zero]

theorem matrix_cell_fold_eq {α : Type} [Semiring α] (N B : Nat) (hB : 1 ≤ B)
    (A2 B2 : Nat → Nat → α) (i j : Nat) (v : α) :
    cell_fold N B A2 B2 i j v = v + ∑ k in Finset.range N, A2 i k * B2 k j := by
  unfold cell_fold
  rw [matrix_cell_fold_blocks]
  have := (Loop.blocks_bound N B hB).2.2
  rw [show min (get_num_blocks N B * B) N = N from Nat.min_eq_right this]

theorem multiply_sequential_sum {α : Type} [Semiring α] (N B : Nat) (hB : 1 ≤ B)
    (A2 B2 C0 : Nat → Nat → α) :
    ∃ C, multiply_sequential N B A2 B2 C0 = some C ∧
      ∀ i j, i < N → j < N → C i j = C0 i j + ∑ k in Finset.range N, A2 i k * B2 k j := by
  refine ⟨_, multiply_sequential_eq N B hB A2 B2 C0, fun i j hi hj => ?_⟩
  obtain ⟨C1, h1, h2⟩ := multiply_sequential_apply N B hB A2 B2 C0 i j hi hj
  rw [multiply_sequential_eq N B hB] at h1
  rw [Option.some.inj h1, h2, matrix_cell_fold_eq N B hB]

end MatrixMultiplier

/-! ## Integer helpers and the block size -/

namespace Utils

theorem wrap32_id (x : Int) (h1 : -2 ^ 31 ≤ x) (h2 : x < 2 ^ 31) : wrap32 x = x := by
  unfold wrap32
  omega

theorem wrap32_double (x : Int) : wrap32 (wrap32 x * 2) = wrap32 (x * 2) := by
  unfold wrap32
  omega

theorem wrap32_pow_le (k : Nat) : wrap32 (2 ^ k) ≤ 2 ^ 30 := by
  by_cases hk : k ≤ 30
  · have h : (2 : Int) ^ k ≤ 2 ^ 30 := pow_le_pow_right₀ (by norm_num) hk
    have h0 : (0 : Int) < 2 ^ k := by positivity
    rw [wrap32_id _ (by omega) (by omega)]
    exact h
  · by_cases hk1 : k = 31
    · subst hk1
      unfold wrap32
      norm_num
    · have hk2 : 32 ≤ k := by omega
      obtain ⟨d, rfl⟩ := Nat.exists_eq_add_of_le hk2
      have h : wrap32 (2 ^ (32 + d)) = 0 := by
        unfold wrap32
        rw [pow_add, add_comm, Int.add_mul_emod_self_left]
        norm_num
      rw [h]
      norm_num

/-- The doubling loop of `next_power_of_2` never leaves when every doubled value stays
below `n`. -/
theorem double_until_none (n : Int) (hn : 2 ^ 30 < n) :
    ∀ fuel k, double_until n fuel (wrap32 (2 ^ k)) = none := by
  intro fuel
  induction fuel with
  | zero => intro k; rfl
  | succ fuel ih =>
    intro k
    have h := wrap32_pow_le k
    rw [double_until, if_pos (by omega), wrap32_double, ← pow_succ]
    exact ih (k + 1)

theorem push_doubling_none (m : Int) (hm : 2 ^ 30 ≤ m) :
    ∀ fuel k list, push_doubling m fuel (wrap32 (2 ^ k)) list = none := by
  intro fuel
  induction fuel with
  | zero => intro k list; rfl
  | succ fuel ih =>
    intro k list
    have h := wrap32_pow_le k
    rw [push_doubling, if_pos (by omega), wrap32_double, ← pow_succ]
    exact ih (k + 1) _

/-- A positive number that shares no bit with its predecessor is a power of two. -/
theorem pow_two_of_and_pred (n : Nat) (h1 : 1 ≤ n) (h : n &&& (n - 1) = 0) :
    ∃ k, n = 2 ^ k := by
  induction n using Nat.strong_induction_on with
  | _ n ih =>
    by_cases hn1 : n = 1
    · exact ⟨0, by rw [hn1]; rfl⟩
    · have hdiv : n / 2 &&& (n - 1) / 2 = 0 := by
        rw [← Nat.and_div_two, h]
      by_cases hodd : n % 2 = 1
      · have h2 : (n - 1) / 2 = n / 2 := by omega
        rw [h2, Nat.and_self] at hdiv
        omega
      · have h2 : (n - 1) / 2 = n / 2 - 1 := by omega
        rw [h2] at hdiv
        obtain ⟨k, hk⟩ := ih (n / 2) (by omega) (by omega) hdiv
        refine ⟨k + 1, ?_⟩
        rw [pow_succ, ← hk]
        omega

theorem int_pow_two_of_land_pred (n : Int) (h1 : 1 ≤ n) (h : Int.land n (n - 1) = 0) :
    ∃ k : Nat, n = 2 ^ k := by
  obtain ⟨m, rfl⟩ := Int.eq_ofNat_of_zero_le (by omega : (0 : Int) ≤ n)
  have hm : 1 ≤ m := by omega
  have hcast : ((m : Int) - 1) = ((m - 1 : Nat) : Int) := by omega
  rw [hcast] at h
  have h2 : ((m &&& (m - 1) : Nat) : Int) = 0 := h
  obtain ⟨k, hk⟩ := pow_two_of_and_pred m hm (by exact_mod_cast h2)
  exact ⟨k, by rw [hk]; push_cast; rfl⟩

/-- The doubling loop started at `2 ^ j` below the first power that reaches `n`. -/
theorem double_until_spec (n : Int) (hn : n ≤ 2 ^ 30) :
    ∀ fuel j : Nat, j ≤ 30 → 30 - j < fuel → (∀ i, i < j → (2 : Int) ^ i < n) →
      ∃ k : Nat, k ≤ 30 ∧ double_until n fuel (2 ^ j) = some (2 ^ k) ∧ n ≤ 2 ^ k ∧
        ∀ i, i < k → (2 : Int) ^ i < n := by
  intro fuel
  induction fuel with
  | zero => intro j _ h; omega
  | succ fuel ih =>
    intro j hj hfuel hlow
    by_cases hlt : (2 : Int) ^ j < n
    · have hj30 : j < 30 := by
        by_contra hc
        have : j = 30 := by omega
        subst this
        omega
      have hle : (2 : Int) ^ (j + 1) ≤ 2 ^ 30 := pow_le_pow_right₀ (by norm_num) (by omega)
      have hpos : (0 : Int) < 2 ^ (j + 1) := by positivity
      have hw : wrap32 (2 ^ j * 2) = 2 ^ (j + 1) := by
        rw [← pow_succ]
        exact wrap32_id _ (by omega) (by omega)
      rw [double_until, if_pos hlt, hw]
      apply ih (j + 1) (by omega) (by omega)
      intro i hi
      by_cases hij : i = j
      · rw [hij]; exact hlt
      · exact hlow i (by omega)
    · refine ⟨j, hj, ?_, by omega, hlow⟩
      rw [double_until, if_neg hlt]

/-- The result of `next_power_of_2` on `1 ≤ n ≤ 2^30`. -/
theorem next_power_of_2_spec (n : Int) (h1 : 1 ≤ n) (hn : n ≤ 2 ^ 30) :
    ∃ k : Nat, k ≤ 30 ∧ next_power_of_2 n = some (2 ^ k) ∧ n ≤ 2 ^ k ∧
      ∀ j : Nat, n ≤ 2 ^ j → k ≤ j := by
  unfold next_power_of_2
  rw [if_neg (by omega)]
  by_cases hb : Int.land n (n - 1) = 0
  · rw [if_pos hb]
    obtain ⟨k, hk⟩ := int_pow_two_of_land_pred n h1 hb
    have hk30 : k ≤ 30 := by
      rw [hk] at hn
      exact (pow_le_pow_iff_right₀ (by norm_num : (1 : Int) < 2)).mp hn
    refine ⟨k, hk30, by rw [hk], by rw [hk], ?_⟩
    intro j hj
    rw [hk] at hj
    exact (pow_le_pow_iff_right₀ (by norm_num : (1 : Int) < 2)).mp hj
  · rw [if_neg hb]
    obtain ⟨k, hk30, hk, hle, hlow⟩ :=
      double_until_spec n hn 64 0 (by omega) (by omega) (by intro i hi; omega)
    rw [pow_zero] at hk
    refine ⟨k, hk30, hk, hle, ?_⟩
    intro j hj
    by_contra hc
    have := hlow j (by omega)
    omega


/-- The pushing loop started at `2 ^ j` with `d` powers left below `max_processes`. -/
theorem push_doubling_spec (max_processes : Int) (m : Nat) (hm : m ≤ 29)
    (hlo : 2 ^ m ≤ max_processes) (hhi : max_processes < 2 ^ (m + 1)) :
    ∀ d fuel j list, j + d = m + 1 → d < fuel →
      push_doubling max_processes fuel (2 ^ j) list
        = some (list ++ (List.range' j d).map (fun i => (2 : Int) ^ i)) := by
  intro d
  induction d with
  | zero =>
    intro fuel j list hj hfuel
    obtain ⟨f, rfl⟩ := Nat.exists_eq_succ_of_ne_zero (by omega : fuel ≠ 0)
    have hjm : j = m + 1 := by omega
    subst hjm
    rw [push_doubling, if_neg (by omega)]
    simp
  | succ d ih =>
    intro fuel j list hj hfuel
    obtain ⟨f, rfl⟩ := Nat.exists_eq_succ_of_ne_zero (by omega : fuel ≠ 0)
    have hjm : (2 : Int) ^ j ≤ 2 ^ m := pow_le_pow_right₀ (by norm_num) (by omega)
    have hle : (2 : Int) ^ (j + 1) ≤ 2 ^ 30 := pow_le_pow_right₀ (by norm_num) (by omega)
    have hpos : (0 : Int) < 2 ^ (j + 1) := by positivity
    have hw : wrap32 (2 ^ j * 2) = 2 ^ (j + 1) := by
      rw [← pow_succ]
      exact wrap32_id _ (by omega) (by omega)
    rw [push_doubling, if_pos (by omega), hw, ih f (j + 1) _ (by omega) (by omega)]
    rw [List.range'_succ, List.map_cons, List.append_assoc]
    rfl

theorem powers_getLast (m : Nat) : (powers m).getLast? = some (2 ^ m) := by
  unfold powers
  rw [List.range_succ, List.map_append]
  simp

theorem powers_head (m : Nat) : (powers m).head? = some 1 := by
  unfold powers
  rw [List.range_succ_eq_map]
  simp

theorem mem_powers (m : Nat) (x : Int) : x ∈ powers m ↔ ∃ k, k ≤ m ∧ x = 2 ^ k := by
  unfold powers
  simp only [List.mem_map, List.mem_range]
  constructor
  · rintro ⟨k, hk, rfl⟩
    exact ⟨k, by omega, rfl⟩
  · rintro ⟨k, hk, rfl⟩
    exact ⟨k, by omega, rfl⟩

theorem powers_pairwise (m : Nat) : (powers m).Pairwise (fun a b => a < b) := by
  unfold powers
  rw [List.pairwise_map]
  refine List.Pairwise.imp ?_ (List.pairwise_lt_range (m + 1))
  intro a b hab
  exact pow_lt_pow_right₀ (by norm_num) hab

/-- The list `generate_process_list` builds, from the largest power of two `2 ^ m` that
does not exceed `max_processes`. -/
theorem generate_process_list_eq (max_processes : Int) (m : Nat) (hm : m ≤ 29)
    (hlo : 2 ^ m ≤ max_processes) (hhi : max_processes < 2 ^ (m + 1)) :
    generate_process_list max_processes
      = some (powers m ++ if (2 : Int) ^ m = max_processes then [] else [max_processes]) := by
  have hloop : push_doubling max_processes 64 2 [1] = some (powers m) := by
    have h := push_doubling_spec max_processes m hm hlo hhi m 64 1 [1] (by omega) (by omega)
    rw [pow_one] at h
    rw [h]
    unfold powers
    rw [List.range_eq_range', List.range'_succ, List.map_cons]
    rfl
  unfold generate_process_list
  rw [hloop, Option.map_some', powers_getLast]
  by_cases h : (2 : Int) ^ m = max_processes
  · simp [h]
  · simp [h]

/-- Every `max_processes` from 1 to below `2^30` lies between two consecutive powers. -/
theorem exists_log (n : Int) (h1 : 1 ≤ n) (h2 : n < 2 ^ 30) :
    ∃ m : Nat, m ≤ 29 ∧ (2 : Int) ^ m ≤ n ∧ n < 2 ^ (m + 1) := by
  obtain ⟨a, rfl⟩ := Int.eq_ofNat_of_zero_le (by omega : (0 : Int) ≤ n)
  have ha : a ≠ 0 := by omega
  have hlo : 2 ^ Nat.log 2 a ≤ a := Nat.pow_log_le_self 2 ha
  have hhi : a < 2 ^ (Nat.log 2 a + 1) := Nat.lt_pow_succ_log_self (by norm_num) a
  have h30 : a < 2 ^ 30 := by exact_mod_cast h2
  have hm : Nat.log 2 a < 30 := by
    have : 2 ^ Nat.log 2 a < 2 ^ 30 := lt_of_le_of_lt hlo h30
    exact (Nat.pow_lt_pow_iff_right (by norm_num)).mp this
  exact ⟨Nat.log 2 a, by omega, by exact_mod_cast hlo, by exact_mod_cast hhi⟩

end Utils

namespace HardwareDetector

/-- The clamp of a power of two `2 ^ k`. -/
theorem clamp_power (k : Nat) (hk : k ≤ 30) :
    (let block_size := if (2 : Int) ^ k < MIN_BLOCK_SIZE then MIN_BLOCK_SIZE else 2 ^ k
     let block_size := if block_size > MAX_BLOCK_SIZE then MAX_BLOCK_SIZE else block_size
     block_size) ∈ [(32 : Int), 64, 128, 256] := by
  unfold MIN_BLOCK_SIZE MAX_BLOCK_SIZE
  interval_cases k <;> simp

end HardwareDetector


/-! ## The analyzer of measurements -/

namespace PerformanceAnalyzer

theorem div_some (a b : ℚ) (hb : b ≠ 0) : div a b = some (a / b) := by
  unfold div
  rw [if_neg hb]

theorem inv_init : Inv PerformanceAnalyzer := by
  unfold Inv PerformanceAnalyzer THEORETICAL_F
  norm_num

theorem inv_calculate_empirical_f (S : ℚ) (s s1 : State) (hs : Inv s)
    (h : calculate_empirical_f S s = some s1) : Inv s1 := by
  unfold calculate_empirical_f at h
  obtain ⟨h1, h2, h3⟩ := hs
  by_cases hS : S ≤ 1
  · rw [if_pos hS] at h
    cases h
    refine ⟨h1, ?_, ?_⟩
    · show 0 ≤ s.f_theoretical
      rw [h1]; unfold THEORETICAL_F; norm_num
    · show s.f_theoretical ≤ 1
      rw [h1]; unfold THEORETICAL_F; norm_num
  · rw [if_neg hS, div_some _ _ (by linarith), Option.map_some'] at h
    cases h
    refine ⟨h1, ?_, ?_⟩
    · show 0 ≤ _
      simp only
      split_ifs <;> linarith
    · show _ ≤ (1 : ℚ)
      simp only
      split_ifs <;> linarith

/-- `calculate_empirical_f` returns for every finite argument. -/
theorem calculate_empirical_f_total (S : ℚ) (s : State) :
    ∃ s1, calculate_empirical_f S s = some s1 := by
  unfold calculate_empirical_f
  by_cases hS : S ≤ 1
  · rw [if_pos hS]
    exact ⟨_, rfl⟩
  · rw [if_neg hS, div_some _ _ (by linarith), Option.map_some']
    exact ⟨_, rfl⟩

theorem inv_calculate_empirical_f_double (S : Double) (s s1 : State) (hs : Inv s)
    (h : calculate_empirical_f_double S s = some s1) : Inv s1 := by
  obtain ⟨h1, h2, h3⟩ := hs
  cases S with
  | fin q => exact inv_calculate_empirical_f q s s1 ⟨h1, h2, h3⟩ h
  | pos_inf =>
    cases h
    exact ⟨h1, by norm_num, by norm_num⟩
  | neg_inf =>
    cases h
    refine ⟨h1, ?_, ?_⟩
    · show 0 ≤ s.f_theoretical
      rw [h1]; unfold THEORETICAL_F; norm_num
    · show s.f_theoretical ≤ 1
      rw [h1]; unfold THEORETICAL_F; norm_num
  | nan => cases h

/-- The quotient of a positive finite value is not NaN. -/
theorem quot_pos_ne_nan (a b : ℚ) (ha : 0 < a) : Double.quot a b ≠ Double.nan := by
  unfold Double.quot
  by_cases hb : b ≠ 0
  · rw [if_pos hb]
    exact fun h => Double.noConfusion h
  · rw [if_neg hb, if_pos ha]
    exact fun h => Double.noConfusion h

theorem calculate_amdahl_speedup_total (p : Int) (f : ℚ) :
    ∃ S, calculate_amdahl_speedup p f = some S := by
  unfold calculate_amdahl_speedup
  by_cases hp : p ≤ 0
  · rw [if_pos hp]
    exact ⟨_, rfl⟩
  · rw [if_neg hp]
    have hpq : (0 : ℚ) < (p : ℚ) := by
      have : 0 < p := by omega
      exact_mod_cast this
    simp only []
    rw [div_some _ _ (ne_of_gt hpq), Option.some_bind]
    refine ⟨_, div_some _ _ ?_⟩
    have hc0 : 0 ≤ (if (if f < 0 then 0 else f) > 1 then 1 else (if f < 0 then 0 else f)) := by
      split_ifs <;> linarith
    have hc1 : (if (if f < 0 then 0 else f) > 1 then 1 else (if f < 0 then 0 else f)) ≤ 1 := by
      split_ifs <;> linarith
    generalize (if (if f < 0 then 0 else f) > 1 then 1 else (if f < 0 then 0 else f)) = c
      at hc0 hc1
    have hq : 0 ≤ c / (p : ℚ) := div_nonneg hc0 (le_of_lt hpq)
    rcases eq_or_lt_of_le hc1 with h1 | h1
    · subst h1
      have : 0 < (1 : ℚ) / (p : ℚ) := div_pos (by norm_num) hpq
      linarith
    · linarith

theorem calculate_gflops_total (n : Int) (t : ℚ) : ∃ g, calculate_gflops n t = some g := by
  unfold calculate_gflops
  by_cases ht : t ≤ 0
  · rw [if_pos ht]
    exact ⟨_, rfl⟩
  · rw [if_neg ht]
    refine ⟨_, div_some _ _ ?_⟩
    unfold GIGA
    have : 0 < t := by linarith
    positivity

/-- `analyze_result` returns in every state, whatever its arguments, and keeps the
invariant. -/
theorem analyze_result_total (p : Int) (t : ℚ) (n : Int) (s : State) (hs : Inv s) :
    ∃ s1, analyze_result p t n s = some s1 ∧ Inv s1 := by
  unfold analyze_result
  obtain ⟨g, hg⟩ := calculate_gflops_total n t
  rw [hg, Option.some_bind]
  simp only []
  have hstep : ∃ s2, (if p = 2 ∧ s.f_empirical_calculated = false then
      calculate_empirical_f_double
        (if s.sequential_time > 0 then Double.quot s.sequential_time t else Double.fin 1) s
      else some s) = some s2 ∧ Inv s2 := by
    by_cases hc : p = 2 ∧ s.f_empirical_calculated = false
    · rw [if_pos hc]
      have hsome : ∃ s2, calculate_empirical_f_double
          (if s.sequential_time > 0 then Double.quot s.sequential_time t else Double.fin 1) s
          = some s2 := by
        by_cases hseq : s.sequential_time > 0
        · rw [if_pos hseq]
          have hn := quot_pos_ne_nan s.sequential_time t hseq
          cases hq : Double.quot s.sequential_time t with
          | fin q => exact calculate_empirical_f_total q s
          | pos_inf => exact ⟨_, rfl⟩
          | neg_inf => exact ⟨_, rfl⟩
          | nan => exact absurd hq hn
        · rw [if_neg hseq]
          exact calculate_empirical_f_total 1 s
      obtain ⟨s2, h2⟩ := hsome
      exact ⟨s2, h2, inv_calculate_empirical_f_double _ s s2 hs h2⟩
    · rw [if_neg hc]
      exact ⟨s, rfl, hs⟩
  obtain ⟨s2, h2, hinv⟩ := hstep
  rw [h2, Option.some_bind]
  obtain ⟨S, hS⟩ := calculate_amdahl_speedup_total p (f_to_use s2)
  rw [hS, Option.map_some']
  exact ⟨_, rfl, hinv⟩

theorem apply_total (op : Op) (s : State) (hs : Inv s) :
    ∃ s1, apply_op op s = some s1 ∧ Inv s1 := by
  cases op with
  | set_sequential_time t => exact ⟨_, rfl, hs⟩
  | analyze_result p t n => exact analyze_result_total p t n s hs
  | calculate_empirical_f S =>
    obtain ⟨s1, h1⟩ := calculate_empirical_f_total S s
    exact ⟨s1, h1, inv_calculate_empirical_f S s s1 hs h1⟩
  | clear_results => exact ⟨_, rfl, hs⟩

/-- Every sequence of public operations returns, in a state that keeps the invariant. -/
theorem run_total (ops : List Op) : ∀ s : State, Inv s → ∃ s1, run ops s = some s1 ∧ Inv s1 := by
  induction ops with
  | nil =>
    intro s hs
    exact ⟨s, rfl, hs⟩
  | cons op ops ih =>
    intro s hs
    obtain ⟨s2, h2, hinv⟩ := apply_total op s hs
    obtain ⟨s1, h1, hinv1⟩ := ih s2 hinv
    refine ⟨s1, ?_, hinv1⟩
    unfold run
    rw [h2, Option.some_bind]
    exact h1

/-- The state `calculate_empirical_f` leaves for a speedup above 1. -/
theorem calculate_empirical_f_gt (S : ℚ) (s : State) (hS : 1 < S) :
    calculate_empirical_f S s = some
      { s with
        f_empirical := if 2 * (1 - 1 / S) > 1 then 1 else 2 * (1 - 1 / S)
        f_empirical_calculated := true } := by
  unfold calculate_empirical_f
  rw [if_neg (by linarith), div_some _ _ (by linarith), Option.map_some']
  have hpos : 0 < S := by linarith
  have hq : 1 / S < 1 := by
    rw [div_lt_one hpos]
    exact hS
  have h0 : ¬ (2 * (1 - 1 / S) < 0) := by linarith
  simp only [if_neg h0]

end PerformanceAnalyzer

/-! ## Bounds of the parallel engine -/

namespace Loop

theorem foldl_invariant {ι σ : Type} (Q : σ → Prop) (step : ι → σ → σ) (l : List ι)
    (h : ∀ x ∈ l, ∀ s, Q s → Q (step x s)) (s : σ) (hs : Q s) :
    Q (l.foldl (fun acc x => step x acc) s) := by
  induction l generalizing s with
  | nil => exact hs
  | cons a l ih =>
    rw [List.foldl_cons]
    exact ih (fun x hx => h x (List.mem_cons_of_mem _ hx)) _
      (h a (List.mem_cons_self _ _) s hs)

end Loop

namespace ProcessManager

theorem flat_index_lt (N i j : Nat) (hi : i < N) (hj : j < N) : i * N + j < N * N := by
  have := Nat.mul_le_mul_right N (show i + 1 ≤ N from hi)
  rw [Nat.add_mul] at this
  omega

theorem worker_int_values_eq (N B : Nat) (hB : 1 ≤ B) (s e : Nat) :
    worker_int_values N B s e
      = some ((range_blocks (s, e)).foldl (fun acc t => ints_tile_step N B t acc)
          [N + B, N + B - 1, num_blocks_per_dim N B]) := by
  unfold worker_int_values range_blocks
  refine Loop.forStep_unit s e _ (fun t acc => ints_tile_step N B t acc) ?_ _
  intro t acc
  exact Loop.forStep_blocks N B hB _ (fun k acc1 => ints_block_step N B t k acc1)
    (fun k acc1 => rfl) _

/-- Every value the instrumented kernel records is at most `M`, when `M` bounds the
number of cells and the sum of the two sizes. -/
theorem int_values_bounded (N B M : Nat) (hB : 1 ≤ B) (hM1 : N * N ≤ M) (hM2 : N + B ≤ M)
    (s e : Nat) (he : e ≤ get_total_blocks N B) :
    ∀ v ∈ (range_blocks (s, e)).foldl (fun acc t => ints_tile_step N B t acc)
        [N + B, N + B - 1, num_blocks_per_dim N B], v ≤ M := by
  obtain ⟨hnb, hmul, _⟩ := Loop.blocks_bound N B hB
  have hnb1 : num_blocks_per_dim N B ≤ N := hnb
  have hmul1 : ∀ m, m < num_blocks_per_dim N B → m * B < N := hmul
  refine Loop.foldl_invariant (fun V : List Nat => ∀ v ∈ V, v ≤ M) _ _ ?_ _ ?_
  · intro t ht V hV
    have ht1 : t < get_total_blocks N B := by
      unfold range_blocks at ht
      have := List.mem_range'_1.1 ht
      simp only [] at this
      omega
    unfold get_total_blocks at ht1
    simp only [] at ht1
    have hpos : 0 < num_blocks_per_dim N B := by
      rcases Nat.eq_zero_or_pos (num_blocks_per_dim N B) with h0 | h0
      · rw [h0] at ht1; omega
      · exact h0
    have hbi : t / num_blocks_per_dim N B < num_blocks_per_dim N B :=
      Nat.div_lt_of_lt_mul ht1
    have hbj : t % num_blocks_per_dim N B < num_blocks_per_dim N B := Nat.mod_lt _ hpos
    have hbi1 := hmul1 _ hbi
    have hbj1 := hmul1 _ hbj
    unfold ints_tile_step block_coords
    simp only []
    refine Loop.foldl_invariant (fun V : List Nat => ∀ v ∈ V, v ≤ M) _ _ ?_ _ ?_
    · intro k hk V1 hV1
      have hk1 : k < N := by
        obtain ⟨m, hm, rfl⟩ := List.mem_range'.1 hk
        have := hmul1 m hm
        rw [Nat.mul_comm] at this
        omega
      unfold ints_block_step block_coords Loop.forRange
      simp only []
      refine Loop.foldl_invariant (fun V : List Nat => ∀ v ∈ V, v ≤ M) _ _ ?_ _ ?_
      · intro i hi V2 hV2
        have hi1 : i < N := by
          have := List.mem_range'_1.1 hi
          omega
        refine Loop.foldl_invariant (fun V : List Nat => ∀ v ∈ V, v ≤ M) _ _ ?_ _ hV2
        intro j hj V3 hV3
        have hj1 : j < N := by
          have := List.mem_range'_1.1 hj
          omega
        intro v hv
        rcases List.mem_append.1 hv with hv | hv
        · refine Loop.foldl_invariant (fun V : List Nat => ∀ v ∈ V, v ≤ M) _ _ ?_ _ hV3 v hv
          intro kk hkk V4 hV4 v hv
          have hkk1 : kk < N := by
            have := List.mem_range'_1.1 hkk
            omega
          have h1 := flat_index_lt N i kk hi1 hkk1
          have h2 := flat_index_lt N kk j hkk1 hj1
          simp only [List.mem_append, List.mem_cons, List.mem_singleton, List.mem_nil_iff,
            or_false] at hv
          rcases hv with hv | hv | hv
          · exact hV4 v hv
          · omega
          · omega
        · have h1 := flat_index_lt N i j hi1 hj1
          simp only [List.mem_singleton] at hv
          omega
      · intro v hv
        simp only [List.mem_append, List.mem_cons, List.mem_singleton, List.mem_nil_iff,
          or_false] at hv
        rcases hv with hv | hv | hv | hv
        · exact hV1 v hv
        · omega
        · omega
        · omega
    · intro v hv
      simp only [List.mem_append, List.mem_cons, List.mem_singleton, List.mem_nil_iff,
        or_false] at hv
      rcases hv with hv | hv | hv | hv | hv
      · exact hV v hv
      · omega
      · omega
      · omega
      · omega
  · intro v hv
    simp only [List.mem_cons, List.mem_singleton, List.mem_nil_iff, or_false] at hv
    rcases hv with hv | hv | hv
    · omega
    · omega
    · omega

/-- The machine computation of the byte count agrees with the exact one while the number
of cells fits an `int`. -/
theorem matrix_bytes_exact (N : Nat) (h : N * N < 2 ^ 31) :
    matrix_bytes (N : Int) = ((N * N * sizeof_double : Nat) : Int) := by
  unfold matrix_bytes sizeof_double
  have h1 : ((N : Int) * N) < 2 ^ 31 := by exact_mod_cast h
  have h0 : (0 : Int) ≤ (N : Int) * N := by positivity
  rw [Utils.wrap32_id _ (by omega) h1]
  push_cast
  generalize (N : Int) * N = x at h0 h1
  omega

/-- The machine computation of the block count agrees with the exact one while the
intermediate values fit an `int`. -/
theorem get_total_blocks_int_exact (N B : Nat) (hB : 1 ≤ B) (h1 : N + B < 2 ^ 31)
    (h2 : num_blocks_per_dim N B * num_blocks_per_dim N B < 2 ^ 31) :
    get_total_blocks_int (N : Int) (B : Int) = ((get_total_blocks N B : Nat) : Int) := by
  unfold get_total_blocks_int get_total_blocks
  simp only []
  have e1 : Utils.wrap32 ((N : Int) + B) = ((N + B : Nat) : Int) := by
    rw [Utils.wrap32_id _ (by omega) (by exact_mod_cast h1)]
    push_cast
    rfl
  have e2 : Utils.wrap32 (((N + B : Nat) : Int) - 1) = ((N + B - 1 : Nat) : Int) := by
    rw [Utils.wrap32_id _ (by omega) (by omega)]
    omega
  have e3 : Int.tdiv ((N + B - 1 : Nat) : Int) (B : Int)
      = ((num_blocks_per_dim N B : Nat) : Int) := by
    unfold num_blocks_per_dim
    rw [Int.tdiv_eq_ediv (by omega) (by omega)]
    exact (Int.natCast_div _ _).symm
  rw [e1, e2, e3]
  have h3 : ((num_blocks_per_dim N B : Nat) : Int) * (num_blocks_per_dim N B : Nat)
      < 2 ^ 31 := by exact_mod_cast h2
  have h4 : (0 : Int) ≤ ((num_blocks_per_dim N B : Nat) : Int) * (num_blocks_per_dim N B : Nat) :=
    Int.mul_nonneg (Int.natCast_nonneg _) (Int.natCast_nonneg _)
  rw [Utils.wrap32_id _ (by omega) h3]
  push_cast
  rfl

theorem range_owner_unique (T P : Nat) (p q t : Nat)
    (hp : range_start T P p ≤ t ∧ t < range_start T P (p + 1))
    (hq : range_start T P q ≤ t ∧ t < range_start T P (q + 1)) : p = q := by
  rcases Nat.lt_trichotomy p q with h | h | h
  · have := range_start_mono T P (show p + 1 ≤ q from h)
    omega
  · exact h
  · have := range_start_mono T P (show q + 1 ≤ p from h)
    omega

theorem distribution_getD (T P p : Nat) (hp : p < P) :
    (block_distribution T P).getD p (0, 0)
      = (range_start T P p, range_start T P (p + 1)) := by
  rw [List.getD_eq_getElem?_getD, block_distribution_getElem? T P p hp]
  rfl

end ProcessManager

/-! ## The engine on 32-bit integers -/

namespace Loop

theorem Run.bind_done {σ : Type} (s : σ) (f : σ → Run σ) : (Run.done s).bind f = f s := rfl

theorem Run.sub_done {σ τ : Type} (t : τ) (s0 : σ) (f : τ → Run σ) :
    (Run.done t).sub s0 f = f t := rfl

theorem Run.ofOption_some {σ β : Type} (c : Fault) (s0 : σ) (b : β) (f : β → Run σ) :
    Run.ofOption c s0 (some b) f = f b := rfl

theorem forIntAux_eq_foldl {σ : Type} (hi step : Nat) (body : Int → σ → Run σ)
    (f : Nat → σ → σ)
    (hbody : ∀ x : Nat, x < hi → x + step < 2 ^ 31 → ∀ s, body (x : Int) s = Run.done (f x s)) :
    ∀ (n fuel x : Nat) (s : σ), n ≤ fuel → (∀ m, m < n → x + m * step < hi) →
      hi ≤ x + n * step → (∀ m, m < n → x + m * step + step < 2 ^ 31) →
      forIntAux (hi : Int) (step : Int) body fuel (x : Int) s
        = Run.done ((List.range' x n step).foldl (fun acc y => f y acc) s) := by
  intro n
  induction n with
  | zero =>
    intro fuel x s _ _ hge _
    have hx : ¬ x < hi := by omega
    cases fuel <;> simp [forIntAux, hx]
  | succ n ih =>
    intro fuel x s hfuel hlt hge hnw
    obtain ⟨fuel, rfl⟩ : ∃ k, fuel = k + 1 := ⟨fuel - 1, by omega⟩
    have hx : x < hi := by simpa using hlt 0 (by omega)
    have hx1 : x + step < 2 ^ 31 := by simpa using hnw 0 (by omega)
    have hw : Utils.wrap32 ((x : Int) + (step : Int)) = ((x + step : Nat) : Int) := by
      rw [Utils.wrap32_id _ (by omega) (by omega), Nat.cast_add]
    have hrec := ih fuel (x + step) (f x s) (by omega)
      (fun m hm => by
        have := hlt (m + 1) (by omega)
        rw [Nat.add_mul] at this
        omega)
      (by rw [Nat.add_mul] at hge; omega)
      (fun m hm => by
        have := hnw (m + 1) (by omega)
        rw [Nat.add_mul] at this
        omega)
    rw [forIntAux, if_pos (by exact_mod_cast hx), hbody x hx hx1, Run.bind_done, hw, hrec,
      List.range'_succ, List.foldl_cons]

/-- A unit-stride loop on an `int` counter between two non-negative bounds, whose body
succeeds on every counter value below the upper bound. -/
theorem forInt_unit {σ : Type} (lo hi : Nat) (hhi : hi < 2 ^ 31)
    (body : Int → σ → Run σ) (f : Nat → σ → σ)
    (hbody : ∀ x : Nat, x < hi → ∀ s, body (x : Int) s = Run.done (f x s)) (s : σ) :
    forInt (lo : Int) (hi : Int) 1 body s = Run.done (forRange lo hi f s) := by
  have h := forIntAux_eq_foldl hi 1 body f (fun x hx _ => hbody x hx) (hi - lo) (2 ^ 32) lo s
    (by omega) (fun m hm => by omega) (by omega) (fun m hm => by omega)
  rw [Nat.cast_one] at h
  exact h

theorem forInt_unit_zero {σ : Type} (hi : Nat) (hhi : hi < 2 ^ 31)
    (body : Int → σ → Run σ) (f : Nat → σ → σ)
    (hbody : ∀ x : Nat, x < hi → ∀ s, body (x : Int) s = Run.done (f x s)) (s : σ) :
    forInt 0 (hi : Int) 1 body s = Run.done (forRange 0 hi f s) := by
  have h := forInt_unit 0 hi hhi body f hbody s
  rw [Nat.cast_zero] at h
  exact h

/-- The loop over the k-blocks on an `int` counter, when the counter does not wrap before
it leaves. -/
theorem forInt_blocks {σ : Type} (N B : Nat) (hB : 1 ≤ B)
    (hfin : (N + B - 1) / B * B < 2 ^ 31)
    (body : Int → σ → Run σ) (f : Nat → σ → σ)
    (hbody : ∀ x : Nat, x < N → x + B < 2 ^ 31 → ∀ s, body (x : Int) s = Run.done (f x s))
    (s : σ) :
    forInt 0 (N : Int) (B : Int) body s
      = Run.done ((List.range' 0 ((N + B - 1) / B) B).foldl (fun acc y => f y acc) s) := by
  obtain ⟨h1, h2, h3⟩ := blocks_bound N B hB
  have h := forIntAux_eq_foldl N B body f hbody ((N + B - 1) / B) (2 ^ 32) 0 s
    (by omega) (fun m hm => by simpa using h2 m hm) (by simpa using h3)
    (fun m hm => by
      have := Nat.mul_le_mul_right B (show m + 1 ≤ (N + B - 1) / B from hm)
      rw [Nat.add_mul] at this
      omega)
  rw [Nat.cast_zero] at h
  exact h

end Loop

namespace ProcessManager.Machine

theorem idiv_nat (a b : Nat) (hb : 1 ≤ b) : idiv (a : Int) (b : Int) = some ((a / b : Nat) : Int) := by
  unfold idiv
  rw [if_neg (by omega), Int.tdiv_eq_ediv (by omega) (by omega)]
  rfl

theorem imod_nat (a b : Nat) (hb : 1 ≤ b) : imod (a : Int) (b : Int) = some ((a % b : Nat) : Int) := by
  unfold imod
  rw [if_neg (by omega), Int.tmod_eq_emod (by omega) (by omega)]
  rfl

theorem load_nat {α : Type} (size : Nat) (buf : Nat → α) (idx : Nat) (h : idx < size) :
    load size buf (idx : Int) = some (buf idx) := by
  unfold load
  rw [if_pos ⟨by omega, by omega⟩, Int.toNat_ofNat]

theorem store_nat {α : Type} (size : Nat) (buf : Nat → α) (idx : Nat) (v : α)
    (h : idx < size) :
    store size buf (idx : Int) v = some (Function.update buf idx v) := by
  unfold store
  rw [if_pos ⟨by omega, by omega⟩, Int.toNat_ofNat]

theorem mul_nat (a b : Nat) (h : a * b < 2 ^ 31) :
    Utils.wrap32 ((a : Int) * (b : Int)) = ((a * b : Nat) : Int) := by
  have h1 : ((a * b : Nat) : Int) < 2 ^ 31 := by exact_mod_cast h
  rw [← Nat.cast_mul]
  exact Utils.wrap32_id _ (by omega) h1

theorem add_nat (a b : Nat) (h : a + b < 2 ^ 31) :
    Utils.wrap32 ((a : Int) + (b : Int)) = ((a + b : Nat) : Int) := by
  rw [← Nat.cast_add]
  exact Utils.wrap32_id _ (by omega) (by omega)

theorem flat_index_nat (N i j : Nat) (hi : i < N) (hj : j < N) (hNN : N * N < 2 ^ 31) :
    Utils.wrap32 (Utils.wrap32 ((i : Int) * (N : Int)) + (j : Int))
      = ((i * N + j : Nat) : Int) := by
  have h := flat_index_lt N i j hi hj
  rw [mul_nat i N (by omega), add_nat _ _ (by omega)]

theorem num_blocks_nat (N B : Nat) (hB : 1 ≤ B) (hNB : N + B < 2 ^ 31) :
    num_blocks_per_dim (N : Int) (B : Int)
      = some ((ProcessManager.num_blocks_per_dim N B : Nat) : Int) := by
  unfold num_blocks_per_dim ProcessManager.num_blocks_per_dim
  have e2 : Utils.wrap32 (((N + B : Nat) : Int) - 1) = ((N + B - 1 : Nat) : Int) := by
    rw [Utils.wrap32_id _ (by omega) (by omega)]
    omega
  rw [add_nat N B hNB, e2, idiv_nat _ _ hB]

theorem get_total_blocks_nat (N B : Nat) (hB : 1 ≤ B) (hNB : N + B < 2 ^ 31)
    (hsq : ProcessManager.num_blocks_per_dim N B * ProcessManager.num_blocks_per_dim N B
      < 2 ^ 31) :
    get_total_blocks (N : Int) (B : Int)
      = some ((ProcessManager.get_total_blocks N B : Nat) : Int) := by
  unfold get_total_blocks
  rw [num_blocks_nat N B hB hNB, Option.map_some', mul_nat _ _ hsq]
  rfl

theorem tdiv_small (x B : Int) (hB : 0 < B) (h1 : -(2 * B) < x) (h2 : x < 2 * B) :
    Int.tdiv x B = -1 ∨ Int.tdiv x B = 0 ∨ Int.tdiv x B = 1 := by
  rcases Int.le_total 0 x with hx | hx
  · rw [Int.tdiv_eq_ediv hx (by omega)]
    have hq1 : x / B < 2 := Int.ediv_lt_of_lt_mul hB h2
    have hq0 : 0 ≤ x / B := Int.ediv_nonneg hx (by omega)
    omega
  · have hx2 : x = -(-x) := by omega
    rw [hx2, Int.neg_tdiv, Int.tdiv_eq_ediv (by omega) (by omega)]
    have hq1 : (-x) / B < 2 := Int.ediv_lt_of_lt_mul hB (by omega)
    have hq0 : 0 ≤ (-x) / B := Int.ediv_nonneg (by omega) (by omega)
    omega

theorem wrap32_range (x : Int) : -2 ^ 31 ≤ Utils.wrap32 x ∧ Utils.wrap32 x < 2 ^ 31 := by
  unfold Utils.wrap32
  omega

/-- What the block count on 32-bit integers is, for sizes whose cell count fits an `int`:
a number `T` of blocks that is at most the exact count and equal to it when `N + B` fits,
together with a divisor `v` by which the decoding of every block below `T` agrees with the
exact decoding. -/
theorem blocks_machine (N B : Nat) (hB : 1 ≤ B) (hB31 : B < 2 ^ 31) (hNN : N * N < 2 ^ 31) :
    ∃ (v : Int) (T : Nat),
      num_blocks_per_dim (N : Int) (B : Int) = some v ∧
      get_total_blocks (N : Int) (B : Int) = some (T : Int) ∧
      T ≤ ProcessManager.get_total_blocks N B ∧
      ProcessManager.num_blocks_per_dim N B * B < 2 ^ 31 ∧
      (N + B < 2 ^ 31 → T = ProcessManager.get_total_blocks N B) ∧
      ∀ t : Nat, t < T →
        idiv (t : Int) v = some ((t / ProcessManager.num_blocks_per_dim N B : Nat) : Int) ∧
        imod (t : Int) v = some ((t % ProcessManager.num_blocks_per_dim N B : Nat) : Int) := by
  obtain ⟨hnb, hmul, hge⟩ := Loop.blocks_bound N B hB
  have hnb1 : ProcessManager.num_blocks_per_dim N B ≤ N := hnb
  have hsq : ProcessManager.num_blocks_per_dim N B * ProcessManager.num_blocks_per_dim N B
      ≤ N * N := Nat.mul_le_mul hnb1 hnb1
  have hN : N < 46341 := by
    by_contra hc
    have := Nat.mul_le_mul (show 46341 ≤ N by omega) (show 46341 ≤ N by omega)
    omega
  by_cases hNB : N + B < 2 ^ 31
  · refine ⟨_, ProcessManager.get_total_blocks N B, num_blocks_nat N B hB hNB,
      get_total_blocks_nat N B hB hNB (by omega), le_refl _, ?_, fun _ => rfl, ?_⟩
    · rcases Nat.eq_zero_or_pos (ProcessManager.num_blocks_per_dim N B) with h0 | h0
      · rw [h0]; omega
      · have hmul1 : ∀ m, m < ProcessManager.num_blocks_per_dim N B → m * B < N := hmul
        have := hmul1 (ProcessManager.num_blocks_per_dim N B - 1) (by omega)
        have h2 : ProcessManager.num_blocks_per_dim N B * B
            = (ProcessManager.num_blocks_per_dim N B - 1) * B + B := by
          conv_lhs => rw [show ProcessManager.num_blocks_per_dim N B
            = (ProcessManager.num_blocks_per_dim N B - 1) + 1 by omega]
          rw [Nat.add_mul, Nat.one_mul]
        omega
    · intro t ht
      have ht1 : t < ProcessManager.num_blocks_per_dim N B
          * ProcessManager.num_blocks_per_dim N B := ht
      have hpos : 0 < ProcessManager.num_blocks_per_dim N B := by
        rcases Nat.eq_zero_or_pos (ProcessManager.num_blocks_per_dim N B) with h0 | h0
        · rw [h0] at ht1; omega
        · exact h0
      exact ⟨idiv_nat _ _ hpos, imod_nat _ _ hpos⟩
  · have hone : ProcessManager.num_blocks_per_dim N B = 1 := by
      unfold ProcessManager.num_blocks_per_dim
      exact Nat.div_eq_of_lt_le (by omega) (by omega)
    obtain ⟨hr1, hr2⟩ := wrap32_range (Utils.wrap32 ((N : Int) + (B : Int)) - 1)
    have hv := tdiv_small (Utils.wrap32 (Utils.wrap32 ((N : Int) + (B : Int)) - 1)) (B : Int)
      (by omega) (by omega) (by omega)
    have hnum : num_blocks_per_dim (N : Int) (B : Int)
        = some (Int.tdiv (Utils.wrap32 (Utils.wrap32 ((N : Int) + (B : Int)) - 1)) (B : Int)) := by
      unfold num_blocks_per_dim idiv
      rw [if_neg (by omega)]
    generalize Int.tdiv (Utils.wrap32 (Utils.wrap32 ((N : Int) + (B : Int)) - 1)) (B : Int) = v
      at hv hnum
    have htot : get_total_blocks (N : Int) (B : Int) = some (((v * v).toNat : Nat) : Int) := by
      unfold get_total_blocks
      rw [hnum, Option.map_some']
      rcases hv with h | h | h <;> subst h <;> decide
    refine ⟨v, (v * v).toNat, hnum, htot, ?_, by rw [hone]; omega, fun h => absurd h hNB, ?_⟩
    · show _ ≤ ProcessManager.num_blocks_per_dim N B * ProcessManager.num_blocks_per_dim N B
      rw [hone]
      rcases hv with h | h | h <;> subst h <;> decide
    · intro t ht
      rw [hone]
      rcases hv with h | h | h <;> subst h
      · have ht0 : t = 0 := by
          have : ((-1 : Int) * -1).toNat = 1 := by decide
          omega
        subst ht0
        exact ⟨by decide, by decide⟩
      · have : ((0 : Int) * 0).toNat = 0 := by decide
        omega
      · have ht0 : t = 0 := by
          have : ((1 : Int) * 1).toNat = 1 := by decide
          omega
        subst ht0
        exact ⟨by decide, by decide⟩

end ProcessManager.Machine

namespace ProcessManager.Machine

/-- The kernel on 32-bit integers, on buffers of `N * N` elements, while the cell count
fits an `int`, the k-loop counter does not wrap, and the decoding of the blocks of the
range agrees with the exact one: the kernel neither traps nor leaves a buffer, and returns
the fold over the blocks that the exact kernel returns. -/
theorem worker_process_decoded {α : Type} [Add α] [Mul α] [Zero α] (N B : Nat) (hB : 1 ≤ B)
    (hNN : N * N < 2 ^ 31)
    (hfin : ProcessManager.num_blocks_per_dim N B * B < 2 ^ 31) (v : Int)
    (hv : num_blocks_per_dim (N : Int) (B : Int) = some v)
    (A Bm : Nat → α) (s e : Nat)
    (he : e ≤ ProcessManager.get_total_blocks N B)
    (hdec : ∀ t : Nat, t < e →
      idiv (t : Int) v = some ((t / ProcessManager.num_blocks_per_dim N B : Nat) : Int) ∧
      imod (t : Int) v = some ((t % ProcessManager.num_blocks_per_dim N B : Nat) : Int))
    (C : Nat → α) :
    worker_process (N : Int) (B : Int) (N * N) (N * N) (N * N) A Bm (s : Int) (e : Int) C
      = Loop.Run.done
          ((range_blocks (s, e)).foldl (fun acc t => tile_step N B A Bm t acc) C) := by
  obtain ⟨hnb, hmul, _⟩ := Loop.blocks_bound N B hB
  have hnb1 : ProcessManager.num_blocks_per_dim N B ≤ N := hnb
  have hmul1 : ∀ m, m < ProcessManager.num_blocks_per_dim N B → m * B < N := hmul
  have hsq : ProcessManager.num_blocks_per_dim N B * ProcessManager.num_blocks_per_dim N B
      ≤ N * N := Nat.mul_le_mul hnb1 hnb1
  have he1 : e ≤ ProcessManager.num_blocks_per_dim N B * ProcessManager.num_blocks_per_dim N B :=
    he
  have hstep : ∀ m, m < ProcessManager.num_blocks_per_dim N B → m * B + B < 2 ^ 31 := by
    intro m hm
    have := Nat.mul_le_mul_right B (show m + 1 ≤ ProcessManager.num_blocks_per_dim N B from hm)
    rw [Nat.add_mul] at this
    omega
  unfold worker_process range_blocks
  rw [hv, Loop.Run.ofOption_some]
  refine Loop.forInt_unit s e (by omega) _ (fun t acc => tile_step N B A Bm t acc) ?_ C
  intro t ht acc
  have ht1 : t < ProcessManager.num_blocks_per_dim N B * ProcessManager.num_blocks_per_dim N B := by
    omega
  have hpos : 0 < ProcessManager.num_blocks_per_dim N B := by
    rcases Nat.eq_zero_or_pos (ProcessManager.num_blocks_per_dim N B) with h0 | h0
    · rw [h0] at ht1; omega
    · exact h0
  have hbi : t / ProcessManager.num_blocks_per_dim N B < ProcessManager.num_blocks_per_dim N B :=
    Nat.div_lt_of_lt_mul ht1
  have hbj : t % ProcessManager.num_blocks_per_dim N B < ProcessManager.num_blocks_per_dim N B :=
    Nat.mod_lt _ hpos
  have hbi1 := hmul1 _ hbi
  have hbj1 := hmul1 _ hbj
  have hbi2 := hstep _ hbi
  have hbj2 := hstep _ hbj
  rw [(hdec t ht).1, Loop.Run.ofOption_some, (hdec t ht).2, Loop.Run.ofOption_some]
  simp only []
  rw [mul_nat _ B (by omega), mul_nat _ B (by omega)]
  refine Loop.forInt_blocks N B hB hfin _ (fun k acc1 => block_step N B A Bm t k acc1)
    ?_ acc
  intro k hk hk1 acc1
  rw [add_nat _ B (by omega), add_nat _ B (by omega), add_nat k B (by omega),
    ← Nat.cast_min, ← Nat.cast_min, ← Nat.cast_min]
  unfold block_step block_coords
  simp only []
  refine Loop.forInt_unit _ _ (by omega) _ _ ?_ acc1
  intro i hi C2
  refine Loop.forInt_unit _ _ (by omega) _ _ ?_ C2
  intro j hj C3
  have hiN : i < N := by omega
  have hjN : j < N := by omega
  rw [Loop.forInt_unit k (min (k + B) N) (by omega) _
    (fun kk sum => sum + A (i * N + kk) * Bm (kk * N + j))
    (fun kk hkk sum => by
      have hkN : kk < N := by omega
      rw [flat_index_nat N i kk hiN hkN hNN, flat_index_nat N kk j hkN hjN hNN,
        load_nat _ _ _ (flat_index_lt N i kk hiN hkN), Loop.Run.ofOption_some,
        load_nat _ _ _ (flat_index_lt N kk j hkN hjN), Loop.Run.ofOption_some])]
  rw [Loop.Run.sub_done, flat_index_nat N i j hiN hjN hNN,
    load_nat _ _ _ (flat_index_lt N i j hiN hjN), Loop.Run.ofOption_some,
    store_nat _ _ _ _ (flat_index_lt N i j hiN hjN), Loop.Run.ofOption_some]
  rfl

/-- The kernel on 32-bit integers over a block range within the block count the code
computes, for sizes whose cell count fits an `int`: it completes with what the exact kernel
returns. -/
theorem worker_process_machine {α : Type} [Add α] [Mul α] [Zero α] (N B : Nat) (hB : 1 ≤ B)
    (hB31 : B < 2 ^ 31) (hNN : N * N < 2 ^ 31) (T : Int)
    (hT : get_total_blocks (N : Int) (B : Int) = some T) (A Bm : Nat → α) (s e : Nat)
    (he : (e : Int) ≤ T) (C : Nat → α) :
    worker_process (N : Int) (B : Int) (N * N) (N * N) (N * N) A Bm (s : Int) (e : Int) C
        = Loop.Run.done
            ((range_blocks (s, e)).foldl (fun acc t => tile_step N B A Bm t acc) C) ∧
      ProcessManager.worker_process N B A Bm s e C
        = some ((range_blocks (s, e)).foldl (fun acc t => tile_step N B A Bm t acc) C) ∧
      e ≤ ProcessManager.get_total_blocks N B := by
  obtain ⟨v, T1, hv, hT1, hle, hfin, _, hdec⟩ := blocks_machine N B hB hB31 hNN
  rw [hT1] at hT
  have hTT : (T1 : Int) = T := Option.some.inj hT
  have he1 : e ≤ T1 := by omega
  exact ⟨worker_process_decoded N B hB hNN hfin v hv A Bm s e (by omega)
    (fun t ht => hdec t (by omega)) C,
    ProcessManager.worker_process_eq N B hB A Bm s e C, by omega⟩

/-- The kernel on 32-bit integers when neither `N + B` nor `N * N` overflows: over a range
within the blocks it completes with the fold over the blocks of the range. -/
theorem worker_process_nat {α : Type} [Add α] [Mul α] [Zero α] (N B : Nat) (hB : 1 ≤ B)
    (hNN : N * N < 2 ^ 31) (hNB : N + B < 2 ^ 31) (A Bm : Nat → α) (s e : Nat)
    (he : e ≤ ProcessManager.get_total_blocks N B) (C : Nat → α) :
    worker_process (N : Int) (B : Int) (N * N) (N * N) (N * N) A Bm (s : Int) (e : Int) C
      = Loop.Run.done
          ((range_blocks (s, e)).foldl (fun acc t => tile_step N B A Bm t acc) C) := by
  obtain ⟨hnb, _, _⟩ := Loop.blocks_bound N B hB
  have hnb1 : ProcessManager.num_blocks_per_dim N B ≤ N := hnb
  have hsq : ProcessManager.num_blocks_per_dim N B * ProcessManager.num_blocks_per_dim N B
      ≤ N * N := Nat.mul_le_mul hnb1 hnb1
  have hTN : ProcessManager.get_total_blocks N B < 2 ^ 31 := by
    show ProcessManager.num_blocks_per_dim N B * ProcessManager.num_blocks_per_dim N B < _
    omega
  exact (worker_process_machine N B hB (by omega) hNN _
    (get_total_blocks_nat N B hB hNB hTN) A Bm s e (by exact_mod_cast he) C).1

end ProcessManager.Machine

namespace ProcessManager.Machine

/-- The loop of `calculate_block_distribution` on 32-bit integers, while the block count
fits an `int`: no sum wraps, and the ranges are those of the exact distribution. -/
theorem distribution_loop_int (T P : Nat) (hP : 1 ≤ P) (hT31 : T < 2 ^ 31) :
    ∀ n, n ≤ P →
      (List.range' 0 n).foldl
        (fun (acc : Int × List (Int × Int)) (p : Nat) =>
          (Utils.wrap32 (acc.1 + Utils.wrap32 (((T / P : Nat) : Int)
              + (if (p : Int) < ((T % P : Nat) : Int) then 1 else 0))),
            acc.2 ++ [(acc.1, Utils.wrap32 (acc.1 + Utils.wrap32 (((T / P : Nat) : Int)
              + (if (p : Int) < ((T % P : Nat) : Int) then 1 else 0))))]))
        (0, [])
      = (((range_start T P n : Nat) : Int),
          (List.range n).map (fun p =>
            (((range_start T P p : Nat) : Int), ((range_start T P (p + 1) : Nat) : Int)))) := by
  intro n
  induction n with
  | zero =>
    intro _
    simp [range_start_zero]
  | succ n ih =>
    intro hn
    rw [← List.range_eq_range'] at ih ⊢
    rw [List.range_succ, List.foldl_append, ih (by omega)]
    have hle : range_start T P (n + 1) ≤ T := by
      have := range_start_mono T P (show n + 1 ≤ P from hn)
      rw [range_start_last T P hP] at this
      exact this
    have hsucc := range_start_succ T P n
    obtain ⟨c, hc⟩ : ∃ c : Nat, c = T / P + (if n < T % P then 1 else 0) := ⟨_, rfl⟩
    rw [← hc] at hsucc
    have hcount : ((T / P : Nat) : Int) + (if (n : Int) < ((T % P : Nat) : Int) then 1 else 0)
        = (c : Int) := by
      rw [hc]
      by_cases h : n < T % P
      · rw [if_pos h, if_pos (by exact_mod_cast h)]
        push_cast
        rfl
      · rw [if_neg h, if_neg (by exact_mod_cast h)]
        push_cast
        rfl
    have hstep : Utils.wrap32 (((range_start T P n : Nat) : Int)
        + Utils.wrap32 (((T / P : Nat) : Int)
          + (if (n : Int) < ((T % P : Nat) : Int) then 1 else 0)))
        = ((range_start T P (n + 1) : Nat) : Int) := by
      rw [hcount, Utils.wrap32_id (c : Int) (by omega) (by omega), ← Nat.cast_add, ← hsucc,
        Utils.wrap32_id _ (by omega) (by omega)]
    simp only [List.foldl_cons, List.foldl_nil, hstep, List.map_append, List.map_cons,
      List.map_nil]

/-- The distribution computed on 32-bit integers, for a block count `T` and a worker count
that fit an `int`: the ranges of the exact distribution of `T` blocks. -/
theorem calculate_block_distribution_nat (N B P T : Nat)
    (hT : get_total_blocks (N : Int) (B : Int) = some (T : Int)) (hT31 : T < 2 ^ 31)
    (hP : 1 ≤ P) (hP31 : P < 2 ^ 31) :
    calculate_block_distribution (N : Int) (B : Int) (P : Int)
      = some ((block_distribution T P).map
          (fun r : Nat × Nat => ((r.1 : Int), (r.2 : Int)))) := by
  unfold calculate_block_distribution
  rw [hT, Option.some_bind, idiv_nat T P hP, Option.some_bind, imod_nat T P hP,
    Option.some_bind]
  rw [Loop.forInt_unit_zero P hP31 _
    (fun (p : Nat) (acc : Int × List (Int × Int)) =>
      (Utils.wrap32 (acc.1 + Utils.wrap32 (((T / P : Nat) : Int)
          + (if (p : Int) < ((T % P : Nat) : Int) then 1 else 0))),
        acc.2 ++ [(acc.1, Utils.wrap32 (acc.1 + Utils.wrap32 (((T / P : Nat) : Int)
          + (if (p : Int) < ((T % P : Nat) : Int) then 1 else 0))))]))
    (fun x _ s => rfl)]
  unfold Loop.forRange
  rw [Nat.sub_zero, distribution_loop_int T P hP hT31 P (le_refl _), block_distribution_eq,
    List.map_map]
  rfl

theorem block_distribution_le (T P : Nat) (hP : 1 ≤ P) (r : Nat × Nat)
    (hr : r ∈ block_distribution T P) : r.1 ≤ r.2 ∧ r.2 ≤ T := by
  obtain ⟨p, hp, rfl⟩ := (mem_block_distribution T P r).1 hr
  have := range_start_mono T P (show p + 1 ≤ P from hp)
  rw [range_start_last T P hP] at this
  exact ⟨range_start_le_succ T P p, this⟩

theorem getD_ranges (l : List (Nat × Nat)) (p : Nat) :
    (l.map (fun r : Nat × Nat => ((r.1 : Int), (r.2 : Int)))).getD p (0, 0)
      = (((l.getD p (0, 0)).1 : Int), ((l.getD p (0, 0)).2 : Int)) := by
  rw [List.getD_eq_getElem?_getD, List.getD_eq_getElem?_getD, List.getElem?_map]
  cases l[p]? <;> rfl

/-- The workers run one after another on 32-bit integers over ranges within the blocks,
when neither `N + B` nor `N * N` overflows: they complete with what the exact workers
return. -/
theorem run_workers_nat {α : Type} [Add α] [Mul α] [Zero α] (N B : Nat) (hB : 1 ≤ B)
    (hNN : N * N < 2 ^ 31) (hNB : N + B < 2 ^ 31) (A Bm : Nat → α)
    (l : List (Nat × Nat)) (hl : ∀ r ∈ l, r.2 ≤ ProcessManager.get_total_blocks N B)
    (C : Nat → α) :
    run_workers (N : Int) (B : Int) (N * N) A Bm
        (l.map (fun r : Nat × Nat => ((r.1 : Int), (r.2 : Int)))) C
      = Loop.Run.done
          ((l.flatMap range_blocks).foldl (fun acc t => tile_step N B A Bm t acc) C) := by
  induction l generalizing C with
  | nil => rfl
  | cons r rest ih =>
    rw [List.map_cons, run_workers,
      worker_process_nat N B hB hNN hNB A Bm r.1 r.2 (hl r (List.mem_cons_self _ _)),
      Loop.Run.bind_done, ih (fun q hq => hl q (List.mem_cons_of_mem _ hq)),
      List.flatMap_cons, List.foldl_append]

/-- A list of `int` ranges that is a permutation of the casts of a list of ranges is the
cast of a permutation of that list. -/
theorem perm_ranges (l : List (Nat × Nat)) (order : List (Int × Int))
    (h : order.Perm (l.map (fun r : Nat × Nat => ((r.1 : Int), (r.2 : Int))))) :
    ∃ l1 : List (Nat × Nat), l1.Perm l ∧
      order = l1.map (fun r : Nat × Nat => ((r.1 : Int), (r.2 : Int))) := by
  refine ⟨order.map (fun r : Int × Int => (r.1.toNat, r.2.toNat)), ?_, ?_⟩
  · have h1 := h.map (fun r : Int × Int => (r.1.toNat, r.2.toNat))
    rw [List.map_map] at h1
    have h2 : l.map ((fun r : Int × Int => (r.1.toNat, r.2.toNat))
        ∘ (fun r : Nat × Nat => ((r.1 : Int), (r.2 : Int)))) = l := by
      conv_rhs => rw [← List.map_id l]
      apply List.map_congr_left
      intro r _
      simp
    rw [h2] at h1
    exact h1
  · rw [List.map_map]
    conv_lhs => rw [← List.map_id order]
    apply List.map_congr_left
    intro r hr
    obtain ⟨q, _, rfl⟩ := List.mem_map.1 (h.mem_iff.1 hr)
    simp

/-- All workers run on 32-bit integers, in any order, when neither `N + B` nor `N * N`
overflows and the worker count is an `int`: the distribution is the exact one, and the
workers leave the product in the C buffer. -/
theorem run_workers_product_machine {α : Type} [Semiring α] (N B P : Nat) (hB : 1 ≤ B)
    (hP : 1 ≤ P) (hNN : N * N < 2 ^ 31) (hNB : N + B < 2 ^ 31) (hP31 : P < 2 ^ 31)
    (A Bm : Nat → α) :
    calculate_block_distribution (N : Int) (B : Int) (P : Int)
        = some ((ProcessManager.calculate_block_distribution N B P).map
            (fun r : Nat × Nat => ((r.1 : Int), (r.2 : Int)))) ∧
      ∀ order : List (Int × Int),
        order.Perm ((ProcessManager.calculate_block_distribution N B P).map
            (fun r : Nat × Nat => ((r.1 : Int), (r.2 : Int)))) →
        ∃ C, run_workers (N : Int) (B : Int) (N * N) A Bm order (fun _ => 0)
            = Loop.Run.done C ∧
          ∀ i j, i < N → j < N →
            C (i * N + j) = ∑ k in Finset.range N, A (i * N + k) * Bm (k * N + j) := by
  obtain ⟨hnb, _, _⟩ := Loop.blocks_bound N B hB
  have hnb1 : ProcessManager.num_blocks_per_dim N B ≤ N := hnb
  have hsq : ProcessManager.num_blocks_per_dim N B * ProcessManager.num_blocks_per_dim N B
      ≤ N * N := Nat.mul_le_mul hnb1 hnb1
  have hTN : ProcessManager.get_total_blocks N B < 2 ^ 31 := by
    show ProcessManager.num_blocks_per_dim N B * ProcessManager.num_blocks_per_dim N B < _
    omega
  refine ⟨calculate_block_distribution_nat N B P _ (get_total_blocks_nat N B hB hNB hTN) hTN
    hP hP31, ?_⟩
  intro order horder
  obtain ⟨l1, hperm, rfl⟩ := perm_ranges _ order horder
  obtain ⟨C, hC, hprod⟩ := run_workers_product N B P hB hP A Bm l1 hperm
  rw [run_workers_eq N B hB] at hC
  refine ⟨C, ?_, hprod⟩
  rw [run_workers_nat N B hB hNN hNB A Bm l1
    (fun r hr => (block_distribution_le _ P hP r (hperm.mem_iff.1 hr)).2), Option.some.inj hC]

theorem elements_make_segment (name : String) (n : Nat) (o : SharedMemory.Outcome)
    (old : Option SharedMemory.State) (w : SharedMemory.World)
    (hv : SharedMemory.is_valid (make_segment name (n * sizeof_double) o old w).1 = true) :
    elements (some (make_segment name (n * sizeof_double) o old w).1) = n := by
  obtain ⟨_, _, hp, _⟩ := make_segment_cases name (n * sizeof_double) o old w
  obtain ⟨a, ha⟩ := hp hv
  have hsize : (make_segment name (n * sizeof_double) o old w).1.size = n * sizeof_double := by
    rw [make_segment_state]
    exact (SharedMemory.constructor_fields name _ true o w).2.1
  unfold elements
  simp only [ha, Option.isSome_some, if_true, hsize]
  exact Nat.mul_div_cancel n (by decide)

/-- After a `setup_shared_memory` that leaves the three segments valid, each pointer has
`N * N` doubles behind it. -/
theorem elements_setup {α : Type} [Zero α] (N : Nat) (env : Env)
    (matrixA matrixB : Nat → Nat → α) (sys : System α)
    (hA : (setup_shared_memory N env matrixA matrixB sys).shm_A.map SharedMemory.is_valid
      = some true)
    (hB : (setup_shared_memory N env matrixA matrixB sys).shm_B.map SharedMemory.is_valid
      = some true)
    (hC : (setup_shared_memory N env matrixA matrixB sys).shm_C.map SharedMemory.is_valid
      = some true) :
    elements (setup_shared_memory N env matrixA matrixB sys).shm_A = N * N ∧
    elements (setup_shared_memory N env matrixA matrixB sys).shm_B = N * N ∧
    elements (setup_shared_memory N env matrixA matrixB sys).shm_C = N * N := by
  obtain ⟨h1, h2, h3, _⟩ := setup_shm N env matrixA matrixB sys
  rw [h1] at hA ⊢
  rw [h2] at hB ⊢
  rw [h3] at hC ⊢
  simp only [Option.map_some', Option.some.injEq] at hA hB hC
  exact ⟨elements_make_segment _ _ _ _ _ hA, elements_make_segment _ _ _ _ _ hB,
    elements_make_segment _ _ _ _ _ hC⟩

/-- The cell `(i, j)` of the C segment after the workers created have run over the ranges
of a distribution of `T` blocks, when its block belongs to the range of worker `p0`: one
pass of the kernel if the child of `p0` was created, and untouched otherwise. -/
theorem children_cell {α : Type} [Add α] [Mul α] [Zero α] (N B P T : Nat) (hB : 1 ≤ B)
    (env : Env) (mem_A mem_B : Nat → α)
    (p0 i j : Nat) (hp0 : p0 < P) (hi : i < N) (hj : j < N)
    (hown : range_start T P p0 ≤ block_of N B i j ∧
      block_of N B i j < range_start T P (p0 + 1))
    (d : (Nat → α) × List Int) :
    ((List.range' 0 P).foldl (fun (acc : (Nat → α) × List Int) (p : Nat) =>
        if env.fork_ok p = true then
          ((range_blocks ((block_distribution T P).getD p (0, 0))).foldl
            (fun C t => tile_step N B mem_A mem_B t C) acc.1, acc.2 ++ [(p : Int)])
        else acc) d).1 (i * N + j)
      = if env.fork_ok p0 = true then cell_fold N B mem_A mem_B i j (d.1 (i * N + j))
        else d.1 (i * N + j) := by
  rw [Loop.foldl_observe (fun x : (Nat → α) × List Int => x.1 (i * N + j))
    (fun (p : Nat) (acc : (Nat → α) × List Int) =>
      if env.fork_ok p = true then
        ((range_blocks ((block_distribution T P).getD p (0, 0))).foldl
          (fun C t => tile_step N B mem_A mem_B t C) acc.1, acc.2 ++ [(p : Int)])
      else acc)
    (fun p v => if p = p0 ∧ env.fork_ok p0 = true then cell_fold N B mem_A mem_B i j v else v)
    _ (fun p hp s => by
      have hpP : p < P := by
        have := List.mem_range'_1.1 hp
        omega
      show (if env.fork_ok p = true then
          ((range_blocks ((block_distribution T P).getD p (0, 0))).foldl
            (fun C t => tile_step N B mem_A mem_B t C) s.1, s.2 ++ [(p : Int)])
        else s).1 (i * N + j)
        = if p = p0 ∧ env.fork_ok p0 = true then cell_fold N B mem_A mem_B i j (s.1 (i * N + j))
          else s.1 (i * N + j)
      by_cases hf : env.fork_ok p = true
      · rw [if_pos hf]
        show (range_blocks ((block_distribution T P).getD p (0, 0))).foldl
            (fun C t => tile_step N B mem_A mem_B t C) s.1 (i * N + j) = _
        rw [distribution_getD _ P p hpP,
          tiles_apply N B hB mem_A mem_B _ (range_blocks_nodup _) _ i j hj]
        by_cases hpp : p = p0
        · subst hpp
          have h1 : block_of N B i j ∈ range_blocks (range_start T P p,
              range_start T P (p + 1)) ∧ i < N := by
            refine ⟨?_, hi⟩
            unfold range_blocks
            rw [List.mem_range'_1]
            simp only []
            omega
          have h2 : p = p ∧ env.fork_ok p = true := ⟨rfl, hf⟩
          rw [if_pos h1, if_pos h2]
        · have h1 : ¬ (block_of N B i j ∈ range_blocks
              (range_start T P p, range_start T P (p + 1)) ∧ i < N) := by
            rintro ⟨hmem, _⟩
            unfold range_blocks at hmem
            rw [List.mem_range'_1] at hmem
            simp only [] at hmem
            exact hpp (range_owner_unique _ P p p0 _ ⟨hmem.1, by omega⟩ hown)
          have h2 : ¬ (p = p0 ∧ env.fork_ok p0 = true) := fun h => hpp h.1
          rw [if_neg h1, if_neg h2]
      · rw [if_neg hf]
        by_cases hpp : p = p0
        · subst hpp
          rw [if_neg (fun h => hf h.2)]
        · rw [if_neg (fun h => hpp h.1)])]
  have hmem : p0 ∈ List.range' 0 P := by
    rw [List.mem_range'_1]
    omega
  rw [Loop.foldl_hit _ (cell_fold N B mem_A mem_B i j) _ p0 (env.fork_ok p0 = true)
    (List.nodup_range' _ _) (fun _ _ _ => rfl)]
  by_cases hf : env.fork_ok p0 = true
  · rw [if_pos ⟨hmem, hf⟩, if_pos hf]
  · rw [if_neg (fun h => hf h.2), if_neg hf]

/-- The dispatch on 32-bit integers from a state with three segments of `N * N` doubles,
when `N * N` does not overflow and the block size and the worker count are `int`s: it
returns, and a cell of the result is the cell of the C segment after the children created
have run over the ranges of the exact distribution of the `T` blocks that
`get_total_blocks` counts. -/
theorem dispatch_run {α : Type} [Add α] [Mul α] [Zero α] (N B P T : Nat) (hB : 1 ≤ B)
    (hB31 : B < 2 ^ 31) (hP : 1 ≤ P) (hNN : N * N < 2 ^ 31) (hP31 : P < 2 ^ 31)
    (hT : get_total_blocks (N : Int) (B : Int) = some (T : Int)) (hT31 : T < 2 ^ 31)
    (env : Env) (matrixC : Nat → Nat → α) (sys : System α)
    (hA : elements sys.shm_A = N * N) (hBs : elements sys.shm_B = N * N)
    (hCs : elements sys.shm_C = N * N)
    (hC : sys.shm_C.map SharedMemory.is_valid = some true) :
    ∃ r, dispatch N B P env matrixC sys = some r ∧
      ∀ i j, i < N → j < N →
        r i j = ((List.range' 0 P).foldl (fun (acc : (Nat → α) × List Int) (p : Nat) =>
          if env.fork_ok p = true then
            ((range_blocks ((block_distribution T P).getD p (0, 0))).foldl
              (fun C t => tile_step N B sys.mem_A sys.mem_B t C) acc.1, acc.2 ++ [(p : Int)])
          else acc) (sys.mem_C, [])).1 (i * N + j) := by
  unfold dispatch
  rw [calculate_block_distribution_nat N B P T hT hT31 hP hP31, Option.some_bind, hA, hBs,
    hCs]
  rw [Loop.forInt_unit_zero P hP31 _
    (fun (p : Nat) (acc : (Nat → α) × List Int) =>
      if env.fork_ok p = true then
        ((range_blocks ((block_distribution T P).getD p (0, 0))).foldl
          (fun C t => tile_step N B sys.mem_A sys.mem_B t C) acc.1, acc.2 ++ [(p : Int)])
      else acc)
    (fun p hp acc => by
      have hle : ((block_distribution T P).getD p (0, 0)).2 ≤ T := by
        rw [distribution_getD _ P p hp]
        have := range_start_mono T P (show p + 1 ≤ P from hp)
        rw [range_start_last _ P hP] at this
        exact this
      simp only [Int.toNat_ofNat, getD_ranges]
      by_cases hf : env.fork_ok p = true
      · rw [if_pos hf, if_pos hf, (worker_process_machine N B hB hB31 hNN _ hT _ _ _ _
          (by exact_mod_cast hle) _).1]
      · rw [if_neg hf, if_neg hf])]
  refine ⟨_, rfl, ?_⟩
  intro i j hi hj
  show (copy_result_from_shared N matrixC { sys with mem_C := _ }).2 i j = _
  refine (copy_result_apply N matrixC _ ?_ i j hi hj).1
  exact hC

end ProcessManager.Machine

/-! # The claims -/

set_option linter.unusedVariables false

/-- C1. For every total block count `T` and every worker count `P ≥ 1`, the distribution
gives worker `p` a range `[s, e)` with `s ≤ e`, the first range starts at `0`, each range ends
where the next one starts, the last range ends at `T`; the ranges are pairwise disjoint and
their union is exactly `[0, T)`. -/
theorem partition_coverage (T P : Nat) (hP : 1 ≤ P) :
    (∀ p, p < P → ∃ s e, (ProcessManager.block_distribution T P)[p]? = some (s, e) ∧ s ≤ e ∧
        (p = 0 → s = 0) ∧ (p + 1 = P → e = T) ∧
        (p + 1 < P → ∃ e2, (ProcessManager.block_distribution T P)[p + 1]? = some (e, e2))) ∧
    (ProcessManager.block_distribution T P).Pairwise
      (fun r q => ∀ t, ¬ ((r.1 ≤ t ∧ t < r.2) ∧ (q.1 ≤ t ∧ t < q.2))) ∧
    (∀ t, t < T ↔ ∃ r ∈ ProcessManager.block_distribution T P, r.1 ≤ t ∧ t < r.2) := by
  refine ⟨?_, ?_, ?_⟩
  · intro p hp
    refine ⟨_, _, ProcessManager.block_distribution_getElem? T P p hp,
      ProcessManager.range_start_le_succ T P p, ?_, ?_, ?_⟩
    · rintro rfl; exact ProcessManager.range_start_zero T P
    · intro h; rw [h]; exact ProcessManager.range_start_last T P hP
    · intro h; exact ⟨_, ProcessManager.block_distribution_getElem? T P (p + 1) h⟩
  · refine (ProcessManager.block_distribution_ordered T P).imp ?_
    intro r q h t ht
    omega
  · intro t
    constructor
    · intro ht
      rw [← ProcessManager.range_start_last T P hP] at ht
      obtain ⟨p, hp, h1, h2⟩ := ProcessManager.range_start_cover T P t P ht
      exact ⟨_, (ProcessManager.mem_block_distribution T P _).2 ⟨p, hp, rfl⟩, h1, h2⟩
    · rintro ⟨r, hr, h1, h2⟩
      obtain ⟨p, hp, rfl⟩ := (ProcessManager.mem_block_distribution T P r).1 hr
      have := ProcessManager.range_start_mono T P (show p + 1 ≤ P by omega)
      rw [ProcessManager.range_start_last T P hP] at this
      simp only at h2
      omega

theorem partition_coverage_witness :
    (∀ p, p < 4 → ∃ s e, (ProcessManager.block_distribution 10 4)[p]? = some (s, e) ∧ s ≤ e ∧
        (p = 0 → s = 0) ∧ (p + 1 = 4 → e = 10) ∧
        (p + 1 < 4 → ∃ e2, (ProcessManager.block_distribution 10 4)[p + 1]? = some (e, e2))) ∧
    (ProcessManager.block_distribution 10 4).Pairwise
      (fun r q => ∀ t, ¬ ((r.1 ≤ t ∧ t < r.2) ∧ (q.1 ≤ t ∧ t < q.2))) ∧
    (∀ t, t < 10 ↔ ∃ r ∈ ProcessManager.block_distribution 10 4, r.1 ≤ t ∧ t < r.2) :=
  partition_coverage 10 4 (by decide)

/-- C2 (as amended). For `N ≥ 1`, `B ≥ 1`, `P ≥ 1` with `N + B`, `N * N` and `P` below
`2^31`, and entries in a semiring: on 32-bit integers `calculate_block_distribution`
returns, and from the zeroed C buffer, running `worker_process` once for each range it
returned, the workers taken in any order, completes with
`C[i*N+j] = Σ_{k<N} A[i*N+k] * B[k*N+j]` for all `i, j < N`, whether or not `B` divides
`N`. -/
theorem parallel_product_any_order {α : Type} [Semiring α] (N B P : Nat)
    (hN : 1 ≤ N) (hB : 1 ≤ B) (hP : 1 ≤ P) (hNB : N + B < 2 ^ 31) (hNN : N * N < 2 ^ 31)
    (hP31 : P < 2 ^ 31) (shared_A shared_B : Nat → α) :
    ∃ distribution,
      ProcessManager.Machine.calculate_block_distribution (N : Int) (B : Int) (P : Int)
        = some distribution ∧
      ∀ order : List (Int × Int), order.Perm distribution →
        ∃ C, ProcessManager.Machine.run_workers (N : Int) (B : Int) (N * N) shared_A shared_B
            order (fun _ => 0) = Loop.Run.done C ∧
          ∀ i j, i < N → j < N →
            C (i * N + j)
              = ∑ k in Finset.range N, shared_A (i * N + k) * shared_B (k * N + j) :=
  ⟨_, ProcessManager.Machine.run_workers_product_machine N B P hB hP hNN hNB hP31 shared_A
    shared_B⟩

theorem parallel_product_any_order_witness :
    ∃ distribution,
      ProcessManager.Machine.calculate_block_distribution ((50 : Nat) : Int) ((16 : Nat) : Int)
        ((3 : Nat) : Int) = some distribution ∧
      ∀ order : List (Int × Int), order.Perm distribution →
        ∃ C, ProcessManager.Machine.run_workers ((50 : Nat) : Int) ((16 : Nat) : Int) (50 * 50)
            (fun idx => (idx : Int)) (fun idx => (idx : Int) + 1) order (fun _ => 0)
            = Loop.Run.done C ∧
          ∀ i j, i < 50 → j < 50 →
            C (i * 50 + j)
              = ∑ k in Finset.range 50,
                  ((i * 50 + k : Nat) : Int) * (((k * 50 + j : Nat) : Int) + 1) :=
  parallel_product_any_order 50 16 3 (by decide) (by decide) (by decide) (by decide)
    (by decide) (by decide) _ _

/-- C2 (as stated, refuted). For `N = 4` and `B = 2147483647` the sum `N + B` wraps, the
block count is 0 and the only range of one worker is `[0, 0)`: the worker run on it
completes and leaves `C[0] = 0`, where the product of two matrices of ones has 4. -/
theorem parallel_product_overflow :
    ProcessManager.Machine.calculate_block_distribution 4 2147483647 1 = some [(0, 0)] ∧
    (ProcessManager.Machine.run_workers 4 2147483647 (4 * 4) (fun _ => (1 : Int))
        (fun _ => (1 : Int)) [(0, 0)] (fun _ => 0)).result.map (fun C => C (0 * 4 + 0))
      = some 0 ∧
    (∑ k in Finset.range 4, (fun _ => (1 : Int)) (0 * 4 + k) * (fun _ => (1 : Int)) (k * 4 + 0))
      = 4 :=
  ⟨by decide, by decide, by decide⟩

/-- C3 (as amended). For `N ≥ 1` with `N * N < 2^31`, `1 ≤ B < 2^31`, and a block range
`[s, e)` within `[0, T)`, where `T` is what `get_total_blocks` returns on 32-bit integers,
with C zero on the cells of those blocks: `worker_process(s, e)` on three buffers of
`N * N` elements completes, and every cell `(i, j)` of a block `t` in `[s, e)` then holds
the complete sum `Σ_{k<N} A[i*N+k] * B[k*N+j]`. -/
theorem worker_completes_blocks {α : Type} [Semiring α] (N B T : Nat) (hN : 1 ≤ N)
    (hB : 1 ≤ B) (hB31 : B < 2 ^ 31) (hNN : N * N < 2 ^ 31)
    (hT : ProcessManager.Machine.get_total_blocks (N : Int) (B : Int) = some (T : Int))
    (shared_A shared_B shared_C : Nat → α) (s e : Nat) (hse : s ≤ e) (he : e ≤ T)
    (hzero : ∀ t i j, s ≤ t → t < e → ProcessManager.in_block N B t i j →
      shared_C (i * N + j) = 0) :
    ∃ C1, ProcessManager.Machine.worker_process (N : Int) (B : Int) (N * N) (N * N) (N * N)
        shared_A shared_B (s : Int) (e : Int) shared_C = Loop.Run.done C1 ∧
      ∀ t i j, s ≤ t → t < e → ProcessManager.in_block N B t i j →
        C1 (i * N + j) = ∑ k in Finset.range N, shared_A (i * N + k) * shared_B (k * N + j) := by
  refine ⟨_, (ProcessManager.Machine.worker_process_machine N B hB hB31 hNN _ hT shared_A
    shared_B s e (by exact_mod_cast he) shared_C).1, ?_⟩
  intro t i j hs ht hin
  have hj : j < N := by
    have := hin.2.2
    omega
  obtain ⟨rfl, hi⟩ := (ProcessManager.in_block_iff N B t i j hB hj).1 hin
  have hmem : ProcessManager.block_of N B i j ∈ ProcessManager.range_blocks (s, e) := by
    unfold ProcessManager.range_blocks
    rw [List.mem_range'_1]
    simp only []
    omega
  rw [ProcessManager.tiles_apply N B hB shared_A shared_B _
      (ProcessManager.range_blocks_nodup _) _ i j hj,
    if_pos ⟨hmem, hi⟩, ProcessManager.cell_fold_eq N B hB, hzero _ i j hs ht hin, zero_add]

theorem worker_completes_blocks_witness :
    ∃ C1, ProcessManager.Machine.worker_process ((5 : Nat) : Int) ((2 : Nat) : Int) (5 * 5)
        (5 * 5) (5 * 5) (fun idx => (idx : Int)) (fun idx => (idx : Int) + 1)
        ((3 : Nat) : Int) ((7 : Nat) : Int) (fun _ => 0) = Loop.Run.done C1 ∧
      ∀ t i j, 3 ≤ t → t < 7 → ProcessManager.in_block 5 2 t i j →
        C1 (i * 5 + j)
          = ∑ k in Finset.range 5, ((i * 5 + k : Nat) : Int) * (((k * 5 + j : Nat) : Int) + 1) :=
  worker_completes_blocks 5 2 9 (by decide) (by decide) (by decide) (by decide) (by decide)
    _ _ _ 3 7 (by decide) (by decide) (fun _ _ _ _ _ _ => rfl)

/-- C3 (as stated, refuted). For `N = 50000` and `B = 43750` there are 4 blocks, and the
cell `(43750, 0)` lies in block 2. On matrices of ones and a zeroed C,
`worker_process(2, 3)` is killed at its first read: the index `43750 * 50000` has wrapped
below zero. The cell still holds 0, where the complete sum is 50000. -/
theorem worker_completes_blocks_overflow :
    ProcessManager.Machine.get_total_blocks 50000 43750 = some 4 ∧
    ProcessManager.in_block 50000 43750 2 43750 0 ∧
    (ProcessManager.Machine.worker_process 50000 43750 (50000 * 50000) (50000 * 50000)
        (50000 * 50000) (fun _ => (1 : Int)) (fun _ => (1 : Int)) 2 3 (fun _ => 0)).fault
      = some Loop.Fault.bounds ∧
    (ProcessManager.Machine.worker_process 50000 43750 (50000 * 50000) (50000 * 50000)
        (50000 * 50000) (fun _ => (1 : Int)) (fun _ => (1 : Int)) 2 3 (fun _ => 0)).state.map
        (fun C => C (43750 * 50000 + 0))
      = some 0 ∧
    (∑ k in Finset.range 50000,
        (fun _ => (1 : Int)) (43750 * 50000 + k) * (fun _ => (1 : Int)) (k * 50000 + 0))
      = 50000 :=
  ⟨by decide, by decide, by decide, by decide, by simp⟩

/-- C5 (as amended). For `N ≥ 1`, `B ≥ 1` with `N + B < 2^31` and `N * N < 2^31`, with `+`
and `*` arbitrary operations (no law assumed) and the shared buffers the row-major images
of the private matrices: on 32-bit integers `get_total_blocks` returns a count `T`, the
parallel path with one worker (C zeroed, then `worker_process(0, T)`) completes,
`multiply_sequential` on a zeroed C returns, and the two results have the same element at
every `(i, j)`. -/
theorem single_worker_equals_sequential {α : Type} [Add α] [Mul α] [Zero α] (N B : Nat)
    (hN : 1 ≤ N) (hB : 1 ≤ B) (hNB : N + B < 2 ^ 31) (hNN : N * N < 2 ^ 31)
    (matrixA matrixB : Nat → Nat → α) (shared_A shared_B : Nat → α)
    (hA : ∀ i j, i < N → j < N → shared_A (i * N + j) = matrixA i j)
    (hBm : ∀ i j, i < N → j < N → shared_B (i * N + j) = matrixB i j) :
    ∃ (T : Nat) (Cpar : Nat → α) (Cseq : Nat → Nat → α),
      ProcessManager.Machine.get_total_blocks (N : Int) (B : Int) = some (T : Int) ∧
      ProcessManager.Machine.multiply_parallel_flat (N : Int) (B : Int) 1
        (N * N) shared_A shared_B = Loop.Run.done Cpar ∧
      ProcessManager.Machine.worker_process (N : Int) (B : Int) (N * N) (N * N) (N * N)
        shared_A shared_B 0 (T : Int) (fun _ => 0) = Loop.Run.done Cpar ∧
      MatrixMultiplier.multiply_sequential N B matrixA matrixB MatrixMultiplier.zero_matrix
        = some Cseq ∧
      ∀ i j, i < N → j < N → Cpar (i * N + j) = Cseq i j := by
  obtain ⟨hnb, _, _⟩ := Loop.blocks_bound N B hB
  have hnb1 : ProcessManager.num_blocks_per_dim N B ≤ N := hnb
  have hsq : ProcessManager.num_blocks_per_dim N B * ProcessManager.num_blocks_per_dim N B
      ≤ N * N := Nat.mul_le_mul hnb1 hnb1
  have hTN : ProcessManager.get_total_blocks N B < 2 ^ 31 := by
    show ProcessManager.num_blocks_per_dim N B * ProcessManager.num_blocks_per_dim N B < _
    omega
  have hT := ProcessManager.Machine.get_total_blocks_nat N B hB hNB hTN
  have hpar := ProcessManager.Machine.worker_process_nat N B hB hNN hNB shared_A shared_B 0
    (ProcessManager.get_total_blocks N B) (le_refl _) (fun _ => 0)
  have hdist := ProcessManager.Machine.calculate_block_distribution_nat N B 1 _ hT hTN
    (le_refl _) (by decide)
  rw [Nat.cast_zero] at hpar
  rw [Nat.cast_one] at hdist
  refine ⟨_, _, _, hT, ?_, hpar,
    MatrixMultiplier.multiply_sequential_eq N B hB matrixA matrixB _, ?_⟩
  · unfold ProcessManager.Machine.multiply_parallel_flat
    rw [hdist, Loop.Run.ofOption_some, ProcessManager.block_distribution_one,
      List.map_cons, List.map_nil, ProcessManager.Machine.run_workers]
    simp only [Nat.cast_zero]
    rw [hpar, Loop.Run.bind_done]
    rfl
  · intro i j hi hj
    obtain ⟨C1, h1, h2⟩ := MatrixMultiplier.multiply_sequential_apply N B hB matrixA matrixB
      MatrixMultiplier.zero_matrix i j hi hj
    rw [MatrixMultiplier.multiply_sequential_eq N B hB] at h1
    rw [Option.some.inj h1, h2]
    have hmem : ProcessManager.block_of N B i j
        ∈ ProcessManager.range_blocks (0, ProcessManager.get_total_blocks N B) := by
      unfold ProcessManager.range_blocks
      rw [List.mem_range'_1]
      have := ProcessManager.block_of_lt_total N B i j hB hi hj
      simp only []
      omega
    rw [ProcessManager.tiles_apply N B hB shared_A shared_B _
      (ProcessManager.range_blocks_nodup _) _ i j hj, if_pos ⟨hmem, hi⟩,
      MatrixMultiplier.cell_fold_flat N B matrixA matrixB shared_A shared_B hA hBm i j hi hj]
    rfl

theorem single_worker_equals_sequential_witness :
    ∃ (T : Nat) (Cpar : Nat → Int) (Cseq : Nat → Nat → Int),
      ProcessManager.Machine.get_total_blocks ((5 : Nat) : Int) ((2 : Nat) : Int)
        = some (T : Int) ∧
      ProcessManager.Machine.multiply_parallel_flat ((5 : Nat) : Int) ((2 : Nat) : Int) 1
        (5 * 5) (fun idx => (idx : Int)) (fun idx => (idx : Int) + 1) = Loop.Run.done Cpar ∧
      ProcessManager.Machine.worker_process ((5 : Nat) : Int) ((2 : Nat) : Int) (5 * 5) (5 * 5)
        (5 * 5) (fun idx => (idx : Int)) (fun idx => (idx : Int) + 1) 0 (T : Int)
        (fun _ => 0) = Loop.Run.done Cpar ∧
      MatrixMultiplier.multiply_sequential 5 2 (fun i j => ((i * 5 + j : Nat) : Int))
        (fun i j => ((i * 5 + j : Nat) : Int) + 1) MatrixMultiplier.zero_matrix
        = some Cseq ∧
      ∀ i j, i < 5 → j < 5 → Cpar (i * 5 + j) = Cseq i j :=
  single_worker_equals_sequential 5 2 (by decide) (by decide) (by decide) (by decide) _ _ _ _
    (fun _ _ _ _ => rfl) (fun _ _ _ _ => rfl)

/-- C5 (as stated, refuted). For `N = 4` and `B = 2147483647` the sum `N + B` wraps and the
block count is 0: on matrices of ones the parallel path with one worker completes with
`C[0] = 0`, and `multiply_sequential`, whose loops add `B` to 0 only, returns
`C[0][0] = 4`. -/
theorem single_worker_differs_on_overflow :
    (ProcessManager.Machine.multiply_parallel_flat 4 2147483647 1 (4 * 4)
        (fun _ => (1 : Int)) (fun _ => (1 : Int))).result.map (fun C => C (0 * 4 + 0))
      = some 0 ∧
    (MatrixMultiplier.multiply_sequential 4 2147483647 (fun _ _ => (1 : Int))
        (fun _ _ => (1 : Int)) MatrixMultiplier.zero_matrix).map (fun C => C 0 0)
      = some 4 :=
  ⟨by decide, by decide⟩

/-- C6. For every `T` and `P ≥ 1` the distribution has exactly `P` ranges, and worker `p`
gets `T / P + 1` blocks when `p < T % P` and `T / P` blocks otherwise. -/
theorem partition_lengths (T P : Nat) (hP : 1 ≤ P) :
    (ProcessManager.block_distribution T P).length = P ∧
    ∀ p, p < P → ∃ s e, (ProcessManager.block_distribution T P)[p]? = some (s, e) ∧ s ≤ e ∧
      e - s = if p < T % P then T / P + 1 else T / P := by
  refine ⟨?_, ?_⟩
  · rw [ProcessManager.block_distribution_eq]; simp
  · intro p hp
    refine ⟨_, _, ProcessManager.block_distribution_getElem? T P p hp,
      ProcessManager.range_start_le_succ T P p, ?_⟩
    rw [ProcessManager.range_start_succ]
    generalize T / P = b
    split <;> omega

theorem partition_lengths_witness :
    (ProcessManager.block_distribution 10 4).length = 4 ∧
    ∀ p, p < 4 → ∃ s e, (ProcessManager.block_distribution 10 4)[p]? = some (s, e) ∧ s ≤ e ∧
      e - s = if p < 10 % 4 then 10 / 4 + 1 else 10 / 4 :=
  partition_lengths 10 4 (by decide)

/-- C7. For every `T` and `P ≥ 1` the longest range of the distribution is at most one block
longer than the shortest one. -/
theorem partition_balance (T P : Nat) (hP : 1 ≤ P) :
    ∃ longest shortest,
      ((ProcessManager.block_distribution T P).map (fun r => r.2 - r.1)).max? = some longest ∧
      ((ProcessManager.block_distribution T P).map (fun r => r.2 - r.1)).min? = some shortest ∧
      longest - shortest ≤ 1 := by
  have hb : ∀ x ∈ (ProcessManager.block_distribution T P).map (fun r => r.2 - r.1),
      T / P ≤ x ∧ x ≤ T / P + 1 := by
    intro x hx
    obtain ⟨r, hr, rfl⟩ := List.mem_map.1 hx
    obtain ⟨p, hp, rfl⟩ := (ProcessManager.mem_block_distribution T P r).1 hr
    simp only [ProcessManager.range_start_succ]
    generalize T / P = b
    split <;> omega
  have hne : (ProcessManager.block_distribution T P).map (fun r => r.2 - r.1) ≠ [] := by
    intro h
    have := congrArg List.length h
    rw [List.length_map, ProcessManager.block_distribution_eq] at this
    simp at this
    omega
  cases hmax : ((ProcessManager.block_distribution T P).map (fun r => r.2 - r.1)).max? with
  | none => exact absurd (List.max?_eq_none_iff.1 hmax) hne
  | some mx =>
    cases hmin : ((ProcessManager.block_distribution T P).map (fun r => r.2 - r.1)).min? with
    | none => exact absurd (List.min?_eq_none_iff.1 hmin) hne
    | some mn =>
      refine ⟨mx, mn, rfl, rfl, ?_⟩
      have h1 := hb mx (List.max?_eq_some_iff'.1 hmax).1
      have h2 := hb mn (List.min?_eq_some_iff'.1 hmin).1
      omega

theorem partition_balance_witness :
    ∃ longest shortest,
      ((ProcessManager.block_distribution 10 4).map (fun r => r.2 - r.1)).max? = some longest ∧
      ((ProcessManager.block_distribution 10 4).map (fun r => r.2 - r.1)).min? = some shortest ∧
      longest - shortest ≤ 1 :=
  partition_balance 10 4 (by decide)

/-- C8 (as amended). For `N ≥ 1`, `B ≥ 1` with `N + B < 2^31`: on 32-bit integers
`(N + B - 1) / B` is a number `nb` that is the ceiling of `N / B`; `get_total_blocks`
returns `nb * nb` when that fits an `int`; the decoding `t ↦ (t / nb, t % nb)` of
`worker_process` traps for no `t` in `[0, nb * nb)` and maps it into `[0, nb) × [0, nb)`,
with two-sided inverse `(r, c) ↦ r * nb + c`; and every decoded block starts inside the
matrix (`r * B < N` and `c * B < N`). -/
theorem block_index_bijection (N B : Nat) (hN : 1 ≤ N) (hB : 1 ≤ B) (hNB : N + B < 2 ^ 31) :
    ∃ nb : Nat,
      ProcessManager.Machine.num_blocks_per_dim (N : Int) (B : Int) = some (nb : Int) ∧
      (N ≤ nb * B ∧ (nb - 1) * B < N) ∧
      (nb * nb < 2 ^ 31 →
        ProcessManager.Machine.get_total_blocks (N : Int) (B : Int)
          = some ((nb * nb : Nat) : Int)) ∧
      (∀ t, t < nb * nb → ∃ r c : Nat,
        ProcessManager.Machine.idiv (t : Int) (nb : Int) = some (r : Int) ∧
        ProcessManager.Machine.imod (t : Int) (nb : Int) = some (c : Int) ∧
        r < nb ∧ c < nb ∧ r * nb + c = t ∧ r * B < N ∧ c * B < N) ∧
      (∀ r c, r < nb → c < nb →
        r * nb + c < nb * nb ∧
        ProcessManager.Machine.idiv ((r * nb + c : Nat) : Int) (nb : Int) = some (r : Int) ∧
        ProcessManager.Machine.imod ((r * nb + c : Nat) : Int) (nb : Int)
          = some (c : Int)) := by
  have hpos := ProcessManager.num_blocks_pos N B hN hB
  obtain ⟨_, hlt, hge⟩ := Loop.blocks_bound N B hB
  refine ⟨ProcessManager.num_blocks_per_dim N B,
    ProcessManager.Machine.num_blocks_nat N B hB hNB,
    ⟨hge, hlt _ (Nat.sub_lt hpos Nat.one_pos)⟩,
    fun hsq => ProcessManager.Machine.get_total_blocks_nat N B hB hNB hsq, ?_, ?_⟩
  · intro t ht
    have h1 : t / ProcessManager.num_blocks_per_dim N B < ProcessManager.num_blocks_per_dim N B :=
      (Nat.div_lt_iff_lt_mul hpos).2 ht
    have h2 : t % ProcessManager.num_blocks_per_dim N B < ProcessManager.num_blocks_per_dim N B :=
      Nat.mod_lt _ hpos
    exact ⟨_, _, ProcessManager.Machine.idiv_nat t _ hpos,
      ProcessManager.Machine.imod_nat t _ hpos, h1, h2, Nat.div_add_mod' t _, hlt _ h1,
      hlt _ h2⟩
  · intro r c hr hc
    refine ⟨?_, ?_, ?_⟩
    · have h3 : (r + 1) * ProcessManager.num_blocks_per_dim N B
          ≤ ProcessManager.num_blocks_per_dim N B * ProcessManager.num_blocks_per_dim N B :=
        Nat.mul_le_mul_right _ hr
      rw [Nat.add_mul] at h3
      omega
    · rw [ProcessManager.Machine.idiv_nat _ _ hpos, Nat.add_comm,
        Nat.add_mul_div_right _ _ hpos, Nat.div_eq_of_lt hc, Nat.zero_add]
    · rw [ProcessManager.Machine.imod_nat _ _ hpos, Nat.add_comm,
        Nat.add_mul_mod_self_right, Nat.mod_eq_of_lt hc]

theorem block_index_bijection_witness :
    ∃ nb : Nat,
      ProcessManager.Machine.num_blocks_per_dim ((50 : Nat) : Int) ((16 : Nat) : Int)
        = some (nb : Int) ∧
      (50 ≤ nb * 16 ∧ (nb - 1) * 16 < 50) ∧
      (nb * nb < 2 ^ 31 →
        ProcessManager.Machine.get_total_blocks ((50 : Nat) : Int) ((16 : Nat) : Int)
          = some ((nb * nb : Nat) : Int)) ∧
      (∀ t, t < nb * nb → ∃ r c : Nat,
        ProcessManager.Machine.idiv (t : Int) (nb : Int) = some (r : Int) ∧
        ProcessManager.Machine.imod (t : Int) (nb : Int) = some (c : Int) ∧
        r < nb ∧ c < nb ∧ r * nb + c = t ∧ r * 16 < 50 ∧ c * 16 < 50) ∧
      (∀ r c, r < nb → c < nb →
        r * nb + c < nb * nb ∧
        ProcessManager.Machine.idiv ((r * nb + c : Nat) : Int) (nb : Int) = some (r : Int) ∧
        ProcessManager.Machine.imod ((r * nb + c : Nat) : Int) (nb : Int)
          = some (c : Int)) :=
  block_index_bijection 50 16 (by decide) (by decide) (by decide)

/-- C8 (as stated, refuted). For `N = 4` and `B = 2147483647` the sum `N + B` wraps and
`(N + B - 1) / B` is 0 on 32-bit integers, which is not the ceiling of `N / B`
(`N ≤ 0 * B` fails); with it the block count is 0, and the decoding `t / 0` of a block
traps. -/
theorem block_count_overflow :
    ProcessManager.Machine.num_blocks_per_dim 4 2147483647 = some 0 ∧
    ¬ (4 ≤ 0 * 2147483647) ∧
    ProcessManager.Machine.get_total_blocks 4 2147483647 = some 0 ∧
    ProcessManager.Machine.idiv 0 0 = none :=
  ⟨by decide, by decide, by decide, by decide⟩

/-- C9 (as amended). For `N = 64`, block size 16, 4 workers, `A[i][j] = i` and `B[i][j] = j`
over the integers, the parallel multiply returns `C[i][j] = i * j * 64` for all `i, j < 64`. -/
theorem scenario_product :
    ∃ C, ProcessManager.multiply_parallel_flat 64 16 4
        ProcessManager.scenario_A ProcessManager.scenario_B = some C ∧
      ∀ i j, i < 64 → j < 64 → C (i * 64 + j) = (i : Int) * j * 64 := by
  obtain ⟨C, hC, h⟩ := ProcessManager.run_workers_product 64 16 4 (by decide) (by decide)
    ProcessManager.scenario_A ProcessManager.scenario_B _ (List.Perm.refl _)
  exact ⟨C, hC, fun i j hi hj => by rw [h i j hi hj, ProcessManager.scenario_sum i j hj]⟩

/-- C9 (as stated, refuted). In the same scenario the corner cell `(63, 63)` holds
`63 * 63 * 64 = 254016` and the mid-grid cell `(32, 32)` holds `32 * 32 * 64 = 65536`, not
the values `i * j * N * (N - 1) / 2` of the stated closed form. -/
theorem scenario_closed_form_fails :
    ∃ C, ProcessManager.multiply_parallel_flat 64 16 4
        ProcessManager.scenario_A ProcessManager.scenario_B = some C ∧
      C (63 * 64 + 63) = 254016 ∧ C (63 * 64 + 63) ≠ (63 * 63 * 64 * (64 - 1) / 2 : Int) ∧
      C (32 * 64 + 32) = 65536 ∧ C (32 * 64 + 32) ≠ (32 * 32 * 64 * (64 - 1) / 2 : Int) := by
  obtain ⟨C, hC, h⟩ := ProcessManager.run_workers_product 64 16 4 (by decide) (by decide)
    ProcessManager.scenario_A ProcessManager.scenario_B _ (List.Perm.refl _)
  refine ⟨C, hC, ?_, ?_, ?_, ?_⟩
  · rw [h 63 63 (by decide) (by decide), ProcessManager.scenario_sum 63 63 (by decide)]
    norm_num
  · rw [h 63 63 (by decide) (by decide), ProcessManager.scenario_sum 63 63 (by decide)]
    norm_num
  · rw [h 32 32 (by decide) (by decide), ProcessManager.scenario_sum 32 32 (by decide)]
    norm_num
  · rw [h 32 32 (by decide) (by decide), ProcessManager.scenario_sum 32 32 (by decide)]
    norm_num

/-- C10. With one worker the distribution is the single range `[0, T)` for every `T`, so
that worker is handed the whole block grid. -/
theorem single_worker_range :
    (∀ T, ProcessManager.block_distribution T 1 = [(0, T)]) ∧
    (∀ N B, ProcessManager.calculate_block_distribution N B 1
      = [(0, ProcessManager.get_total_blocks N B)]) := by
  exact ⟨ProcessManager.block_distribution_one,
    fun N B => ProcessManager.block_distribution_one _⟩

/-- C11. With more workers than blocks (`T < P`), worker `p` gets the single block
`[p, p + 1)` when `p < T` and the empty range `[T, T)` otherwise; and `worker_process` on an
empty range `[x, x)` returns with every element of C unchanged. -/
theorem excess_workers_idle {α : Type} [Add α] [Mul α] [Zero α] (T P : Nat) (hPT : T < P) :
    (∀ p, p < P →
      (ProcessManager.block_distribution T P)[p]? = some (if p < T then (p, p + 1) else (T, T))) ∧
    (∀ (N B : Nat) (shared_A shared_B shared_C : Nat → α) (x : Nat),
      ProcessManager.worker_process N B shared_A shared_B x x shared_C = some shared_C) := by
  refine ⟨fun p hp => ?_, fun N B A Bm C x => ProcessManager.worker_process_empty N B A Bm x C⟩
  rw [ProcessManager.block_distribution_getElem? T P p hp,
    ProcessManager.range_start_few_blocks T P p hPT,
    ProcessManager.range_start_few_blocks T P (p + 1) hPT]
  split
  · rw [Nat.min_eq_left (by omega), Nat.min_eq_left (by omega)]
  · rw [Nat.min_eq_right (by omega), Nat.min_eq_right (by omega)]

theorem excess_workers_idle_witness :
    (∀ p, p < 4 →
      (ProcessManager.block_distribution 2 4)[p]? = some (if p < 2 then (p, p + 1) else (2, 2))) ∧
    (∀ (N B : Nat) (shared_A shared_B shared_C : Nat → Int) (x : Nat),
      ProcessManager.worker_process N B shared_A shared_B x x shared_C = some shared_C) :=
  excess_workers_idle 2 4 (by decide)

/-- C12. For `N ≥ 1`, `B ≥ 1`, entries in a semiring and any initial `C0`:
`multiply_sequential` returns with `C[i][j] = C0[i][j] + Σ_{k<N} A[i][k] * B[k][j]` for all
`i, j < N`, hence with the product `A * B` from a zeroed C; and `multiply_block(i0, j0, k0, B)`
adds `Σ_{k0 ≤ k < min(k0+B, N)} A[i][k] * B[k][j]` to each cell of the clipped block and leaves
the other cells as they are. -/
theorem sequential_product {α : Type} [Semiring α] (N B : Nat) (hN : 1 ≤ N) (hB : 1 ≤ B)
    (matrixA matrixB C0 : Nat → Nat → α) :
    (∃ C, MatrixMultiplier.multiply_sequential N B matrixA matrixB C0 = some C ∧
      ∀ i j, i < N → j < N →
        C i j = C0 i j + ∑ k in Finset.range N, matrixA i k * matrixB k j) ∧
    (∃ C, MatrixMultiplier.multiply_sequential N B matrixA matrixB
        MatrixMultiplier.zero_matrix = some C ∧
      ∀ i j, i < N → j < N → C i j = ∑ k in Finset.range N, matrixA i k * matrixB k j) ∧
    (∀ (i0 j0 k0 : Nat) (C : Nat → Nat → α) (i j : Nat),
      MatrixMultiplier.multiply_block N matrixA matrixB i0 j0 k0 B C i j
        = if (i0 ≤ i ∧ i < min (i0 + B) N) ∧ (j0 ≤ j ∧ j < min (j0 + B) N)
          then C i j + ∑ k in Finset.Ico k0 (min (k0 + B) N), matrixA i k * matrixB k j
          else C i j) := by
  refine ⟨MatrixMultiplier.multiply_sequential_sum N B hB matrixA matrixB C0, ?_, ?_⟩
  · obtain ⟨C, hC, h⟩ := MatrixMultiplier.multiply_sequential_sum N B hB matrixA matrixB
      MatrixMultiplier.zero_matrix
    refine ⟨C, hC, fun i j hi hj => ?_⟩
    rw [h i j hi hj]
    exact zero_add _
  · intro i0 j0 k0 C i j
    rw [MatrixMultiplier.multiply_block_apply, MatrixMultiplier.matrix_block_sum_eq]

theorem sequential_product_witness :
    (∃ C, MatrixMultiplier.multiply_sequential 50 16 (fun i j => ((i + j : Nat) : Int))
        (fun i j => ((i * j : Nat) : Int)) (fun _ _ => 7) = some C ∧
      ∀ i j, i < 50 → j < 50 →
        C i j = 7 + ∑ k in Finset.range 50, ((i + k : Nat) : Int) * ((k * j : Nat) : Int)) ∧
    (∃ C, MatrixMultiplier.multiply_sequential 50 16 (fun i j => ((i + j : Nat) : Int))
        (fun i j => ((i * j : Nat) : Int)) MatrixMultiplier.zero_matrix = some C ∧
      ∀ i j, i < 50 → j < 50 →
        C i j = ∑ k in Finset.range 50, ((i + k : Nat) : Int) * ((k * j : Nat) : Int)) ∧
    (∀ (i0 j0 k0 : Nat) (C : Nat → Nat → Int) (i j : Nat),
      MatrixMultiplier.multiply_block 50 (fun i j => ((i + j : Nat) : Int))
          (fun i j => ((i * j : Nat) : Int)) i0 j0 k0 16 C i j
        = if (i0 ≤ i ∧ i < min (i0 + 16) 50) ∧ (j0 ≤ j ∧ j < min (j0 + 16) 50)
          then C i j + ∑ k in Finset.Ico k0 (min (k0 + 16) 50),
            ((i + k : Nat) : Int) * ((k * j : Nat) : Int)
          else C i j) :=
  sequential_product 50 16 (by decide) (by decide) _ _ _

/-- C13 (the code at the failing input). With `shm_open` failing for the A segment, two
workers and a fresh `ProcessManager`: `setup_shared_memory` reports the error and returns,
and `multiply_parallel` goes on to fork both workers, each child calling `worker_process`
with a null A pointer, to wait for them and to copy the C segment. -/
theorem setup_failure_still_dispatches :
    (ProcessManager.multiply_parallel 2 1 2 ProcessManager.env_A_fails
        (fun i j => ((i * 2 + j : Nat) : Int)) (fun i j => ((i * 2 + j : Nat) : Int))
        (fun _ _ => 0) ProcessManager.fresh).map (fun r => r.1.events)
      = some [ProcessManager.Event.setup_error,
          ProcessManager.Event.fork 0 true,
          ProcessManager.Event.worker 0 0 2 none (some 8192) (some 12288),
          ProcessManager.Event.fork 1 true,
          ProcessManager.Event.worker 1 2 4 none (some 8192) (some 12288),
          ProcessManager.Event.waitpid 0,
          ProcessManager.Event.waitpid 1,
          ProcessManager.Event.copy_result] := by
  decide

/-- C14 (as stated, refuted). When `multiply_parallel` returns after a run in which every
call succeeded, the three segments are still valid and their names still exist. -/
theorem segments_valid_after_return :
    (ProcessManager.multiply_parallel 2 1 2 ProcessManager.env_ok
        (fun i j => ((i * 2 + j : Nat) : Int)) (fun i j => ((i * 2 + j : Nat) : Int))
        (fun _ _ => 0) ProcessManager.fresh).map
      (fun r => (r.1.shm_A.map SharedMemory.is_valid, r.1.shm_B.map SharedMemory.is_valid,
        r.1.shm_C.map SharedMemory.is_valid, r.1.world.names))
      = some (some true, some true, some true, ["/matrix_C", "/matrix_B", "/matrix_A"]) := by
  decide

/-- C14 (as amended). When the `ProcessManager` is destroyed after `multiply_parallel` has
returned, the three segments are released: none is valid, each has a null pointer, and the
name of each segment whose `shm_open` succeeded no longer exists. -/
theorem segments_released_on_destruction {α : Type} [Add α] [Mul α] [Zero α] (N B P : Nat)
    (hB : 1 ≤ B) (env : ProcessManager.Env) (matrixA matrixB matrixC : Nat → Nat → α)
    (sys : ProcessManager.System α) :
    ∃ r, ProcessManager.multiply_parallel N B P env matrixA matrixB matrixC sys = some r ∧
      (∃ a b c, (ProcessManager.destroy r.1).shm_A = some a ∧
        (ProcessManager.destroy r.1).shm_B = some b ∧
        (ProcessManager.destroy r.1).shm_C = some c ∧
        SharedMemory.get_ptr a = none ∧ SharedMemory.is_valid a = false ∧
        SharedMemory.get_ptr b = none ∧ SharedMemory.is_valid b = false ∧
        SharedMemory.get_ptr c = none ∧ SharedMemory.is_valid c = false) ∧
      (env.seg_A.open_ok = true → "/matrix_A" ∉ (ProcessManager.destroy r.1).world.names) ∧
      (env.seg_B.open_ok = true → "/matrix_B" ∉ (ProcessManager.destroy r.1).world.names) ∧
      (env.seg_C.open_ok = true → "/matrix_C" ∉ (ProcessManager.destroy r.1).world.names) := by
  obtain ⟨r, hr, hA, hB1, hC, hW, _⟩ :=
    ProcessManager.multiply_parallel_run N B P hB env matrixA matrixB matrixC sys
  exact ⟨r, hr, ProcessManager.destroy_after_setup N env matrixA matrixB sys r.1 hA hB1 hC hW⟩

theorem segments_released_on_destruction_witness :
    ∃ r, ProcessManager.multiply_parallel 2 1 2 ProcessManager.env_ok
        (fun i j => ((i * 2 + j : Nat) : Int)) (fun i j => ((i * 2 + j : Nat) : Int))
        (fun _ _ => 0) ProcessManager.fresh = some r ∧
      (∃ a b c, (ProcessManager.destroy r.1).shm_A = some a ∧
        (ProcessManager.destroy r.1).shm_B = some b ∧
        (ProcessManager.destroy r.1).shm_C = some c ∧
        SharedMemory.get_ptr a = none ∧ SharedMemory.is_valid a = false ∧
        SharedMemory.get_ptr b = none ∧ SharedMemory.is_valid b = false ∧
        SharedMemory.get_ptr c = none ∧ SharedMemory.is_valid c = false) ∧
      (ProcessManager.env_ok.seg_A.open_ok = true →
        "/matrix_A" ∉ (ProcessManager.destroy r.1).world.names) ∧
      (ProcessManager.env_ok.seg_B.open_ok = true →
        "/matrix_B" ∉ (ProcessManager.destroy r.1).world.names) ∧
      (ProcessManager.env_ok.seg_C.open_ok = true →
        "/matrix_C" ∉ (ProcessManager.destroy r.1).world.names) :=
  segments_released_on_destruction 2 1 2 (by decide) ProcessManager.env_ok _ _ _ _

/-- C15. For every state of a segment and every state of the operating system, a second
`release()` changes nothing: the object is as the first call left it and no call is made
(no `munmap`, `close` or `shm_unlink`), also when other calls came in between. -/
theorem release_idempotent (s : SharedMemory.State) (w : SharedMemory.World) :
    SharedMemory.release (SharedMemory.release s w).1 (SharedMemory.release s w).2
      = SharedMemory.release s w ∧
    (SharedMemory.release (SharedMemory.release s w).1 (SharedMemory.release s w).2).2.calls
      = (SharedMemory.release s w).2.calls ∧
    (∀ w2, SharedMemory.release (SharedMemory.release s w).1 w2
      = ((SharedMemory.release s w).1, w2)) := by
  have h : ∀ w2, SharedMemory.release (SharedMemory.release s w).1 w2
      = ((SharedMemory.release s w).1, w2) :=
    fun w2 => SharedMemory.release_null _ w2 (SharedMemory.release_ptr s w)
  exact ⟨h _, by rw [h], h⟩

/-- C16 (as stated, refuted). An owner constructed with the name of an object that exists,
every call succeeding, is valid: `get_ptr()` is the mapping and `is_valid()` is true. -/
theorem owner_of_existing_name_is_valid :
    "/matrix_A" ∈ (SharedMemory.World.mk ["/matrix_A"] []).names ∧
    SharedMemory.get_ptr (SharedMemory.SharedMemory "matrix_A" 32 true
      ⟨true, true, true, 3, 4096⟩ ⟨["/matrix_A"], []⟩).1 = some 4096 ∧
    SharedMemory.is_valid (SharedMemory.SharedMemory "matrix_A" 32 true
      ⟨true, true, true, 3, 4096⟩ ⟨["/matrix_A"], []⟩).1 = true := by
  decide

/-- C16 (as amended). An owner constructed with the name of an object that exists opens that
object: it is valid exactly when open, resize and map all succeed, `get_ptr()` is null
exactly when one of them fails, and it owns the segment. -/
theorem owner_of_existing_name (name : String) (size : Nat) (o : SharedMemory.Outcome)
    (w : SharedMemory.World) (hexists : SharedMemory.shm_name name ∈ w.names) :
    SharedMemory.is_valid (SharedMemory.SharedMemory name size true o w).1
      = (o.open_ok && o.truncate_ok && o.map_ok) ∧
    (SharedMemory.get_ptr (SharedMemory.SharedMemory name size true o w).1 = none ↔
      (o.open_ok && o.truncate_ok && o.map_ok) = false) ∧
    (SharedMemory.SharedMemory name size true o w).1.is_owner = true := by
  refine ⟨SharedMemory.constructor_valid name size true o w, ?_,
    (SharedMemory.constructor_fields name size true o w).2.2.1⟩
  unfold SharedMemory.get_ptr
  rw [SharedMemory.constructor_ptr]
  unfold SharedMemory.init_succeeds
  cases o.open_ok <;> cases o.truncate_ok <;> cases o.map_ok <;> simp

theorem owner_of_existing_name_witness :
    SharedMemory.is_valid (SharedMemory.SharedMemory "matrix_A" 32 true
        ⟨true, true, false, 3, 4096⟩ ⟨["/matrix_A"], []⟩).1
      = (true && true && false) ∧
    (SharedMemory.get_ptr (SharedMemory.SharedMemory "matrix_A" 32 true
        ⟨true, true, false, 3, 4096⟩ ⟨["/matrix_A"], []⟩).1 = none ↔
      (true && true && false) = false) ∧
    (SharedMemory.SharedMemory "matrix_A" 32 true
        ⟨true, true, false, 3, 4096⟩ ⟨["/matrix_A"], []⟩).1.is_owner = true :=
  owner_of_existing_name "matrix_A" 32 ⟨true, true, false, 3, 4096⟩ ⟨["/matrix_A"], []⟩
    (by decide)

/-- C17. After the constructor and any number of calls of `release()`, whichever of open,
resize and map fails: `get_ptr()` is null exactly when the initialisation failed or the
segment was released, `is_valid()` is true exactly when `get_ptr()` is not null, and
`created` is true exactly when `ptr` is not null. -/
theorem valid_iff_mapped (name : String) (size : Nat) (create : Bool)
    (o : SharedMemory.Outcome) (w : SharedMemory.World) (n : Nat) :
    (SharedMemory.get_ptr (SharedMemory.after_releases name size create o w n).1 = none ↔
      (SharedMemory.init_succeeds name create o w = false ∨ 0 < n)) ∧
    (SharedMemory.is_valid (SharedMemory.after_releases name size create o w n).1 = true ↔
      SharedMemory.get_ptr (SharedMemory.after_releases name size create o w n).1 ≠ none) ∧
    ((SharedMemory.after_releases name size create o w n).1.created = true ↔
      (SharedMemory.after_releases name size create o w n).1.ptr ≠ none) := by
  have hinv := SharedMemory.after_releases_created name size create o w n
  refine ⟨?_, ?_, ?_⟩
  · cases n with
    | zero =>
      unfold SharedMemory.after_releases SharedMemory.get_ptr
      rw [SharedMemory.constructor_ptr]
      cases SharedMemory.init_succeeds name create o w <;> simp
    | succ n =>
      unfold SharedMemory.after_releases SharedMemory.get_ptr
      rw [SharedMemory.release_ptr]
      simp
  · unfold SharedMemory.is_valid SharedMemory.get_ptr
    rw [hinv]
    cases (SharedMemory.after_releases name size create o w n).1.ptr <;> simp
  · rw [hinv]
    cases (SharedMemory.after_releases name size create o w n).1.ptr <;> simp

/-- C18. A valid segment released: `munmap` and `close` are called, the object is left with a
null pointer and no descriptor, and `shm_unlink` is called, removing the name, exactly when
the object was constructed with `create = true`; for an attacher the set of existing names
is unchanged. -/
theorem release_unlinks_iff_owner (name : String) (size : Nat) (create : Bool)
    (o : SharedMemory.Outcome) (w w2 : SharedMemory.World)
    (hvalid : SharedMemory.is_valid (SharedMemory.SharedMemory name size create o w).1 = true) :
    (SharedMemory.SharedMemory name size create o w).1.is_owner = create ∧
    (SharedMemory.release (SharedMemory.SharedMemory name size create o w).1 w2).1.ptr = none ∧
    (SharedMemory.release (SharedMemory.SharedMemory name size create o w).1 w2).1.fd = -1 ∧
    (SharedMemory.release (SharedMemory.SharedMemory name size create o w).1 w2).2.calls
      = w2.calls ++ [SharedMemory.Syscall.munmap o.addr size, SharedMemory.Syscall.close o.fd]
        ++ (if create then [SharedMemory.Syscall.shm_unlink (SharedMemory.shm_name name)]
            else []) ∧
    (SharedMemory.Syscall.shm_unlink (SharedMemory.shm_name name) ∈
        ((SharedMemory.release (SharedMemory.SharedMemory name size create o w).1 w2).2.calls.drop
          w2.calls.length) ↔ create = true) ∧
    (create = true → SharedMemory.shm_name name ∉
      (SharedMemory.release (SharedMemory.SharedMemory name size create o w).1 w2).2.names) ∧
    (create = false →
      (SharedMemory.release (SharedMemory.SharedMemory name size create o w).1 w2).2.names
        = w2.names) := by
  rw [SharedMemory.constructor_valid] at hvalid
  obtain ⟨hname, hsize, howner, hfd⟩ := SharedMemory.constructor_fields name size create o w
  have hptr : (SharedMemory.SharedMemory name size create o w).1.ptr = some o.addr := by
    rw [SharedMemory.constructor_ptr, hvalid]; rfl
  have hfd1 := hfd hvalid
  have hne : (SharedMemory.SharedMemory name size create o w).1.fd ≠ -1 := by
    rw [hfd1]; omega
  obtain ⟨_, h2, h3, h4⟩ := SharedMemory.release_some _ w2 o.addr hptr
  rw [hname, hsize, howner, hfd1, if_pos (by omega)] at h3
  rw [hname, howner] at h4
  refine ⟨howner, SharedMemory.release_ptr _ _, h2 hne, ?_, ?_, ?_, ?_⟩
  · rw [h3]; simp [List.append_assoc]
  · rw [h3]
    cases create <;> simp [List.append_assoc]
  · intro hc
    rw [h4, if_pos hc]
    simp
  · intro hc
    rw [h4, hc]
    simp

theorem release_unlinks_iff_owner_witness :
    (SharedMemory.SharedMemory "matrix_C" 32 false ⟨true, true, true, 3, 4096⟩
      ⟨["/matrix_C"], []⟩).1.is_owner = false ∧
    (SharedMemory.release (SharedMemory.SharedMemory "matrix_C" 32 false
      ⟨true, true, true, 3, 4096⟩ ⟨["/matrix_C"], []⟩).1 ⟨["/matrix_C"], []⟩).1.ptr = none ∧
    (SharedMemory.release (SharedMemory.SharedMemory "matrix_C" 32 false
      ⟨true, true, true, 3, 4096⟩ ⟨["/matrix_C"], []⟩).1 ⟨["/matrix_C"], []⟩).1.fd = -1 ∧
    (SharedMemory.release (SharedMemory.SharedMemory "matrix_C" 32 false
      ⟨true, true, true, 3, 4096⟩ ⟨["/matrix_C"], []⟩).1 ⟨["/matrix_C"], []⟩).2.calls
      = ([] : List SharedMemory.Syscall)
        ++ [SharedMemory.Syscall.munmap 4096 32, SharedMemory.Syscall.close ((3 : Nat) : Int)]
        ++ (if false = true
            then [SharedMemory.Syscall.shm_unlink (SharedMemory.shm_name "matrix_C")]
            else []) ∧
    (SharedMemory.Syscall.shm_unlink (SharedMemory.shm_name "matrix_C") ∈
        ((SharedMemory.release (SharedMemory.SharedMemory "matrix_C" 32 false
          ⟨true, true, true, 3, 4096⟩ ⟨["/matrix_C"], []⟩).1 ⟨["/matrix_C"], []⟩).2.calls.drop
          ([] : List SharedMemory.Syscall).length) ↔ false = true) ∧
    (false = true → SharedMemory.shm_name "matrix_C" ∉
      (SharedMemory.release (SharedMemory.SharedMemory "matrix_C" 32 false
        ⟨true, true, true, 3, 4096⟩ ⟨["/matrix_C"], []⟩).1 ⟨["/matrix_C"], []⟩).2.names) ∧
    (false = false →
      (SharedMemory.release (SharedMemory.SharedMemory "matrix_C" 32 false
        ⟨true, true, true, 3, 4096⟩ ⟨["/matrix_C"], []⟩).1 ⟨["/matrix_C"], []⟩).2.names
        = ["/matrix_C"]) :=
  release_unlinks_iff_owner "matrix_C" 32 false ⟨true, true, true, 3, 4096⟩
    ⟨["/matrix_C"], []⟩ ⟨["/matrix_C"], []⟩ (by decide)

/-- C20. Whatever the number of workers, the outcome of each `fork()` and the moments at
which the children terminate: once the parent has called `copy_result_from_shared`, every
child whose pid it recorded has terminated. -/
theorem barrier_is_full (num_processes : Nat) (moves : List Barrier.Move) (s : Barrier.State)
    (hrun : Barrier.run num_processes Barrier.init moves = some s)
    (hcopied : s.phase = Barrier.Phase.copied) :
    ∀ pid, pid ∈ s.child_pids → pid ∉ s.running := by
  have h := Barrier.run_waited num_processes moves Barrier.init s hrun trivial
  unfold Barrier.waited at h
  simpa only [hcopied] using h

theorem barrier_is_full_witness :
    Barrier.run 3 Barrier.init
        [Barrier.Move.fork_child, Barrier.Move.fork_fails, Barrier.Move.fork_child,
          Barrier.Move.child_exits 2, Barrier.Move.leave_dispatch, Barrier.Move.child_exits 1,
          Barrier.Move.wait_returns, Barrier.Move.wait_returns, Barrier.Move.copy_result]
      = some ⟨Barrier.Phase.copied, [1, 2], [], 3⟩ ∧
    ∀ pid, pid ∈ [1, 2] → pid ∉ ([] : List Nat) :=
  ⟨by decide,
    barrier_is_full 3
      [Barrier.Move.fork_child, Barrier.Move.fork_fails, Barrier.Move.fork_child,
        Barrier.Move.child_exits 2, Barrier.Move.leave_dispatch, Barrier.Move.child_exits 1,
        Barrier.Move.wait_returns, Barrier.Move.wait_returns, Barrier.Move.copy_result]
      ⟨Barrier.Phase.copied, [1, 2], [], 3⟩ (by decide) rfl⟩

/-- C21. For every `int` value `b ≤ 2^30` of the cast square root,
`calculate_optimal_block_size` returns, and what it returns (the clamp of
`next_power_of_2(b)` to `[32, 256]`) is one of 32, 64, 128, 256; and for every L1 cache
size below `2^64` the exact value of the cast square root is at most `2^30`, so the block
size computed from it is one of 32, 64, 128, 256. -/
theorem block_size_power_of_two (b : Int) (hb : b ≤ 2 ^ 30) :
    (∃ r, HardwareDetector.calculate_optimal_block_size b = some r ∧
      (r = 32 ∨ r = 64 ∨ r = 128 ∨ r = 256)) ∧
    (∀ l1_cache_size : Nat, l1_cache_size < 2 ^ 64 →
      HardwareDetector.exact_block_estimate l1_cache_size ≤ 2 ^ 30 ∧
      ∃ r, HardwareDetector.calculate_optimal_block_size
          (HardwareDetector.exact_block_estimate l1_cache_size) = some r ∧
        (r = 32 ∨ r = 64 ∨ r = 128 ∨ r = 256)) := by
  have main : ∀ b : Int, b ≤ 2 ^ 30 →
      ∃ r, HardwareDetector.calculate_optimal_block_size b = some r ∧
        (r = 32 ∨ r = 64 ∨ r = 128 ∨ r = 256) := by
    intro b hb
    unfold HardwareDetector.calculate_optimal_block_size
    by_cases h0 : b ≤ 0
    · refine ⟨32, ?_, Or.inl rfl⟩
      unfold Utils.next_power_of_2
      rw [if_pos h0]
      rfl
    · obtain ⟨k, hk30, hk, _, _⟩ := Utils.next_power_of_2_spec b (by omega) hb
      rw [hk, Option.map_some']
      refine ⟨_, rfl, ?_⟩
      have := HardwareDetector.clamp_power k hk30
      simpa using this
  refine ⟨main b hb, ?_⟩
  intro l1 hl1
  have hle : HardwareDetector.exact_block_estimate l1 ≤ 2 ^ 30 := by
    unfold HardwareDetector.exact_block_estimate
    have h1 : l1 / (3 * 8) < 2 ^ 30 * 2 ^ 30 := by omega
    have h2 : Nat.sqrt (l1 / (3 * 8)) < 2 ^ 30 := Nat.sqrt_lt.2 h1
    have h3 : ((Nat.sqrt (l1 / (3 * 8)) : Nat) : Int) < ((2 ^ 30 : Nat) : Int) := by
      exact_mod_cast h2
    have h4 : ((2 ^ 30 : Nat) : Int) = 2 ^ 30 := by norm_num
    omega
  exact ⟨hle, main _ hle⟩

theorem block_size_power_of_two_witness :
    (∃ r, HardwareDetector.calculate_optimal_block_size 36 = some r ∧
      (r = 32 ∨ r = 64 ∨ r = 128 ∨ r = 256)) ∧
    (∀ l1_cache_size : Nat, l1_cache_size < 2 ^ 64 →
      HardwareDetector.exact_block_estimate l1_cache_size ≤ 2 ^ 30 ∧
      ∃ r, HardwareDetector.calculate_optimal_block_size
          (HardwareDetector.exact_block_estimate l1_cache_size) = some r ∧
        (r = 32 ∨ r = 64 ∨ r = 128 ∨ r = 256)) :=
  block_size_power_of_two 36 (by decide)

/-- At `b = 2^30 + 1` the doubling loop of `next_power_of_2` wraps past `2^30` to `-2^31`
and then to `0`, where it stays: the loop never leaves, whatever the number of rounds,
and `calculate_optimal_block_size` returns nothing. -/
theorem block_size_overflow :
    HardwareDetector.calculate_optimal_block_size (2 ^ 30 + 1) = none ∧
      ¬ ∃ fuel r, Utils.double_until (2 ^ 30 + 1) fuel 1 = some r := by
  have h : ∀ fuel, Utils.double_until (2 ^ 30 + 1) fuel 1 = none := by
    intro fuel
    have := Utils.double_until_none (2 ^ 30 + 1) (by norm_num) fuel 0
    rw [Utils.wrap32_id _ (by norm_num) (by norm_num)] at this
    exact this
  constructor
  · unfold HardwareDetector.calculate_optimal_block_size Utils.next_power_of_2
    rw [if_neg (by norm_num), if_neg (by decide), h 64]
    rfl
  · rintro ⟨fuel, r, hr⟩
    rw [h fuel] at hr
    exact Option.noConfusion hr

/-- C22. `next_power_of_2(n)` returns 1 for `n ≤ 0`; for `1 ≤ n ≤ 2^30` it returns a power
of two `2^k` with `n ≤ 2^k` that is below every other power of two `≥ n`, which is `n`
itself when `n` is a power of two. -/
theorem next_power_of_2_smallest (n : Int) :
    (n ≤ 0 → Utils.next_power_of_2 n = some 1) ∧
    (1 ≤ n → n ≤ 2 ^ 30 →
      ∃ k : Nat, Utils.next_power_of_2 n = some (2 ^ k) ∧ n ≤ 2 ^ k ∧
        (∀ j : Nat, n ≤ 2 ^ j → (2 : Int) ^ k ≤ 2 ^ j) ∧
        ((∃ j : Nat, n = 2 ^ j) → Utils.next_power_of_2 n = some n)) := by
  constructor
  · intro h
    unfold Utils.next_power_of_2
    rw [if_pos h]
  · intro h1 hn
    obtain ⟨k, _, hk, hle, hmin⟩ := Utils.next_power_of_2_spec n h1 hn
    refine ⟨k, hk, hle, ?_, ?_⟩
    · intro j hj
      exact pow_le_pow_right₀ (by norm_num) (hmin j hj)
    · rintro ⟨j, hj⟩
      have h2 : (2 : Int) ^ k ≤ 2 ^ j := pow_le_pow_right₀ (by norm_num) (hmin j (le_of_eq hj))
      rw [hk]
      congr 1
      omega

theorem next_power_of_2_smallest_witness :
    Utils.next_power_of_2 0 = some 1 ∧
    ∃ k : Nat, Utils.next_power_of_2 5 = some (2 ^ k) ∧ (5 : Int) ≤ 2 ^ k ∧
      (∀ j : Nat, (5 : Int) ≤ 2 ^ j → (2 : Int) ^ k ≤ 2 ^ j) ∧
      ((∃ j : Nat, (5 : Int) = 2 ^ j) → Utils.next_power_of_2 5 = some 5) :=
  ⟨(next_power_of_2_smallest 0).1 (by decide),
    (next_power_of_2_smallest 5).2 (by decide) (by decide)⟩

/-- C23. For `1 ≤ max_processes < 2^30`, `generate_process_list` returns a list that is
strictly increasing, starts with 1, ends with `max_processes`, contains every power of two
`2^k ≤ max_processes`, contains nothing but powers of two and `max_processes` itself, and
has every element `≥ 1`. -/
theorem process_list_shape (max_processes : Int) (h1 : 1 ≤ max_processes)
    (h2 : max_processes < 2 ^ 30) :
    ∃ list, Utils.generate_process_list max_processes = some list ∧
      list.Pairwise (fun a b => a < b) ∧
      list.head? = some 1 ∧
      list.getLast? = some max_processes ∧
      (∀ k : Nat, (2 : Int) ^ k ≤ max_processes → (2 : Int) ^ k ∈ list) ∧
      (∀ x ∈ list, x = max_processes ∨ ∃ k : Nat, x = 2 ^ k) ∧
      (∀ x ∈ list, 1 ≤ x) := by
  obtain ⟨m, hm, hlo, hhi⟩ := Utils.exists_log max_processes h1 h2
  refine ⟨_, Utils.generate_process_list_eq max_processes m hm hlo hhi, ?_, ?_, ?_, ?_, ?_, ?_⟩
  · rw [List.pairwise_append]
    refine ⟨Utils.powers_pairwise m, ?_, ?_⟩
    · split <;> simp
    · intro a ha b hb
      obtain ⟨k, hk, rfl⟩ := (Utils.mem_powers m a).mp ha
      have hkm : (2 : Int) ^ k ≤ 2 ^ m := pow_le_pow_right₀ (by norm_num) hk
      split at hb
      · simp at hb
      · rename_i hne
        simp only [List.mem_singleton] at hb
        subst hb
        omega
  · rw [List.head?_append_of_ne_nil _ (by unfold Utils.powers; simp), Utils.powers_head]
  · split
    · rename_i heq
      rw [List.append_nil, Utils.powers_getLast, heq]
    · simp
  · intro k hk
    have hkm : k < m + 1 := by
      have : (2 : Int) ^ k < 2 ^ (m + 1) := lt_of_le_of_lt hk hhi
      exact (pow_lt_pow_iff_right₀ (by norm_num : (1 : Int) < 2)).mp this
    exact List.mem_append_left _ ((Utils.mem_powers m _).mpr ⟨k, by omega, rfl⟩)
  · intro x hx
    rcases List.mem_append.mp hx with hx | hx
    · obtain ⟨k, _, rfl⟩ := (Utils.mem_powers m x).mp hx
      exact Or.inr ⟨k, rfl⟩
    · split at hx
      · simp at hx
      · simp only [List.mem_singleton] at hx
        exact Or.inl hx
  · intro x hx
    rcases List.mem_append.mp hx with hx | hx
    · obtain ⟨k, _, rfl⟩ := (Utils.mem_powers m x).mp hx
      exact one_le_pow₀ (by norm_num)
    · split at hx
      · simp at hx
      · simp only [List.mem_singleton] at hx
        omega

theorem process_list_shape_witness :
    ∃ list, Utils.generate_process_list 6 = some list ∧
      list.Pairwise (fun a b => a < b) ∧
      list.head? = some 1 ∧
      list.getLast? = some 6 ∧
      (∀ k : Nat, (2 : Int) ^ k ≤ 6 → (2 : Int) ^ k ∈ list) ∧
      (∀ x ∈ list, x = 6 ∨ ∃ k : Nat, x = 2 ^ k) ∧
      (∀ x ∈ list, 1 ≤ x) :=
  process_list_shape 6 (by decide) (by decide)

/-- At `max_processes = 2^30` the loop of `generate_process_list` pushes `2^30`, doubles
it to `-2^31` and then to `0`, and goes on pushing: it never leaves, whatever the number
of rounds, and no list is returned. -/
theorem process_list_overflow :
    Utils.generate_process_list (2 ^ 30) = none ∧
      ¬ ∃ fuel list, Utils.push_doubling (2 ^ 30) fuel 2 [1] = some list := by
  have h : ∀ fuel, Utils.push_doubling (2 ^ 30) fuel 2 [1] = none := by
    intro fuel
    have := Utils.push_doubling_none (2 ^ 30) (le_refl _) fuel 1 [1]
    rw [Utils.wrap32_id _ (by norm_num) (by norm_num)] at this
    exact this
  constructor
  · unfold Utils.generate_process_list
    rw [h 64]
    rfl
  · rintro ⟨fuel, list, hl⟩
    rw [h fuel] at hl
    exact Option.noConfusion hl

/-- C24. Over the rationals, for `1 < S ≤ 2` and any state: `calculate_empirical_f(S)`
returns, the empirical f it stores is `2 * (1 - 1/S)`, it lies in `[0, 1]`, and
`calculate_amdahl_speedup(2, f) = 1 / ((1 - f) + f/2)` is `S`. -/
theorem empirical_f_inverts_amdahl (S : ℚ) (s : PerformanceAnalyzer.State) (h1 : 1 < S) (h2 : S ≤
    2) :
    ∃ s1, PerformanceAnalyzer.calculate_empirical_f S s = some s1 ∧
      PerformanceAnalyzer.get_empirical_f s1 = 2 * (1 - 1 / S) ∧
      0 ≤ PerformanceAnalyzer.get_empirical_f s1 ∧ PerformanceAnalyzer.get_empirical_f s1 ≤ 1 ∧
      PerformanceAnalyzer.calculate_amdahl_speedup 2 (PerformanceAnalyzer.get_empirical_f s1) =
          some S ∧
      1 / ((1 - PerformanceAnalyzer.get_empirical_f s1) + PerformanceAnalyzer.get_empirical_f s1 /
          2) = S := by
  have hpos : 0 < S := by linarith
  have hq1 : 1 / S < 1 := by
    rw [div_lt_one hpos]
    exact h1
  have hq2 : 1 / 2 ≤ 1 / S := by
    rw [div_le_div_iff₀ (by norm_num) hpos]
    linarith
  have hle : ¬ (2 * (1 - 1 / S) > 1) := by linarith
  refine ⟨_, PerformanceAnalyzer.calculate_empirical_f_gt S s h1, ?_, ?_, ?_, ?_, ?_⟩
  · show (if 2 * (1 - 1 / S) > 1 then 1 else 2 * (1 - 1 / S)) = _
    rw [if_neg hle]
  · show 0 ≤ (if 2 * (1 - 1 / S) > 1 then 1 else 2 * (1 - 1 / S))
    rw [if_neg hle]
    linarith
  · show (if 2 * (1 - 1 / S) > 1 then 1 else 2 * (1 - 1 / S)) ≤ 1
    rw [if_neg hle]
    linarith
  · show PerformanceAnalyzer.calculate_amdahl_speedup 2 (if 2 * (1 - 1 / S) > 1 then 1 else 2 * (1
      - 1 / S)) = _
    rw [if_neg hle]
    unfold PerformanceAnalyzer.calculate_amdahl_speedup
    rw [if_neg (by norm_num)]
    have h0 : ¬ (2 * (1 - 1 / S) < 0) := by linarith
    simp only [if_neg h0, if_neg hle]
    rw [PerformanceAnalyzer.div_some _ _ (by norm_num), Option.some_bind]
    have hden : 1 - 2 * (1 - 1 / S) + 2 * (1 - 1 / S) / ((2 : Int) : ℚ) = 1 / S := by
      push_cast
      ring
    rw [hden, PerformanceAnalyzer.div_some _ _ (by positivity)]
    congr 1
    field_simp
  · show 1 / ((1 - (if 2 * (1 - 1 / S) > 1 then 1 else 2 * (1 - 1 / S)))
        + (if 2 * (1 - 1 / S) > 1 then 1 else 2 * (1 - 1 / S)) / 2) = S
    rw [if_neg hle]
    have hden : 1 - 2 * (1 - 1 / S) + 2 * (1 - 1 / S) / 2 = 1 / S := by ring
    rw [hden]
    field_simp

theorem empirical_f_inverts_amdahl_witness :
    ∃ s1, PerformanceAnalyzer.calculate_empirical_f (3 / 2)
        PerformanceAnalyzer.PerformanceAnalyzer = some s1 ∧
      PerformanceAnalyzer.get_empirical_f s1 = 2 * (1 - 1 / (3 / 2)) ∧
      0 ≤ PerformanceAnalyzer.get_empirical_f s1 ∧ PerformanceAnalyzer.get_empirical_f s1 ≤ 1 ∧
      PerformanceAnalyzer.calculate_amdahl_speedup 2 (PerformanceAnalyzer.get_empirical_f s1) =
          some (3 / 2) ∧
      1 / ((1 - PerformanceAnalyzer.get_empirical_f s1) + PerformanceAnalyzer.get_empirical_f s1 /
          2) = 3 / 2 :=
  empirical_f_inverts_amdahl (3 / 2) PerformanceAnalyzer.PerformanceAnalyzer (by norm_num) (by
      norm_num)

/-- C25. After `calculate_empirical_f(1.5)` and `clear_results()` on a new analyzer,
`f_empirical_calculated` is false and `get_empirical_f()` returns `2/3`, not the
theoretical f `0.98`: `clear_results` resets the flag and leaves `f_empirical`. -/
theorem stale_empirical_f_after_clear :
    (PerformanceAnalyzer.run [PerformanceAnalyzer.Op.calculate_empirical_f (3 / 2),
        PerformanceAnalyzer.Op.clear_results] PerformanceAnalyzer.PerformanceAnalyzer).map
      (fun s => (s.f_empirical_calculated, PerformanceAnalyzer.get_empirical_f s,
          PerformanceAnalyzer.get_theoretical_f s))
      = some (false, 2 / 3, 98 / 100) := by
  simp only [PerformanceAnalyzer.run, PerformanceAnalyzer.apply_op]
  rw [PerformanceAnalyzer.calculate_empirical_f_gt _ _ (by norm_num)]
  simp only [Option.some_bind, Option.map_some', PerformanceAnalyzer.clear_results,
      PerformanceAnalyzer.get_empirical_f, PerformanceAnalyzer.get_theoretical_f,
    PerformanceAnalyzer.PerformanceAnalyzer, PerformanceAnalyzer.THEORETICAL_F]
  norm_num

/-- C26 (as amended). For `N * N < 2^31`, `1 ≤ B < 2^31` and a block range `[s, e)` within
the blocks `get_total_blocks` counts on 32-bit integers, with `+` and `*` that obey no
law: `worker_process(s, e)` on three buffers of `N * N` elements completes, and a cell
`(i, j)` of a block `t` of the range then holds the fold, over the k-blocks
`kb = 0, B, 2B, ...` in ascending order and starting from the content the cell had before,
of `acc := acc + s_kb`, where `s_kb` is the fold over `k` ascending in
`[kb, min(kb+B, N))` of `sum := sum + A[i*N+k] * B[k*N+j]` starting from `0.0`. The range
`[s, e)` does not occur in the value. -/
theorem worker_accumulation_order {α : Type} [Add α] [Mul α] [Zero α] (N B T : Nat)
    (hB : 1 ≤ B) (hB31 : B < 2 ^ 31) (hNN : N * N < 2 ^ 31)
    (hT : ProcessManager.Machine.get_total_blocks (N : Int) (B : Int) = some (T : Int))
    (shared_A shared_B shared_C : Nat → α) (s e t i j : Nat) (hs : s ≤ t)
    (ht : t < e) (he : e ≤ T) (hin : ProcessManager.in_block N B t i j) :
    ∃ C1, ProcessManager.Machine.worker_process (N : Int) (B : Int) (N * N) (N * N) (N * N)
        shared_A shared_B (s : Int) (e : Int) shared_C = Loop.Run.done C1 ∧
      C1 (i * N + j)
        = (List.range' 0 ((N + B - 1) / B) B).foldl
            (fun acc kb => acc + (List.range' kb (min (kb + B) N - kb)).foldl
              (fun sum k => sum + shared_A (i * N + k) * shared_B (k * N + j)) 0)
            (shared_C (i * N + j)) := by
  refine ⟨_, (ProcessManager.Machine.worker_process_machine N B hB hB31 hNN _ hT shared_A
    shared_B s e (by exact_mod_cast he) shared_C).1, ?_⟩
  have hj : j < N := by
    have := hin.2.2
    omega
  obtain ⟨rfl, hi⟩ := (ProcessManager.in_block_iff N B t i j hB hj).1 hin
  have hmem : ProcessManager.block_of N B i j ∈ ProcessManager.range_blocks (s, e) := by
    unfold ProcessManager.range_blocks
    rw [List.mem_range'_1]
    simp only []
    omega
  rw [ProcessManager.tiles_apply N B hB shared_A shared_B _
      (ProcessManager.range_blocks_nodup _) _ i j hj, if_pos ⟨hmem, hi⟩]
  rfl

theorem worker_accumulation_order_witness :
    ∃ C1, ProcessManager.Machine.worker_process ((5 : Nat) : Int) ((2 : Nat) : Int) (5 * 5)
        (5 * 5) (5 * 5) (fun idx => (idx : Int)) (fun idx => (idx : Int) + 1)
        ((3 : Nat) : Int) ((7 : Nat) : Int) (fun idx => (idx : Int)) = Loop.Run.done C1 ∧
      C1 (2 * 5 + 3)
        = (List.range' 0 ((5 + 2 - 1) / 2) 2).foldl
            (fun acc kb => acc + (List.range' kb (min (kb + 2) 5 - kb)).foldl
              (fun sum k => sum + ((2 * 5 + k : Nat) : Int) * (((k * 5 + 3 : Nat) : Int) + 1))
              0)
            (((2 * 5 + 3 : Nat) : Int)) :=
  worker_accumulation_order 5 2 9 (by decide) (by decide) (by decide) (by decide) _ _ _
    3 7 4 2 3 (by decide) (by decide) (by decide) (by decide)

/-- C26 (as stated, refuted). For `N = 50000` and `B = 43750`, on matrices of ones and a C
buffer of sevens, `worker_process(2, 3)` is killed at the first read for the cell
`(43750, 0)` of block 2: the cell keeps its 7, and the fold over the k-blocks, which is
50007, is not what the call leaves. -/
theorem worker_accumulation_overflow :
    ProcessManager.in_block 50000 43750 2 43750 0 ∧
    (ProcessManager.Machine.worker_process 50000 43750 (50000 * 50000) (50000 * 50000)
        (50000 * 50000) (fun _ => (1 : Int)) (fun _ => (1 : Int)) 2 3
        (fun _ => (7 : Int))).result.isNone = true ∧
    (ProcessManager.Machine.worker_process 50000 43750 (50000 * 50000) (50000 * 50000)
        (50000 * 50000) (fun _ => (1 : Int)) (fun _ => (1 : Int)) 2 3
        (fun _ => (7 : Int))).state.map (fun C => C (43750 * 50000 + 0))
      = some 7 ∧
    ProcessManager.cell_fold 50000 43750 (fun _ => (1 : Int)) (fun _ => (1 : Int)) 43750 0 7
      = 50007 := by
  refine ⟨by decide, by decide, by decide, ?_⟩
  rw [ProcessManager.cell_fold_eq 50000 43750 (by decide)]
  simp

/-- C27 (as amended). For `N, B, P ≥ 1` with `N * N`, `B` and `P` below `2^31`, three valid
segments and any outcome of the `fork()` calls: on 32-bit integers the distribution is
computed and the dispatch that follows `setup_shared_memory` returns, and in the matrix
copied back to the caller a cell `(i, j)` of a block in the range `distribution[p]` of
worker `p` holds the full sum `Σ_{k<N} A[i][k] * B[k][j]` when the child of `p` was
created, and `0` when it was not. -/
theorem spawn_failure_cells {α : Type} [Semiring α] (N B P : Nat) (hN : 1 ≤ N) (hB : 1 ≤ B)
    (hP : 1 ≤ P) (hNN : N * N < 2 ^ 31) (hB31 : B < 2 ^ 31) (hP31 : P < 2 ^ 31)
    (env : ProcessManager.Env) (matrixA matrixB matrixC : Nat → Nat → α)
    (sys : ProcessManager.System α)
    (hvA : (ProcessManager.setup_shared_memory N env matrixA matrixB sys).shm_A.map
      SharedMemory.is_valid = some true)
    (hvB : (ProcessManager.setup_shared_memory N env matrixA matrixB sys).shm_B.map
      SharedMemory.is_valid = some true)
    (hvC : (ProcessManager.setup_shared_memory N env matrixA matrixB sys).shm_C.map
      SharedMemory.is_valid = some true) :
    ∃ distribution r,
      ProcessManager.Machine.calculate_block_distribution (N : Int) (B : Int) (P : Int)
        = some distribution ∧
      ProcessManager.Machine.dispatch N B P env matrixC
        (ProcessManager.setup_shared_memory N env matrixA matrixB sys) = some r ∧
      ∀ p t i j : Nat, p < P →
        (distribution.getD p (0, 0)).1 ≤ (t : Int) →
        (t : Int) < (distribution.getD p (0, 0)).2 →
        ProcessManager.in_block N B t i j →
        r i j = if env.fork_ok p = true
          then ∑ k in Finset.range N, matrixA i k * matrixB k j else 0 := by
  obtain ⟨v, T, _, hT, hle, _, _, _⟩ := ProcessManager.Machine.blocks_machine N B hB hB31 hNN
  obtain ⟨hnb, _, _⟩ := Loop.blocks_bound N B hB
  have hnb1 : ProcessManager.num_blocks_per_dim N B ≤ N := hnb
  have hsq : ProcessManager.num_blocks_per_dim N B * ProcessManager.num_blocks_per_dim N B
      ≤ N * N := Nat.mul_le_mul hnb1 hnb1
  have hT31 : T < 2 ^ 31 := by
    have hle1 : T ≤ ProcessManager.num_blocks_per_dim N B
        * ProcessManager.num_blocks_per_dim N B := hle
    omega
  obtain ⟨hA, hBs, hCs⟩ :=
    ProcessManager.Machine.elements_setup N env matrixA matrixB sys hvA hvB hvC
  obtain ⟨r, hr, hcell⟩ := ProcessManager.Machine.dispatch_run N B P T hB hB31 hP hNN hP31 hT
    hT31 env matrixC _ hA hBs hCs hvC
  refine ⟨_, r, ProcessManager.Machine.calculate_block_distribution_nat N B P T hT hT31 hP
    hP31, hr, ?_⟩
  intro p t i j hp hlo hhi hin
  rw [ProcessManager.Machine.getD_ranges, ProcessManager.distribution_getD _ P p hp] at hlo hhi
  simp only [] at hlo hhi
  have hlo1 : ProcessManager.range_start T P p ≤ t := by exact_mod_cast hlo
  have hhi1 : t < ProcessManager.range_start T P (p + 1) := by exact_mod_cast hhi
  have hj : j < N := by
    have := hin.2.2
    omega
  obtain ⟨rfl, hi⟩ := (ProcessManager.in_block_iff N B t i j hB hj).1 hin
  obtain ⟨hmA, hmB, hmC⟩ :=
    ProcessManager.setup_content N env matrixA matrixB sys hvA hvB hvC
  rw [hcell i j hi hj, ProcessManager.Machine.children_cell N B P T hB env _ _ p i j hp hi hj
    ⟨hlo1, hhi1⟩]
  show (if env.fork_ok p = true then
      ProcessManager.cell_fold N B _ _ i j
        ((ProcessManager.setup_shared_memory N env matrixA matrixB sys).mem_C (i * N + j))
    else (ProcessManager.setup_shared_memory N env matrixA matrixB sys).mem_C (i * N + j)) = _
  rw [hmC _ (ProcessManager.flat_index_lt N i j hi hj), ProcessManager.cell_fold_eq N B hB,
    zero_add]
  by_cases hf : env.fork_ok p = true
  · rw [if_pos hf, if_pos hf]
    exact Finset.sum_congr rfl (fun k hk => by
      rw [hmA i k hi (Finset.mem_range.1 hk), hmB k j (Finset.mem_range.1 hk) hj])
  · rw [if_neg hf, if_neg hf]

theorem spawn_failure_cells_witness :
    ∃ distribution r,
      ProcessManager.Machine.calculate_block_distribution ((2 : Nat) : Int) ((1 : Nat) : Int)
        ((2 : Nat) : Int) = some distribution ∧
      ProcessManager.Machine.dispatch 2 1 2
        { ProcessManager.env_ok with fork_ok := fun p => decide (p = 0) } (fun _ _ => 7)
        (ProcessManager.setup_shared_memory 2
          { ProcessManager.env_ok with fork_ok := fun p => decide (p = 0) }
          (fun i j => ((i * 2 + j : Nat) : Int)) (fun i j => ((i + j : Nat) : Int))
          ProcessManager.fresh) = some r ∧
      ∀ p t i j : Nat, p < 2 →
        (distribution.getD p (0, 0)).1 ≤ (t : Int) →
        (t : Int) < (distribution.getD p (0, 0)).2 →
        ProcessManager.in_block 2 1 t i j →
        r i j = if decide (p = 0) = true
          then ∑ k in Finset.range 2, ((i * 2 + k : Nat) : Int) * ((k + j : Nat) : Int)
          else 0 :=
  spawn_failure_cells 2 1 2 (by decide) (by decide) (by decide) (by decide) (by decide)
    (by decide) { ProcessManager.env_ok with fork_ok := fun p => decide (p = 0) } _ _ _
    ProcessManager.fresh (by decide) (by decide) (by decide)

/-- C27 (as stated, refuted). For `N = 50000`, `B = 43750` and 4 workers of which only
worker 2 is created, from three valid segments of `N * N` doubles with A and B of ones and
C zeroed: the range of worker 2 is `[2, 3)` and the cell `(43750, 0)` lies in block 2. The
child is killed at its first read, whose index `43750 * 50000` has wrapped below zero, and
the caller gets 0 in that cell, where the full sum is 50000. -/
theorem spawn_failure_overflow :
    ProcessManager.Machine.calculate_block_distribution 50000 43750 4
      = some [(0, 1), (1, 2), (2, 3), (3, 4)] ∧
    ProcessManager.in_block 50000 43750 2 43750 0 ∧
    (ProcessManager.Machine.dispatch 50000 43750 4
        { ProcessManager.env_ok with fork_ok := fun p => decide (p = 2) } (fun _ _ => 7)
        (ProcessManager.Machine.mapped_system (50000 * 50000) (fun _ => (1 : Int))
          (fun _ => (1 : Int)))).map (fun M => M 43750 0) = some 0 ∧
    (∑ k in Finset.range 50000,
        (fun _ => (1 : Int)) (43750 * 50000 + k) * (fun _ => (1 : Int)) (k * 50000 + 0))
      = 50000 := by
  refine ⟨by decide, by decide, ?_, by simp⟩
  have h : ProcessManager.Machine.dispatch 50000 43750 4
      { ProcessManager.env_ok with fork_ok := fun p => decide (p = 2) } (fun _ _ => 7)
      (ProcessManager.Machine.mapped_system (50000 * 50000) (fun _ => (1 : Int))
        (fun _ => (1 : Int)))
      = some (ProcessManager.copy_result_from_shared 50000 (fun _ _ => (7 : Int))
          (ProcessManager.Machine.mapped_system (50000 * 50000) (fun _ => (1 : Int))
            (fun _ => (1 : Int)))).2 := by
    rfl
  rw [h, Option.map_some']
  exact congrArg some (ProcessManager.copy_result_apply 50000 (fun _ _ => (7 : Int))
    (ProcessManager.Machine.mapped_system (50000 * 50000) (fun _ => (1 : Int))
      (fun _ => (1 : Int))) (by decide) 43750 0 (by decide) (by decide)).1

/-- C28 (as amended). For `N * N < 2^31`, `1 ≤ B < 2^31` and
`0 ≤ block_start ≤ block_end ≤ get_total_blocks()`, the count taken on 32-bit integers,
on three buffers of `N * N` elements: `worker_process` with every read and write checked
against its buffer and every division checked is killed by no trap, and it completes. -/
theorem worker_indices_in_bounds {α : Type} [Add α] [Mul α] [Zero α] (N B T : Nat)
    (hN : 1 ≤ N) (hB : 1 ≤ B) (hB31 : B < 2 ^ 31) (hNN : N * N < 2 ^ 31)
    (hT : ProcessManager.Machine.get_total_blocks (N : Int) (B : Int) = some (T : Int))
    (shared_A shared_B shared_C : Nat → α)
    (block_start block_end : Nat) (hse : block_start ≤ block_end) (he : block_end ≤ T) :
    (ProcessManager.Machine.worker_process (N : Int) (B : Int) (N * N) (N * N) (N * N)
        shared_A shared_B (block_start : Int) (block_end : Int) shared_C).fault = none ∧
    ∃ C1, ProcessManager.Machine.worker_process (N : Int) (B : Int) (N * N) (N * N) (N * N)
        shared_A shared_B (block_start : Int) (block_end : Int) shared_C
        = Loop.Run.done C1 := by
  obtain ⟨h1, _, _⟩ := ProcessManager.Machine.worker_process_machine N B hB hB31 hNN _ hT
    shared_A shared_B block_start block_end (by exact_mod_cast he) shared_C
  refine ⟨?_, _, h1⟩
  rw [h1]
  rfl

theorem worker_indices_in_bounds_witness :
    (ProcessManager.Machine.worker_process ((3 : Nat) : Int) ((2 : Nat) : Int) (3 * 3) (3 * 3)
        (3 * 3) (fun idx => (idx : Int)) (fun idx => (idx : Int) + 1) ((1 : Nat) : Int)
        ((4 : Nat) : Int) (fun _ => 0)).fault = none ∧
    ∃ C1, ProcessManager.Machine.worker_process ((3 : Nat) : Int) ((2 : Nat) : Int) (3 * 3)
        (3 * 3) (3 * 3) (fun idx => (idx : Int)) (fun idx => (idx : Int) + 1)
        ((1 : Nat) : Int) ((4 : Nat) : Int) (fun _ => 0) = Loop.Run.done C1 :=
  worker_indices_in_bounds 3 2 4 (by decide) (by decide) (by decide) (by decide) (by decide)
    _ _ _ 1 4 (by decide) (by decide)

/-- C28 (as stated, refuted). For `N = 50000` and `B = 43750` there are 4 blocks, and
`worker_process(2, 3)` on three buffers of `N * N` elements is killed by an access outside
a buffer: for `i = 43750` the product `i * N` wraps to `-2107467296`, and the read of
`shared_A` at that index is out of bounds. -/
theorem worker_index_overflow :
    ProcessManager.Machine.get_total_blocks 50000 43750 = some 4 ∧
    (ProcessManager.Machine.worker_process 50000 43750 (50000 * 50000) (50000 * 50000)
        (50000 * 50000) (fun _ => (1 : Int)) (fun _ => (1 : Int)) 2 3 (fun _ => 0)).fault
      = some Loop.Fault.bounds ∧
    Utils.wrap32 (Utils.wrap32 (43750 * 50000) + 0) = -2107467296 ∧
    (ProcessManager.Machine.load (50000 * 50000) (fun _ => (1 : Int))
        (Utils.wrap32 (Utils.wrap32 (43750 * 50000) + 0))).isNone = true :=
  ⟨by decide, by decide, by decide, by decide⟩

/-- C29. For `10 ≤ N ≤ 10000`, `B` in `[32, 256]` and a block range within
`[0, get_total_blocks())`: `N * N` is below `2^31`, and the byte count computed with a
wrapping 32-bit product is `N * N * 8`; `(N + B - 1) / B` squared is below `2^31`, and
`get_total_blocks` computed with wrapping 32-bit operations is the exact block count; and
every `int` value `worker_process` computes (block coordinates and offsets, the bounds
`i_start + B`, `j_start + B`, `k + B`, the indices `i*N+kk`, `kk*N+j`, `i*N+j`) is below
`2^31`. -/
theorem engine_ints_fit (N B : Nat) (hN1 : 10 ≤ N) (hN2 : N ≤ 10000) (hB1 : 32 ≤ B)
    (hB2 : B ≤ 256) (block_start block_end : Nat) (hse : block_start ≤ block_end)
    (he : block_end ≤ ProcessManager.get_total_blocks N B) :
    N * N < 2 ^ 31 ∧
    ProcessManager.matrix_bytes (N : Int) = ((N * N * 8 : Nat) : Int) ∧
    (N + B - 1) / B * ((N + B - 1) / B) < 2 ^ 31 ∧
    ProcessManager.get_total_blocks_int (N : Int) (B : Int)
      = ((ProcessManager.get_total_blocks N B : Nat) : Int) ∧
    ∃ V, ProcessManager.worker_int_values N B block_start block_end = some V ∧
      ∀ v ∈ V, v < 2 ^ 31 := by
  have hNN : N * N ≤ 10000 * 10000 := Nat.mul_le_mul hN2 hN2
  have hnb : ProcessManager.num_blocks_per_dim N B ≤ N := (Loop.blocks_bound N B (by omega)).1
  have hnn : ProcessManager.num_blocks_per_dim N B * ProcessManager.num_blocks_per_dim N B
      ≤ 10000 * 10000 := Nat.mul_le_mul (by omega) (by omega)
  have h31 : N * N < 2 ^ 31 := by omega
  refine ⟨h31, ProcessManager.matrix_bytes_exact N h31, ?_, ?_, ?_⟩
  · exact lt_of_le_of_lt hnn (by norm_num)
  · exact ProcessManager.get_total_blocks_int_exact N B (by omega) (by omega)
      (lt_of_le_of_lt hnn (by norm_num))
  · refine ⟨_, ProcessManager.worker_int_values_eq N B (by omega) block_start block_end, ?_⟩
    intro v hv
    have := ProcessManager.int_values_bounded N B (10000 * 10000) (by omega) hNN (by omega)
      block_start block_end he v hv
    omega

theorem engine_ints_fit_witness :
    10 * 10 < 2 ^ 31 ∧
    ProcessManager.matrix_bytes ((10 : Nat) : Int) = ((10 * 10 * 8 : Nat) : Int) ∧
    (10 + 32 - 1) / 32 * ((10 + 32 - 1) / 32) < 2 ^ 31 ∧
    ProcessManager.get_total_blocks_int ((10 : Nat) : Int) ((32 : Nat) : Int)
      = ((ProcessManager.get_total_blocks 10 32 : Nat) : Int) ∧
    ∃ V, ProcessManager.worker_int_values 10 32 0 1 = some V ∧
      ∀ v ∈ V, v < 2 ^ 31 :=
  engine_ints_fit 10 32 (by decide) (by decide) (by decide) (by decide) 0 1 (by decide)
    (by decide)

/-- C30 (as amended). Over the rationals, every sequence of `set_sequential_time`, `analyze_result`,
`calculate_empirical_f` and `clear_results` on a new analyzer returns, whatever the
arguments, and in the state it reaches: the denominator `1 - f` of
`get_max_theoretical_speedup` is not negative; it is `0.02` while the empirical f is not
calculated; the division fails exactly when the empirical f is calculated and equal to 1;
and `calculate_empirical_f(S)` with `S > 1` leaves a zero denominator exactly when
`S ≥ 2`. -/
theorem max_speedup_denominator (ops : List PerformanceAnalyzer.Op) :
    ∃ s, PerformanceAnalyzer.run ops PerformanceAnalyzer.PerformanceAnalyzer = some s ∧
    0 ≤ 1 - PerformanceAnalyzer.f_to_use s ∧
    (s.f_empirical_calculated = false → 1 - PerformanceAnalyzer.f_to_use s = 2 / 100) ∧
    (PerformanceAnalyzer.get_max_theoretical_speedup s = none ↔
      s.f_empirical_calculated = true ∧ s.f_empirical = 1) ∧
    (∀ S : ℚ, 1 < S → ∃ s1, PerformanceAnalyzer.calculate_empirical_f S s = some s1 ∧
      (1 - PerformanceAnalyzer.f_to_use s1 = 0 ↔ 2 ≤ S)) := by
  obtain ⟨s, h, ht, h0, h1⟩ :=
    PerformanceAnalyzer.run_total ops _ PerformanceAnalyzer.inv_init
  refine ⟨s, h, ?_, ?_, ?_, ?_⟩
  · unfold PerformanceAnalyzer.f_to_use
    split
    · linarith
    · rw [ht]; unfold PerformanceAnalyzer.THEORETICAL_F; norm_num
  · intro hc
    unfold PerformanceAnalyzer.f_to_use
    rw [hc, ht]
    unfold PerformanceAnalyzer.THEORETICAL_F
    norm_num
  · unfold PerformanceAnalyzer.get_max_theoretical_speedup PerformanceAnalyzer.div
      PerformanceAnalyzer.f_to_use
    cases hc : s.f_empirical_calculated
    · simp [ht, PerformanceAnalyzer.THEORETICAL_F]
      norm_num
    · simp
      constructor
      · intro h; linarith
      · intro h; linarith
  · intro S hS
    refine ⟨_, PerformanceAnalyzer.calculate_empirical_f_gt S s hS, ?_⟩
    unfold PerformanceAnalyzer.f_to_use
    simp only [if_true]
    have hpos : 0 < S := by linarith
    by_cases h2 : 2 ≤ S
    · have hq : 1 / S ≤ 1 / 2 := by
        rw [div_le_div_iff₀ hpos (by norm_num)]
        linarith
      by_cases hgt : 2 * (1 - 1 / S) > 1
      · rw [if_pos hgt]
        simp [h2]
      · rw [if_neg hgt]
        constructor
        · intro _; exact h2
        · intro _; linarith
    · have hq : 1 / 2 < 1 / S := by
        rw [div_lt_div_iff₀ (by norm_num) hpos]
        linarith
      have hgt : ¬ (2 * (1 - 1 / S) > 1) := by linarith
      rw [if_neg hgt]
      constructor
      · intro h; linarith
      · intro h; exact absurd h h2

/-- C30 (as stated, refuted). With a sequential time of 2 and a measurement of 1 for two
processes the speedup is 2, the empirical f is 1, and `get_max_theoretical_speedup`
divides by zero; so it does after a measurement of 0, whose speedup is infinite. -/
theorem max_speedup_divides_by_zero :
    (PerformanceAnalyzer.run [PerformanceAnalyzer.Op.set_sequential_time 2,
        PerformanceAnalyzer.Op.analyze_result 2 1 100] PerformanceAnalyzer.PerformanceAnalyzer).map
      PerformanceAnalyzer.get_max_theoretical_speedup = some none ∧
    (PerformanceAnalyzer.run [PerformanceAnalyzer.Op.set_sequential_time 2,
        PerformanceAnalyzer.Op.analyze_result 2 0 100] PerformanceAnalyzer.PerformanceAnalyzer).map
      PerformanceAnalyzer.get_max_theoretical_speedup = some none := by
  have h : PerformanceAnalyzer.analyze_result 2 1 100 (PerformanceAnalyzer.set_sequential_time 2
      PerformanceAnalyzer.PerformanceAnalyzer)
      = some { sequential_time := 2
               f_theoretical := 98 / 100
               f_empirical := 1
               f_empirical_calculated := true
               results := [{ num_processes := 2, time_seconds := 1, gflops := 2 / 1000,
                             speedup_exp := PerformanceAnalyzer.Double.fin 2,
                             speedup_amdahl := 2,
                             efficiency := PerformanceAnalyzer.Double.fin 1,
                             granularity := "Gruesa" }] } := by
    simp [PerformanceAnalyzer.analyze_result, PerformanceAnalyzer.calculate_gflops,
        PerformanceAnalyzer.div, PerformanceAnalyzer.set_sequential_time,
        PerformanceAnalyzer.PerformanceAnalyzer, PerformanceAnalyzer.Double.quot,
        PerformanceAnalyzer.Double.over, PerformanceAnalyzer.Double.gt,
        PerformanceAnalyzer.calculate_empirical_f_double,
      PerformanceAnalyzer.calculate_empirical_f, PerformanceAnalyzer.calculate_amdahl_speedup,
          PerformanceAnalyzer.f_to_use, PerformanceAnalyzer.determine_granularity,
      PerformanceAnalyzer.GIGA, PerformanceAnalyzer.THEORETICAL_F]
    norm_num
  have h0 : PerformanceAnalyzer.analyze_result 2 0 100 (PerformanceAnalyzer.set_sequential_time 2
      PerformanceAnalyzer.PerformanceAnalyzer)
      = some { sequential_time := 2
               f_theoretical := 98 / 100
               f_empirical := 1
               f_empirical_calculated := true
               results := [{ num_processes := 2, time_seconds := 0, gflops := 0,
                             speedup_exp := PerformanceAnalyzer.Double.pos_inf,
                             speedup_amdahl := 2,
                             efficiency := PerformanceAnalyzer.Double.pos_inf,
                             granularity := "Gruesa" }] } := by
    simp [PerformanceAnalyzer.analyze_result, PerformanceAnalyzer.calculate_gflops,
        PerformanceAnalyzer.div, PerformanceAnalyzer.set_sequential_time,
        PerformanceAnalyzer.PerformanceAnalyzer, PerformanceAnalyzer.Double.quot,
        PerformanceAnalyzer.Double.over, PerformanceAnalyzer.Double.gt,
        PerformanceAnalyzer.calculate_empirical_f_double,
      PerformanceAnalyzer.calculate_amdahl_speedup,
          PerformanceAnalyzer.f_to_use, PerformanceAnalyzer.determine_granularity,
      PerformanceAnalyzer.THEORETICAL_F]
    norm_num
  constructor
  · simp only [PerformanceAnalyzer.run, PerformanceAnalyzer.apply_op, Option.some_bind]
    rw [h]
    simp [PerformanceAnalyzer.get_max_theoretical_speedup, PerformanceAnalyzer.f_to_use,
        PerformanceAnalyzer.div]
  · simp only [PerformanceAnalyzer.run, PerformanceAnalyzer.apply_op, Option.some_bind]
    rw [h0]
    simp [PerformanceAnalyzer.get_max_theoretical_speedup, PerformanceAnalyzer.f_to_use,
        PerformanceAnalyzer.div]
